import Mathlib

/-!
# The device string table of `testoptix` (`src/testoptix/stringtable.cpp`)

A shallow embedding of `StringTable` and proofs about it.

Conventions of the embedding.

* `size_t` quantities (`m_size`, `m_offset`, `size`) are natural numbers, `int`
  quantities (`offset`, the result of `getOffset`) are integers.  The two places
  where the source narrows a `size_t` to 32 bits are modelled as such: the
  conversion `int offset = m_offset` at line 105 (`toInt32`) and the mask
  `~0x7u` at line 114 (`alignUp8`).  Sums of `size_t` values are not reduced
  modulo `2 ^ 64`.
* `ASSERT` aborts the process; here a failed assertion ends the call with a
  `Failure` and the table as it was when the assertion fired.
* Everything the source uses but does not define (the CUDA allocator, the hash
  of a `ustring`, the iteration order of `m_name_map`, the contents of
  `OSL/strdecls.h`) is a field of `Platform`, and every theorem holds for every
  `Platform`.
* `addString` and `reallocTable` call each other; the first argument of
  `addString` bounds how deeply `reallocTable` may nest.
-/

namespace OSL

/-! ## Data model -/

/-- One `char`. -/
abbrev Byte := Fin 256

/-- The characters of an `OIIO::ustring`, without the terminator. -/
abbrev ustring := List Byte

/-- An `optix::Context`: the number of enabled devices and, per variable name,
the 8 bytes of user data last stored with `setUserData`. -/
structure Context where
  enabledDeviceCount : Nat
  vars : ustring → Option Nat

/-- The statement `ctx[name]->setUserData (8, &addr)`. -/
def Context.setUserData (ctx : Context) (name : ustring) (addr : Nat) : Context :=
  { ctx with vars := fun n => if n = name then some addr else ctx.vars n }

/-- What `stringtable.cpp` takes from elsewhere.

* `cudaMalloc k n` is the address that the `k`-th call of `cudaMalloc` (counted
  from 0) returns for a request of `n` bytes, and `fresh k` is what the block
  holds before anything is copied into it;
* `hash` is `ustring::hash`;
* `iter` is the order in which `for (auto& entry : m_name_map)` visits the
  entries of the map (the container is declared in `stringtable.h`); all that
  is known of it is that every entry is visited once;
* `strdecls` are the `STRDECL (str, var_name)` lines of `OSL/strdecls.h`. -/
structure Platform where
  cudaMalloc : Nat → Nat → Nat
  fresh : Nat → Nat → Byte
  hash : ustring → Nat
  iter : List (ustring × ustring) → List (ustring × ustring)
  iter_perm : ∀ m, (iter m).Perm m
  strdecls : List (ustring × ustring)

/-- The members of `StringTable`, followed by the state of the device that the
table owns: the contents of the block `m_ptr` points to, by offset, and the
number of `cudaMalloc` calls made so far. -/
structure StringTable where
  m_ptr : Option Nat
  m_size : Nat
  m_offset : Nat
  m_optix_ctx : Context
  m_offset_map : List (ustring × Int)
  m_name_map : List (ustring × ustring)
  block : Nat → Byte
  mallocs : Nat

/-- The four assertions of the source, and the exhaustion of the nesting bound
of the model. -/
inductive Failure
  /-- `! m_ptr && "StringTable should only be initialized once"` -/
  | alreadyInitialized
  /-- `getEnabledDeviceCount() == 1 && "Only one CUDA device is currently supported"` -/
  | unsupportedDeviceTopology
  /-- `m_ptr && "StringTable has not been initialized"` -/
  | notInitialized
  /-- `m_offset + size <= m_size && "String table allocation error"` -/
  | allocationError
  /-- `reallocTable` nested more deeply than the bound given to `addString`. -/
  | callDepth
  deriving DecidableEq, Repr

/-- How a call ends: with a value, or with a failed assertion; either way with
the table as the call left it. -/
inductive Outcome (α : Type)
  | ok (value : α) (table : StringTable)
  | fail (failure : Failure) (table : StringTable)

/-- The table a call left behind. -/
def Outcome.table {α : Type} : Outcome α → StringTable
  | .ok _ s => s
  | .fail _ s => s

/-- The value a call returned, if it returned. -/
def Outcome.value? {α : Type} : Outcome α → Option α
  | .ok a _ => some a
  | .fail _ _ => none

/-- The assertion a call failed, if it did. -/
def Outcome.failure? {α : Type} : Outcome α → Option Failure
  | .ok _ _ => none
  | .fail e _ => some e

/-! ## The two maps -/

/-- The lookup `m.find (k)`. -/
def assocFind {β : Type} (k : ustring) : List (ustring × β) → Option β
  | [] => none
  | (k', v) :: m => if k' = k then some v else assocFind k m

/-- The assignment `m[k] = v`: the value of an existing key is replaced where it
stands, a new key gets a new entry. -/
def assocSet {β : Type} (k : ustring) (v : β) : List (ustring × β) → List (ustring × β)
  | [] => [(k, v)]
  | (k', v') :: m => if k' = k then (k, v) :: m else (k', v') :: assocSet k v m

/-- The keys of a map. -/
def keys {β : Type} (m : List (ustring × β)) : List ustring := m.map Prod.fst

/-! ## Bytes -/

/-- The 8 bytes of a `size_t` as `cudaMemcpy` reads them from the host
(least significant byte first). -/
def sizeBytes (n : Nat) : List Byte :=
  (List.range 8).map fun i => ⟨n / 256 ^ i % 256, Nat.mod_lt _ (by decide)⟩

/-- The `size_t` that bytes stand for when read least significant byte first. -/
def bytesSize (bs : List Byte) : Nat := bs.foldr (fun b n => b.val + 256 * n) 0

/-- The call `cudaMemcpy (m_ptr + dst, src, src.length, cudaMemcpyHostToDevice)`. -/
def cudaMemcpy (block : Nat → Byte) (dst : Nat) (src : List Byte) : Nat → Byte :=
  fun i => if dst ≤ i then (src.get? (i - dst)).getD (block i) else block i

/-- The `n` bytes of the block from offset `start` on. -/
def readBytes (block : Nat → Byte) (start n : Nat) : List Byte :=
  (List.range n).map fun i => block (start + i)

/-- The expression `(n + 0x7u) & ~0x7u` of line 114.  The mask `~0x7u` is an
`unsigned int`, `0xFFFFFFF8`, and is widened with zeros to the 64 bits of
`m_offset`: the expression keeps bits 3 to 31 of `n + 7` and clears all others.
For `n + 7 < 2 ^ 32` this is `n` rounded up to a multiple of 8. -/
def alignUp8 (n : Nat) : Nat := (n + 7) % 2 ^ 32 / 8 * 8

/-- The conversion of a `size_t` to `int` (32 bits, two's complement), as in
`offset = m_offset` at line 105: the low 32 bits, read as a signed number. -/
def toInt32 (n : Nat) : Int :=
  if n % 2 ^ 32 < 2 ^ 31 then ((n % 2 ^ 32 : Nat) : Int) else ((n % 2 ^ 32 : Nat) : Int) - 2 ^ 32

/-- The bytes a record takes in the block, padding included: header, characters
and terminator, rounded up to a multiple of 8. -/
def recordSpan (str : ustring) : Nat := (8 + 8 + str.length + 1 + 7) / 8 * 8

/-- The bytes the records of the strings `ks` take together. -/
def packedSize (ks : List ustring) : Nat := (ks.map recordSpan).sum

/-! ## The operations -/

/-- The constructor `StringTable::StringTable()`. -/
def StringTable.new : StringTable where
  m_ptr := none
  m_size := 1 <<< 16
  m_offset := 0
  m_optix_ctx := ⟨0, fun _ => none⟩
  m_offset_map := []
  m_name_map := []
  block := fun _ => 0
  mallocs := 0

/-- The method `StringTable::getOffset`. -/
def getOffset (s : StringTable) (str : ustring) : Int :=
  match assocFind str s.m_offset_map with
  | some off => off
  | none => -1

/-- The branch `if (offset < 0) { ... }` of `addString` (lines 96 to 115): the
record is copied to the block at the cursor and entered in both maps.  The
result is the table and the new value of `offset`. -/
def writeRecord (d : Platform) (s : StringTable) (str var_name : ustring) :
    StringTable × Int :=
  let s1 := { s with block := cudaMemcpy s.block s.m_offset (sizeBytes (d.hash str)),
                     m_offset := s.m_offset + 8 }
  let s2 := { s1 with block := cudaMemcpy s1.block s1.m_offset (sizeBytes str.length),
                      m_offset := s1.m_offset + 8 }
  let offset : Int := toInt32 s2.m_offset
  let s3 := { s2 with m_offset_map := assocSet str offset s2.m_offset_map,
                      m_name_map := assocSet str var_name s2.m_name_map }
  let s4 := { s3 with block := cudaMemcpy s3.block s3.m_offset (str ++ [0]),
                      m_offset := s3.m_offset + (str.length + 1) }
  ({ s4 with m_offset := alignUp8 s4.m_offset }, offset)

/-- Lines 122 to 124 of `addString`: the address is stored in the context under
a name that is not empty. -/
def publish (s : StringTable) (var_name : ustring) (addr : Nat) : StringTable :=
  if var_name ≠ [] then
    { s with m_optix_ctx := s.m_optix_ctx.setUserData var_name addr }
  else s

/-- Lines 92 to 126 of `addString`: what follows the growth check.  The address
`m_ptr + offset` is formed with the `int` that `offset` is, which may be
negative; an address below 0, which no pointer has, is given as 0. -/
def addStringTail (d : Platform) (s : StringTable) (str var_name : ustring) : Outcome Nat :=
  let size := 8 + 8 + str.length + 1
  if ¬ (s.m_offset + size ≤ s.m_size) then .fail .allocationError s
  else
    let r := if getOffset s str < 0 then writeRecord d s str var_name else (s, getOffset s str)
    let addr : Nat := (((r.1.m_ptr.getD 0 : Nat) : Int) + r.2).toNat
    .ok addr (publish r.1 var_name addr)

/-- The body of `StringTable::addString`, with the method it calls at line 87
as an argument. -/
def addStringWith (d : Platform) (realloc : StringTable → Outcome Unit)
    (s : StringTable) (str var_name : ustring) : Outcome Nat :=
  match s.m_ptr with
  | none => .fail .notInitialized s
  | some _ =>
    let size := 8 + 8 + str.length + 1
    if s.m_offset + size ≥ s.m_size then
      match realloc s with
      | .fail e s1 => .fail e s1
      | .ok _ s1 => addStringTail d s1 str var_name
    else addStringTail d s str var_name

/-- A run of `addString` calls, one per pair, whose results are dropped: the
loop of `reallocTable` and the expansion of `strdecls.h` in `init`. -/
def replay (add : StringTable → ustring → ustring → Outcome Nat) :
    List (ustring × ustring) → StringTable → Outcome Unit
  | [], s => .ok () s
  | e :: es, s =>
    match add s e.1 e.2 with
    | .fail err s1 => .fail err s1
    | .ok _ s1 => replay add es s1

/-- The body of `StringTable::reallocTable`, with the method it calls at
line 152 as an argument. -/
def reallocTableWith (d : Platform) (add : StringTable → ustring → ustring → Outcome Nat)
    (s : StringTable) : Outcome Unit :=
  if s.m_optix_ctx.enabledDeviceCount ≠ 1 then .fail .unsupportedDeviceTopology s
  else
    let s1 := { s with m_size := s.m_size * 2 }
    let s2 := { s1 with m_ptr := some (d.cudaMalloc s1.mallocs s1.m_size),
                        block := d.fresh s1.mallocs,
                        mallocs := s1.mallocs + 1 }
    let s3 := { s2 with m_offset := 0, m_offset_map := [] }
    replay add (d.iter s3.m_name_map) s3

/-- The method `StringTable::addString`.  The first argument is the number of
`reallocTable` calls that may be open at once below this call. -/
def addString (d : Platform) : Nat → StringTable → ustring → ustring → Outcome Nat
  | 0 => addStringWith d (fun s => .fail .callDepth s)
  | depth + 1 => addStringWith d (reallocTableWith d (addString d depth))

/-- The method `StringTable::reallocTable`, called from an `addString` of the
given depth. -/
def reallocTable (d : Platform) (depth : Nat) (s : StringTable) : Outcome Unit :=
  reallocTableWith d (addString d depth) s

/-- The text `DeviceStrings::`. -/
def deviceStrings : ustring :=
  [68, 101, 118, 105, 99, 101, 83, 116, 114, 105, 110, 103, 115, 58, 58]

/-- The arguments of the `addString` call that `STRDECL (str, var_name)` expands to. -/
def strdecl (e : ustring × ustring) : ustring × ustring := (e.1, deviceStrings ++ e.2)

/-- The method `StringTable::init`. -/
def init (d : Platform) (depth : Nat) (ctx : Context) (s : StringTable) : Outcome Unit :=
  match s.m_ptr with
  | some _ => .fail .alreadyInitialized s
  | none =>
    let s1 := { s with m_optix_ctx := ctx }
    if s1.m_optix_ctx.enabledDeviceCount ≠ 1 then .fail .unsupportedDeviceTopology s1
    else
      let s2 := { s1 with m_ptr := some (d.cudaMalloc s1.mallocs s1.m_size),
                          block := d.fresh s1.mallocs,
                          mallocs := s1.mallocs + 1 }
      replay (addString d depth) (d.strdecls.map strdecl) s2

/-! ## Reachable tables -/

/-- The table `s` is what `init` followed by successful `addString` calls made
of a newly constructed table; the index lists the arguments of the successful
calls so far, those of `init` included, oldest first. -/
inductive Reached (d : Platform) : List (ustring × ustring) → StringTable → Prop
  | init (depth : Nat) (ctx : Context) (s : StringTable) :
      init d depth ctx StringTable.new = .ok () s →
      Reached d (d.strdecls.map strdecl) s
  | addString (depth : Nat) (calls : List (ustring × ustring)) (s : StringTable)
      (str var_name : ustring) (addr : Nat) (s1 : StringTable) :
      Reached d calls s →
      addString d depth s str var_name = .ok addr s1 →
      Reached d (calls ++ [(str, var_name)]) s1

/-- Reachable with some history of calls. -/
def Reachable (d : Platform) (s : StringTable) : Prop := ∃ calls, Reached d calls s

/-! ## The shape of a reachable table -/

/-- The block holds the record of `str` with its characters at offset `p`:
hash, length, characters, terminator. -/
def RecordAt (d : Platform) (block : Nat → Byte) (str : ustring) (p : Nat) : Prop :=
  16 ≤ p ∧
  readBytes block (p - 16) 8 = sizeBytes (d.hash str) ∧
  readBytes block (p - 8) 8 = sizeBytes str.length ∧
  readBytes block p (str.length + 1) = str ++ [0]

/-- The block and the offset index hold exactly the records of the strings
`ks`, packed below the cursor, and no two records overlap. -/
structure Layout (d : Platform) (s : StringTable) (ks : List ustring) : Prop where
  cursor : s.m_offset = packedSize ks
  found : ∀ k ∈ ks, ∃ p : Nat, assocFind k s.m_offset_map = some (p : Int)
  stored : ∀ k (o : Int), assocFind k s.m_offset_map = some o →
    k ∈ ks ∧ ∃ p : Nat, o = (p : Int) ∧ 8 ∣ p ∧ p + k.length + 1 ≤ s.m_offset ∧
      RecordAt d s.block k p
  apart : ∀ (k₁ k₂ : ustring) (p₁ p₂ : Nat), k₁ ≠ k₂ →
    assocFind k₁ s.m_offset_map = some (p₁ : Int) →
    assocFind k₂ s.m_offset_map = some (p₂ : Int) →
    p₁ + k₁.length + 1 + 16 ≤ p₂ ∨ p₂ + k₂.length + 1 + 16 ≤ p₁

/-- What holds of every reachable table of at most `2 ^ 31` bytes, and of any
table whose records all lie where the cursor was when they were written. -/
structure Inv (d : Platform) (s : StringTable) : Prop where
  ptr : ∃ p, s.m_ptr = some p
  devices : s.m_optix_ctx.enabledDeviceCount = 1
  size : ∃ j, s.m_size = 65536 * 2 ^ j
  bound : s.m_offset ≤ s.m_size
  nodup : (keys s.m_name_map).Nodup
  layout : Layout d s (keys s.m_name_map)

/-- The table `t` is what `reallocTable`, called on `s`, has made of it once its
loop has visited the entries `pre`: a block of twice the size at the address
the allocator gave, holding the records of `pre` in the order of `pre`, and a
context in which every name that only one visited entry carries is bound to
where the string of that entry now is. -/
structure Replayed (d : Platform) (s : StringTable) (pre : List (ustring × ustring))
    (t : StringTable) : Prop where
  m_size : t.m_size = s.m_size * 2
  m_ptr : t.m_ptr = some (d.cudaMalloc s.mallocs (s.m_size * 2))
  mallocs : t.mallocs = s.mallocs + 1
  m_name_map : t.m_name_map = s.m_name_map
  devices : t.m_optix_ctx.enabledDeviceCount = 1
  layout : Layout d t (keys pre)
  bound : ∀ e ∈ pre, e.2 ≠ [] → (∀ e' ∈ pre, e'.2 = e.2 → e' = e) →
    ∃ p : Nat, assocFind e.1 t.m_offset_map = some (p : Int) ∧
      t.m_optix_ctx.vars e.2 = some (d.cudaMalloc s.mallocs (s.m_size * 2) + p)
  unbound : ∀ n, (∀ e ∈ pre, e.2 ≠ n) → t.m_optix_ctx.vars n = s.m_optix_ctx.vars n
  order : ∀ pre₁ e post₁, pre = pre₁ ++ e :: post₁ →
    assocFind e.1 t.m_offset_map = some ((packedSize (keys pre₁) + 16 : Nat) : Int)

/-- What holds of every reachable table whatever its size: a block of
`65536 * 2 ^ j` bytes on one device, every string of the name index entered
once and short enough for the block, and the cursor and every stored offset
a multiple of 8. -/
structure Wide (d : Platform) (s : StringTable) : Prop where
  ptr : ∃ p, s.m_ptr = some p
  devices : s.m_optix_ctx.enabledDeviceCount = 1
  size : ∃ j, s.m_size = 65536 * 2 ^ j
  nodup : (keys s.m_name_map).Nodup
  fits : ∀ k ∈ keys s.m_name_map, 8 + 8 + k.length + 1 ≤ s.m_size
  cursor : 8 ∣ s.m_offset
  aligned : ∀ k (o : Int), assocFind k s.m_offset_map = some o → (8 : Int) ∣ o

/-- The table `t` is what the loop of `reallocTable`, called on `s`, has made of
it after some of its rounds, in terms that hold at every size: a block of
twice the size, the name index as it was, and a cursor below `2 ^ 32`. -/
structure Rebuilt (d : Platform) (s t : StringTable) : Prop where
  m_size : t.m_size = s.m_size * 2
  m_ptr : t.m_ptr = some (d.cudaMalloc s.mallocs (s.m_size * 2))
  m_name_map : t.m_name_map = s.m_name_map
  devices : t.m_optix_ctx.enabledDeviceCount = 1
  cursor : 8 ∣ t.m_offset
  below : t.m_offset < 2 ^ 32
  aligned : ∀ k (o : Int), assocFind k t.m_offset_map = some o → (8 : Int) ∣ o

/-- A table on which `init` has not succeeded: as the constructor left it, but
for the context, which an `init` that failed on the number of devices has
already stored. -/
def Uninitialized (s : StringTable) : Prop :=
  ∃ ctx, s = { StringTable.new with m_optix_ctx := ctx }

/-! ## Further notions for the later sections -/

/-- The table that `init` hands to the `addString` calls of `strdecls.h`: a
newly constructed table with the context stored and the first block
allocated. -/
def allocated (d : Platform) (ctx : Context) : StringTable :=
  { StringTable.new with
    m_optix_ctx := ctx
    m_ptr := some (d.cudaMalloc StringTable.new.mallocs StringTable.new.m_size)
    block := d.fresh StringTable.new.mallocs
    mallocs := StringTable.new.mallocs + 1 }

/-- The table of `reallocTable` at line 149, before its loop: the capacity
doubled, a new block, the cursor at 0 and the offset index empty. -/
def reallocStart (d : Platform) (s : StringTable) : StringTable :=
  { s with
    m_size := s.m_size * 2
    m_ptr := some (d.cudaMalloc s.mallocs (s.m_size * 2))
    block := d.fresh s.mallocs
    mallocs := s.mallocs + 1
    m_offset := 0
    m_offset_map := [] }

/-- Every table the program can hold: the constructed one, and the one any
call of `init` or `addString` leaves, whether the call returned or failed an
assertion. -/
inductive Run (d : Platform) : StringTable → Prop
  | new : Run d StringTable.new
  | init (depth : Nat) (ctx : Context) (s : StringTable) :
      Run d s → Run d (init d depth ctx s).table
  | addString (depth : Nat) (s : StringTable) (str var_name : ustring) :
      Run d s → Run d (addString d depth s str var_name).table

/-- The records lie in the block in the order of the name index: the offset of
an entry is 16 more than the bytes that the records of the entries before it
take. -/
def Ordered (s : StringTable) : Prop :=
  ∀ pre e post, s.m_name_map = pre ++ e :: post →
    assocFind e.1 s.m_offset_map = some ((packedSize (keys pre) + 16 : Nat) : Int)

/-! ## Concrete tables -/

/-- A platform whose allocator hands out blocks 16 MiB apart, whose map is
visited in the order of insertion, and whose `strdecls.h` is empty. -/
def examplePlatform : Platform where
  cudaMalloc := fun k _ => 16777216 * (k + 1)
  fresh := fun _ _ => 0
  hash := fun str => 31 * str.length + 7
  iter := id
  iter_perm := fun _ => List.Perm.refl _
  strdecls := []

/-- A context with one enabled device and no variable set. -/
def oneDevice : Context := ⟨1, fun _ => none⟩

/-- A context with two enabled devices. -/
def twoDevices : Context := ⟨2, fun _ => none⟩

/-- The table after `init (oneDevice)` on `examplePlatform`. -/
def emptyTable : StringTable :=
  (init examplePlatform 0 oneDevice StringTable.new).table

/-- The string of `n` zero characters. -/
def zeros (n : Nat) : ustring := List.replicate n 0

/-- The string `a`. -/
def strA : ustring := [97]

/-- The string `b`. -/
def strB : ustring := [98]

/-- The variable name `X`. -/
def nameX : ustring := [88]

/-- The variable name `Y`. -/
def nameY : ustring := [89]

/-- The table after `init` and `addString ("a", "X")`. -/
def tableA : StringTable :=
  (addString examplePlatform 0 emptyTable strA nameX).table

/-- The table after `init`, `addString ("a", "X")` and `addString ("b", "X")`. -/
def tableAB : StringTable :=
  (addString examplePlatform 0 tableA strB nameX).table

/-- The table after `init` and `addString` of the string of 40000 zero
characters, without a name. -/
def tableZ : StringTable :=
  (addString examplePlatform 0 emptyTable (zeros 40000) []).table

/-- The table after `init`, `addString ("a", "X")` and `addString ("a", "Y")`. -/
def tableAY : StringTable :=
  (addString examplePlatform 0 tableA strA nameY).table

/-- The order of `strcmp`: character by character, a proper prefix first. -/
def lexLe : ustring → ustring → Bool
  | [], _ => true
  | _ :: _, [] => false
  | a :: as, b :: bs => decide (a.val < b.val) || (decide (a.val = b.val) && lexLe as bs)

/-- A platform like `examplePlatform`, but whose map is visited in the order of
its keys, as a `std::map` keyed by the string is. -/
def sortedPlatform : Platform where
  cudaMalloc := fun k _ => 16777216 * (k + 1)
  fresh := fun _ _ => 0
  hash := fun str => 31 * str.length + 7
  iter := fun m => m.insertionSort (fun a b => lexLe a.1 b.1 = true)
  iter_perm := fun m => List.perm_insertionSort _ m
  strdecls := []

/-- The table after `init`, `addString ("b", "X")` and `addString ("a", "Y")` on
`sortedPlatform`. -/
def tableBA : StringTable :=
  (addString sortedPlatform 0
    (addString sortedPlatform 0 (init sortedPlatform 0 oneDevice StringTable.new).table
      strB nameX).table strA nameY).table

/-- A run of `addString` calls from the table `s`, whatever each call does: the
table after the last one. -/
def runCalls (d : Platform) (depth : Nat) (s : StringTable)
    (calls : List (ustring × ustring)) : StringTable :=
  calls.foldl (fun t e => (addString d depth t e.1 e.2).table) s

/-- A platform like `examplePlatform`, but whose allocator hands out blocks
1 TiB apart, so that blocks of several GiB do not meet. -/
def widePlatform : Platform where
  cudaMalloc := fun k _ => 1099511627776 * (k + 1)
  fresh := fun _ _ => 0
  hash := fun str => 31 * str.length + 7
  iter := id
  iter_perm := fun _ => List.Perm.refl _
  strdecls := []

/-- The table after `init (oneDevice)` on `widePlatform`. -/
def wideTable : StringTable :=
  (init widePlatform 0 oneDevice StringTable.new).table

/-- The string of zero characters whose record takes `65536 * 2 ^ i` bytes. -/
def fillString (i : Nat) : ustring := zeros (65536 * 2 ^ i - 17)

/-- The calls `addString (fillString i, "")` for `i` below `k`. -/
def fillCalls (k : Nat) : List (ustring × ustring) :=
  (List.range k).map fun i => (fillString i, [])

/-- The history that takes the cursor past `2 ^ 31`: fifteen strings that double
the capacity each, to `2 ^ 31` bytes, one of 65518 characters that fills the
block to the last byte, and the string `a`. -/
def overflowCalls : List (ustring × ustring) :=
  fillCalls 15 ++ [(zeros 65518, []), (strA, [])]

/-- The table after `init` and the calls of `overflowCalls` on `widePlatform`. -/
def overflowTable : StringTable :=
  runCalls widePlatform 1 wideTable overflowCalls

/-- The table after one more call `addString ("a", "")`. -/
def overflowTableAgain : StringTable :=
  runCalls widePlatform 1 wideTable (overflowCalls ++ [(strA, [])])

/-! # Theorems -/

/-! ## Arithmetic of the alignment -/

theorem le_alignUp8 (n : Nat) (h : n + 7 < 2 ^ 32) : n ≤ alignUp8 n := by
  unfold alignUp8; omega

theorem alignUp8_lt (n : Nat) : alignUp8 n < n + 8 := by
  unfold alignUp8; omega

theorem alignUp8_lt_pow (n : Nat) : alignUp8 n < 2 ^ 32 := by
  unfold alignUp8; omega

/-- Past `2 ^ 32` the masked cursor starts again at the beginning of the
block. -/
theorem alignUp8_wraps : alignUp8 4294967290 = 0 := by decide

theorem dvd_alignUp8 (n : Nat) : 8 ∣ alignUp8 n := by
  unfold alignUp8; exact Nat.dvd_mul_left 8 _

theorem alignUp8_add (c n : Nat) (hc : 8 ∣ c) (h : c + n + 7 < 2 ^ 32) :
    alignUp8 (c + n) = c + (n + 7) / 8 * 8 := by
  unfold alignUp8; omega

theorem alignUp8_le (n m : Nat) (hm : 8 ∣ m) (h : n ≤ m) : alignUp8 n ≤ m := by
  unfold alignUp8; omega

theorem toInt32_of_lt (n : Nat) (h : n < 2 ^ 31) : toInt32 n = (n : Int) := by
  unfold toInt32
  have e : n % 2 ^ 32 = n := Nat.mod_eq_of_lt (by omega)
  rw [e, if_pos h]

theorem toInt32_neg (n : Nat) (h1 : 2 ^ 31 ≤ n) (h2 : n < 2 ^ 32) :
    toInt32 n = (n : Int) - 2 ^ 32 := by
  unfold toInt32
  have e : n % 2 ^ 32 = n := Nat.mod_eq_of_lt h2
  rw [e, if_neg (by omega)]

theorem dvd_toInt32 (n : Nat) (h : 8 ∣ n) : (8 : Int) ∣ toInt32 n := by
  unfold toInt32
  split <;> omega

theorem recordSpan_ge (str : ustring) : 8 + 8 + str.length + 1 ≤ recordSpan str := by
  unfold recordSpan; omega

theorem recordSpan_lt (str : ustring) : recordSpan str < 8 + 8 + str.length + 1 + 8 := by
  unfold recordSpan; omega

theorem dvd_recordSpan (str : ustring) : 8 ∣ recordSpan str := by
  unfold recordSpan; exact Nat.dvd_mul_left 8 _

theorem packedSize_nil : packedSize [] = 0 := rfl

theorem packedSize_cons (k : ustring) (ks : List ustring) :
    packedSize (k :: ks) = recordSpan k + packedSize ks := by
  simp [packedSize]

theorem packedSize_append (ks ls : List ustring) :
    packedSize (ks ++ ls) = packedSize ks + packedSize ls := by
  simp [packedSize]

theorem dvd_packedSize (ks : List ustring) : 8 ∣ packedSize ks := by
  induction ks with
  | nil => simp [packedSize]
  | cons k ks ih =>
    rw [packedSize_cons]
    exact Nat.dvd_add (dvd_recordSpan k) ih

theorem packedSize_perm {ks ls : List ustring} (h : ks.Perm ls) :
    packedSize ks = packedSize ls := by
  unfold packedSize
  exact (h.map recordSpan).sum_eq

/-! ## The maps -/

theorem assocFind_assocSet_self {β : Type} (k : ustring) (v : β) (m : List (ustring × β)) :
    assocFind k (assocSet k v m) = some v := by
  induction m with
  | nil => simp [assocSet, assocFind]
  | cons e m ih =>
    obtain ⟨k', v'⟩ := e
    by_cases h : k' = k
    · simp [assocSet, assocFind, h]
    · simp [assocSet, assocFind, h, ih]

theorem assocFind_assocSet_ne {β : Type} (k k' : ustring) (v : β) (m : List (ustring × β))
    (hne : k' ≠ k) : assocFind k' (assocSet k v m) = assocFind k' m := by
  induction m with
  | nil => simp [assocSet, assocFind, Ne.symm hne]
  | cons e m ih =>
    obtain ⟨k₁, v₁⟩ := e
    by_cases h : k₁ = k
    · subst h
      simp [assocSet, assocFind, Ne.symm hne]
    · by_cases h' : k₁ = k'
      · subst h'
        simp [assocSet, assocFind, h]
      · simp [assocSet, assocFind, h, h', ih]

theorem assocFind_eq_none_iff {β : Type} (k : ustring) (m : List (ustring × β)) :
    assocFind k m = none ↔ k ∉ keys m := by
  induction m with
  | nil => simp [assocFind, keys]
  | cons e m ih =>
    obtain ⟨k', v'⟩ := e
    by_cases h : k' = k
    · simp [assocFind, keys, h]
    · have h' : ¬ k = k' := fun a => h a.symm
      simpa [assocFind, keys, h, h'] using ih

theorem mem_keys_of_assocFind {β : Type} {k : ustring} {v : β} {m : List (ustring × β)}
    (h : assocFind k m = some v) : k ∈ keys m := by
  by_contra hk
  rw [(assocFind_eq_none_iff k m).mpr hk] at h
  cases h

theorem assocFind_of_mem {β : Type} {k : ustring} {v : β} {m : List (ustring × β)}
    (hnd : (keys m).Nodup) (h : (k, v) ∈ m) : assocFind k m = some v := by
  induction m with
  | nil => cases h
  | cons e m ih =>
    obtain ⟨k', v'⟩ := e
    simp only [keys, List.map_cons, List.nodup_cons] at hnd
    rcases List.mem_cons.mp h with h | h
    · cases h
      simp [assocFind]
    · have hk : k ∈ keys m := List.mem_map.mpr ⟨(k, v), h, rfl⟩
      have hne : k' ≠ k := fun a => hnd.1 (a ▸ hk)
      simp only [assocFind, hne, if_false]
      exact ih hnd.2 h

theorem mem_of_assocFind {β : Type} {k : ustring} {v : β} {m : List (ustring × β)}
    (h : assocFind k m = some v) : (k, v) ∈ m := by
  induction m with
  | nil => cases h
  | cons e m ih =>
    obtain ⟨k', v'⟩ := e
    by_cases hk : k' = k
    · simp only [assocFind, hk, if_true, Option.some.injEq] at h
      simp [hk, h]
    · simp only [assocFind, hk, if_false] at h
      exact List.mem_cons_of_mem _ (ih h)

theorem assocSet_of_assocFind {β : Type} {k : ustring} {v : β} {m : List (ustring × β)}
    (h : assocFind k m = some v) : assocSet k v m = m := by
  induction m with
  | nil => cases h
  | cons e m ih =>
    obtain ⟨k', v'⟩ := e
    by_cases hk : k' = k
    · simp only [assocFind, hk, if_true, Option.some.injEq] at h
      simp [assocSet, hk, h]
    · simp only [assocFind, hk, if_false] at h
      simp [assocSet, hk, ih h]

theorem assocSet_of_not_mem {β : Type} {k : ustring} (v : β) {m : List (ustring × β)}
    (h : k ∉ keys m) : assocSet k v m = m ++ [(k, v)] := by
  induction m with
  | nil => rfl
  | cons e m ih =>
    obtain ⟨k', v'⟩ := e
    simp only [keys, List.map_cons, List.mem_cons, not_or] at h
    have hk : ¬ k' = k := fun a => h.1 a.symm
    simp [assocSet, hk, ih h.2]

theorem keys_append {β : Type} (m n : List (ustring × β)) : keys (m ++ n) = keys m ++ keys n := by
  simp [keys]

/-! ## Copies into the block -/

theorem readBytes_length (block : Nat → Byte) (start n : Nat) :
    (readBytes block start n).length = n := by
  simp [readBytes]

theorem readBytes_congr {b b' : Nat → Byte} {start n : Nat}
    (h : ∀ i, start ≤ i → i < start + n → b i = b' i) :
    readBytes b start n = readBytes b' start n := by
  unfold readBytes
  apply List.map_congr_left
  intro i hi
  exact h _ (by omega) (by have := List.mem_range.mp hi; omega)

theorem cudaMemcpy_outside (block : Nat → Byte) (dst : Nat) (src : List Byte) (i : Nat)
    (h : i < dst ∨ dst + src.length ≤ i) : cudaMemcpy block dst src i = block i := by
  unfold cudaMemcpy
  split
  · rename_i hle
    have : src.length ≤ i - dst := by omega
    simp [List.getElem?_eq_none this]
  · rfl

theorem cudaMemcpy_inside (block : Nat → Byte) (dst : Nat) (src : List Byte) (j : Nat)
    (h : j < src.length) : cudaMemcpy block dst src (dst + j) = src.get ⟨j, h⟩ := by
  unfold cudaMemcpy
  simp [List.getElem?_eq_getElem h]

theorem readBytes_cudaMemcpy_self (block : Nat → Byte) (dst : Nat) (src : List Byte) :
    readBytes (cudaMemcpy block dst src) dst src.length = src := by
  apply List.ext_get
  · simp [readBytes]
  · intro j h1 h2
    simp only [readBytes, List.get_eq_getElem, List.getElem_map, List.getElem_range]
    simpa using cudaMemcpy_inside block dst src j h2

theorem readBytes_cudaMemcpy_outside (block : Nat → Byte) (dst : Nat) (src : List Byte)
    (start n : Nat) (h : start + n ≤ dst ∨ dst + src.length ≤ start) :
    readBytes (cudaMemcpy block dst src) start n = readBytes block start n := by
  apply readBytes_congr
  intro i h1 h2
  apply cudaMemcpy_outside
  omega

theorem sizeBytes_length (n : Nat) : (sizeBytes n).length = 8 := by
  simp [sizeBytes]

theorem sizeBytes_eq (n : Nat) : sizeBytes n =
    [⟨n % 256, Nat.mod_lt _ (by decide)⟩, ⟨n / 256 % 256, Nat.mod_lt _ (by decide)⟩,
     ⟨n / 65536 % 256, Nat.mod_lt _ (by decide)⟩, ⟨n / 16777216 % 256, Nat.mod_lt _ (by decide)⟩,
     ⟨n / 4294967296 % 256, Nat.mod_lt _ (by decide)⟩,
     ⟨n / 1099511627776 % 256, Nat.mod_lt _ (by decide)⟩,
     ⟨n / 281474976710656 % 256, Nat.mod_lt _ (by decide)⟩,
     ⟨n / 72057594037927936 % 256, Nat.mod_lt _ (by decide)⟩] := by
  simp [sizeBytes, List.range, List.range.loop]

/-- The 8 bytes of a `size_t` determine it. -/
theorem bytesSize_sizeBytes (n : Nat) : bytesSize (sizeBytes n) = n % 2 ^ 64 := by
  rw [sizeBytes_eq]
  simp only [bytesSize, List.foldr]
  omega

/-! ## Writing one record -/

theorem writeRecord_fst (d : Platform) (s : StringTable) (str var_name : ustring) :
    (writeRecord d s str var_name).1 =
      { s with
        block := cudaMemcpy (cudaMemcpy (cudaMemcpy s.block s.m_offset (sizeBytes (d.hash str)))
          (s.m_offset + 8) (sizeBytes str.length)) (s.m_offset + 8 + 8) (str ++ [0])
        m_offset := alignUp8 (s.m_offset + 8 + 8 + (str.length + 1))
        m_offset_map := assocSet str (toInt32 (s.m_offset + 8 + 8)) s.m_offset_map
        m_name_map := assocSet str var_name s.m_name_map } := rfl

theorem writeRecord_snd (d : Platform) (s : StringTable) (str var_name : ustring) :
    (writeRecord d s str var_name).2 = toInt32 (s.m_offset + 8 + 8) := rfl

theorem writeRecord_snd_of_lt (d : Platform) (s : StringTable) (str var_name : ustring)
    (h : s.m_offset + 16 < 2 ^ 31) :
    (writeRecord d s str var_name).2 = ((s.m_offset + 16 : Nat) : Int) := by
  rw [writeRecord_snd, toInt32_of_lt _ (by omega)]

theorem writeRecord_m_size (d : Platform) (s : StringTable) (str var_name : ustring) :
    (writeRecord d s str var_name).1.m_size = s.m_size := rfl

theorem writeRecord_m_ptr (d : Platform) (s : StringTable) (str var_name : ustring) :
    (writeRecord d s str var_name).1.m_ptr = s.m_ptr := rfl

theorem writeRecord_mallocs (d : Platform) (s : StringTable) (str var_name : ustring) :
    (writeRecord d s str var_name).1.mallocs = s.mallocs := rfl

theorem writeRecord_devices (d : Platform) (s : StringTable) (str var_name : ustring) :
    (writeRecord d s str var_name).1.m_optix_ctx = s.m_optix_ctx := rfl

theorem writeRecord_m_name_map (d : Platform) (s : StringTable) (str var_name : ustring) :
    (writeRecord d s str var_name).1.m_name_map = assocSet str var_name s.m_name_map := rfl

theorem writeRecord_m_offset_map (d : Platform) (s : StringTable) (str var_name : ustring) :
    (writeRecord d s str var_name).1.m_offset_map =
      assocSet str (toInt32 (s.m_offset + 8 + 8)) s.m_offset_map := rfl

theorem writeRecord_cursor (d : Platform) (s : StringTable) (str var_name : ustring) :
    (writeRecord d s str var_name).1.m_offset =
      alignUp8 (s.m_offset + 8 + 8 + (str.length + 1)) := rfl

theorem writeRecord_m_offset (d : Platform) (s : StringTable) (str var_name : ustring)
    (h : 8 ∣ s.m_offset) (hfit : s.m_offset + (8 + 8 + str.length + 1) + 7 < 2 ^ 32) :
    (writeRecord d s str var_name).1.m_offset = s.m_offset + recordSpan str := by
  rw [writeRecord_cursor]
  unfold recordSpan
  have e : s.m_offset + 8 + 8 + (str.length + 1) = s.m_offset + (8 + 8 + str.length + 1) := by
    omega
  rw [e, alignUp8_add _ _ h hfit]

theorem writeRecord_block_below (d : Platform) (s : StringTable) (str var_name : ustring)
    (start n : Nat) (h : start + n ≤ s.m_offset) :
    readBytes (writeRecord d s str var_name).1.block start n = readBytes s.block start n := by
  rw [writeRecord_fst]
  show readBytes (cudaMemcpy _ _ _) start n = _
  rw [readBytes_cudaMemcpy_outside _ _ _ _ _ (Or.inl (by omega)),
    readBytes_cudaMemcpy_outside _ _ _ _ _ (Or.inl (by omega)),
    readBytes_cudaMemcpy_outside _ _ _ _ _ (Or.inl (by omega))]

theorem writeRecord_recordAt (d : Platform) (s : StringTable) (str var_name : ustring) :
    RecordAt d (writeRecord d s str var_name).1.block str (s.m_offset + 16) := by
  rw [writeRecord_fst]
  refine ⟨by omega, ?_, ?_, ?_⟩
  · show readBytes (cudaMemcpy _ _ _) _ 8 = _
    have e : s.m_offset + 16 - 16 = s.m_offset := by omega
    rw [e, readBytes_cudaMemcpy_outside _ _ _ _ _ (Or.inl (by omega)),
      readBytes_cudaMemcpy_outside _ _ _ _ _ (Or.inl (by omega))]
    have := readBytes_cudaMemcpy_self s.block s.m_offset (sizeBytes (d.hash str))
    rwa [sizeBytes_length] at this
  · show readBytes (cudaMemcpy _ _ _) _ 8 = _
    have e : s.m_offset + 16 - 8 = s.m_offset + 8 := by omega
    rw [e, readBytes_cudaMemcpy_outside _ _ _ _ _ (Or.inl (by omega))]
    have := readBytes_cudaMemcpy_self (cudaMemcpy s.block s.m_offset (sizeBytes (d.hash str)))
      (s.m_offset + 8) (sizeBytes str.length)
    rwa [sizeBytes_length] at this
  · show readBytes (cudaMemcpy _ _ _) _ _ = _
    have := readBytes_cudaMemcpy_self
      (cudaMemcpy (cudaMemcpy s.block s.m_offset (sizeBytes (d.hash str)))
        (s.m_offset + 8) (sizeBytes str.length)) (s.m_offset + 8 + 8) (str ++ [0])
    simpa using this

theorem RecordAt.of_block_eq {d : Platform} {b b' : Nat → Byte} {str : ustring} {p : Nat}
    (h : RecordAt d b str p)
    (hb : ∀ start n, start + n ≤ p + str.length + 1 → readBytes b' start n = readBytes b start n) :
    RecordAt d b' str p := by
  obtain ⟨h16, h1, h2, h3⟩ := h
  refine ⟨h16, ?_, ?_, ?_⟩
  · rw [hb _ _ (by omega)]; exact h1
  · rw [hb _ _ (by omega)]; exact h2
  · rw [hb _ _ (by omega)]; exact h3

theorem Layout.dvd_cursor {d : Platform} {s : StringTable} {ks : List ustring}
    (h : Layout d s ks) : 8 ∣ s.m_offset := by
  rw [h.cursor]; exact dvd_packedSize ks

theorem Layout.not_found {d : Platform} {s : StringTable} {ks : List ustring}
    (h : Layout d s ks) {str : ustring} (hk : str ∉ ks) :
    assocFind str s.m_offset_map = none := by
  cases hf : assocFind str s.m_offset_map with
  | none => rfl
  | some o => exact absurd (h.stored str o hf).1 hk

theorem Layout.perm {d : Platform} {s : StringTable} {ks ls : List ustring}
    (h : Layout d s ks) (hp : ks.Perm ls) : Layout d s ls where
  cursor := by rw [h.cursor]; exact packedSize_perm hp
  found := fun k hk => h.found k (hp.mem_iff.mpr hk)
  stored := fun k o hf =>
    let ⟨hk, r⟩ := h.stored k o hf
    ⟨hp.mem_iff.mp hk, r⟩
  apart := h.apart

theorem writeRecord_layout (d : Platform) (s : StringTable) (str var_name : ustring)
    (ks : List ustring) (h : Layout d s ks) (hk : str ∉ ks)
    (hfit : s.m_offset + (8 + 8 + str.length + 1) ≤ 2 ^ 31) :
    Layout d (writeRecord d s str var_name).1 (ks ++ [str]) where
  cursor := by
    rw [writeRecord_m_offset d s str var_name h.dvd_cursor (by omega), h.cursor,
      packedSize_append, packedSize_cons, packedSize_nil]
    omega
  found := by
    intro k hk'
    rw [writeRecord_m_offset_map, toInt32_of_lt _ (by omega)]
    by_cases hks : k = str
    · subst hks
      exact ⟨_, assocFind_assocSet_self _ _ _⟩
    · rw [assocFind_assocSet_ne _ _ _ _ hks]
      have : k ∈ ks := by
        rcases List.mem_append.mp hk' with h' | h'
        · exact h'
        · exact absurd (List.mem_singleton.mp h') hks
      exact h.found k this
  stored := by
    intro k o hf
    have hoff := writeRecord_m_offset d s str var_name h.dvd_cursor (by omega)
    have hspan := recordSpan_ge str
    rw [writeRecord_m_offset_map, toInt32_of_lt _ (by omega)] at hf
    by_cases hks : k = str
    · subst hks
      have hf' : assocFind k (assocSet k ((s.m_offset + 8 + 8 : Nat) : Int) s.m_offset_map)
          = some o := hf
      rw [assocFind_assocSet_self] at hf'
      refine ⟨List.mem_append_right _ (List.mem_singleton_self _), s.m_offset + 16, ?_, ?_, ?_, ?_⟩
      · exact (Option.some.inj hf').symm
      · exact Nat.dvd_add h.dvd_cursor (by decide)
      · rw [hoff]; omega
      · exact writeRecord_recordAt d s k var_name
    · have hf' : assocFind k (assocSet str ((s.m_offset + 8 + 8 : Nat) : Int) s.m_offset_map)
          = some o := hf
      rw [assocFind_assocSet_ne _ _ _ _ hks] at hf'
      obtain ⟨hmem, p, hp, hdvd, hle, hrec⟩ := h.stored k o hf'
      refine ⟨List.mem_append_left _ hmem, p, hp, hdvd, ?_, ?_⟩
      · rw [hoff]; omega
      · exact hrec.of_block_eq fun start n hsn =>
          writeRecord_block_below d s str var_name start n (by omega)
  apart := by
    intro k₁ k₂ p₁ p₂ hne h₁ h₂
    have hm : (writeRecord d s str var_name).1.m_offset_map
        = assocSet str ((s.m_offset + 8 + 8 : Nat) : Int) s.m_offset_map := by
      rw [writeRecord_m_offset_map, toInt32_of_lt _ (by omega)]
    rw [hm] at h₁ h₂
    by_cases e₁ : k₁ = str
    · have e₂ : k₂ ≠ str := fun e => hne (e₁.trans e.symm)
      rw [e₁, assocFind_assocSet_self] at h₁
      rw [assocFind_assocSet_ne _ _ _ _ e₂] at h₂
      obtain ⟨_, q, hq, _, hle, _⟩ := h.stored k₂ _ h₂
      have := Option.some.inj h₁
      omega
    · rw [assocFind_assocSet_ne _ _ _ _ e₁] at h₁
      by_cases e₂ : k₂ = str
      · rw [e₂, assocFind_assocSet_self] at h₂
        obtain ⟨_, q, hq, _, hle, _⟩ := h.stored k₁ _ h₁
        have := Option.some.inj h₂
        omega
      · rw [assocFind_assocSet_ne _ _ _ _ e₂] at h₂
        exact h.apart k₁ k₂ p₁ p₂ hne h₁ h₂

/-! ## Publishing an address -/

theorem publish_m_ptr (s : StringTable) (n : ustring) (a : Nat) :
    (publish s n a).m_ptr = s.m_ptr := by
  unfold publish; split <;> rfl

theorem publish_m_size (s : StringTable) (n : ustring) (a : Nat) :
    (publish s n a).m_size = s.m_size := by
  unfold publish; split <;> rfl

theorem publish_m_offset (s : StringTable) (n : ustring) (a : Nat) :
    (publish s n a).m_offset = s.m_offset := by
  unfold publish; split <;> rfl

theorem publish_m_offset_map (s : StringTable) (n : ustring) (a : Nat) :
    (publish s n a).m_offset_map = s.m_offset_map := by
  unfold publish; split <;> rfl

theorem publish_m_name_map (s : StringTable) (n : ustring) (a : Nat) :
    (publish s n a).m_name_map = s.m_name_map := by
  unfold publish; split <;> rfl

theorem publish_block (s : StringTable) (n : ustring) (a : Nat) :
    (publish s n a).block = s.block := by
  unfold publish; split <;> rfl

theorem publish_mallocs (s : StringTable) (n : ustring) (a : Nat) :
    (publish s n a).mallocs = s.mallocs := by
  unfold publish; split <;> rfl

theorem publish_devices (s : StringTable) (n : ustring) (a : Nat) :
    (publish s n a).m_optix_ctx.enabledDeviceCount = s.m_optix_ctx.enabledDeviceCount := by
  unfold publish; split <;> rfl

theorem publish_vars_self (s : StringTable) (n : ustring) (a : Nat) (hn : n ≠ []) :
    (publish s n a).m_optix_ctx.vars n = some a := by
  simp [publish, hn, Context.setUserData]

theorem publish_vars_ne (s : StringTable) (n n' : ustring) (a : Nat) (hn : n' ≠ n) :
    (publish s n a).m_optix_ctx.vars n' = s.m_optix_ctx.vars n' := by
  unfold publish; split
  · simp [Context.setUserData, hn]
  · rfl

theorem publish_getOffset (s : StringTable) (n : ustring) (a : Nat) (k : ustring) :
    getOffset (publish s n a) k = getOffset s k := by
  unfold getOffset; rw [publish_m_offset_map]

theorem publish_layout {d : Platform} {s : StringTable} {ks : List ustring}
    (h : Layout d s ks) (n : ustring) (a : Nat) : Layout d (publish s n a) ks where
  cursor := by rw [publish_m_offset]; exact h.cursor
  found := by rw [publish_m_offset_map]; exact h.found
  stored := by rw [publish_m_offset_map, publish_m_offset, publish_block]; exact h.stored
  apart := by rw [publish_m_offset_map]; exact h.apart

/-! ## The part of `addString` after the growth check -/

theorem getOffset_of_find {s : StringTable} {str : ustring} {o : Int}
    (h : assocFind str s.m_offset_map = some o) : getOffset s str = o := by
  simp [getOffset, h]

theorem getOffset_of_none {s : StringTable} {str : ustring}
    (h : assocFind str s.m_offset_map = none) : getOffset s str = -1 := by
  simp [getOffset, h]

theorem addStringTail_fail (d : Platform) (s : StringTable) (str var_name : ustring)
    (h : ¬ (s.m_offset + (8 + 8 + str.length + 1) ≤ s.m_size)) :
    addStringTail d s str var_name = .fail .allocationError s := by
  simp only [addStringTail]
  rw [if_pos h]

theorem addStringTail_found (d : Platform) (s : StringTable) (str var_name : ustring)
    (base p : Nat) (hb : s.m_ptr = some base)
    (hfit : s.m_offset + (8 + 8 + str.length + 1) ≤ s.m_size)
    (hf : assocFind str s.m_offset_map = some (p : Int)) :
    addStringTail d s str var_name = .ok (base + p) (publish s var_name (base + p)) := by
  have hg : getOffset s str = (p : Int) := getOffset_of_find hf
  have hneg : ¬ ((p : Int) < 0) := by omega
  simp only [addStringTail]
  rw [if_neg (not_not.mpr hfit), hg, if_neg hneg]
  simp only [hb, Option.getD_some]
  have : ((base : Int) + (p : Int)).toNat = base + p := by omega
  rw [this]

/-- The branch of line 96 in general: a string whose lookup is negative, be it
absent or stored with a negative offset, is written at the cursor. -/
theorem addStringTail_write (d : Platform) (s : StringTable) (str var_name : ustring)
    (base : Nat) (hb : s.m_ptr = some base)
    (hfit : s.m_offset + (8 + 8 + str.length + 1) ≤ s.m_size)
    (hneg : getOffset s str < 0) :
    addStringTail d s str var_name =
      .ok ((base : Int) + toInt32 (s.m_offset + 8 + 8)).toNat
        (publish (writeRecord d s str var_name).1 var_name
          ((base : Int) + toInt32 (s.m_offset + 8 + 8)).toNat) := by
  simp only [addStringTail]
  rw [if_neg (not_not.mpr hfit), if_pos hneg]
  have h1 : (writeRecord d s str var_name).1.m_ptr = some base := hb
  simp only [h1, Option.getD_some, writeRecord_snd]

theorem addStringTail_new (d : Platform) (s : StringTable) (str var_name : ustring)
    (base : Nat) (hb : s.m_ptr = some base)
    (hfit : s.m_offset + (8 + 8 + str.length + 1) ≤ s.m_size)
    (hf : assocFind str s.m_offset_map = none) (hlt : s.m_offset + 16 < 2 ^ 31) :
    addStringTail d s str var_name =
      .ok (base + (s.m_offset + 16))
        (publish (writeRecord d s str var_name).1 var_name (base + (s.m_offset + 16))) := by
  have hg : getOffset s str < 0 := by rw [getOffset_of_none hf]; decide
  rw [addStringTail_write d s str var_name base hb hfit hg, toInt32_of_lt _ (by omega)]
  have : ((base : Int) + ((s.m_offset + 8 + 8 : Nat) : Int)).toNat = base + (s.m_offset + 16) := by
    omega
  rw [this]

/-- Whatever the lookup gives, a record that fits makes the call return, and
the table is at most one record and one binding away. -/
theorem addStringTail_cases (d : Platform) (s : StringTable) (str var_name : ustring)
    (hfit : s.m_offset + (8 + 8 + str.length + 1) ≤ s.m_size) :
    ∃ a, addStringTail d s str var_name = .ok a (publish s var_name a) ∨
      addStringTail d s str var_name =
        .ok a (publish (writeRecord d s str var_name).1 var_name a) := by
  simp only [addStringTail]
  rw [if_neg (not_not.mpr hfit)]
  by_cases hneg : getOffset s str < 0
  · rw [if_pos hneg]; exact ⟨_, Or.inr rfl⟩
  · rw [if_neg hneg]; exact ⟨_, Or.inl rfl⟩

theorem addStringTail_of_fail (d : Platform) (s : StringTable) (str var_name : ustring)
    (e : Failure) (s' : StringTable) (h : addStringTail d s str var_name = .fail e s') :
    ¬ (s.m_offset + (8 + 8 + str.length + 1) ≤ s.m_size) ∧ e = .allocationError ∧ s' = s := by
  by_cases hfit : s.m_offset + (8 + 8 + str.length + 1) ≤ s.m_size
  · obtain ⟨a, h' | h'⟩ := addStringTail_cases d s str var_name hfit <;>
    · rw [h'] at h; cases h
  · rw [addStringTail_fail d s str var_name hfit] at h
    cases h
    exact ⟨hfit, rfl, rfl⟩

theorem addStringTail_of_ok (d : Platform) (s : StringTable) (str var_name : ustring)
    (a : Nat) (s' : StringTable) (h : addStringTail d s str var_name = .ok a s') :
    s.m_offset + (8 + 8 + str.length + 1) ≤ s.m_size ∧
      (s' = publish s var_name a ∨ s' = publish (writeRecord d s str var_name).1 var_name a) := by
  by_cases hfit : s.m_offset + (8 + 8 + str.length + 1) ≤ s.m_size
  · refine ⟨hfit, ?_⟩
    obtain ⟨a', h' | h'⟩ := addStringTail_cases d s str var_name hfit
    · rw [h'] at h; cases h; exact Or.inl rfl
    · rw [h'] at h; cases h; exact Or.inr rfl
  · rw [addStringTail_fail d s str var_name hfit] at h
    cases h

theorem addStringTail_m_size (d : Platform) (s : StringTable) (str var_name : ustring) :
    (addStringTail d s str var_name).table.m_size = s.m_size := by
  by_cases hfit : s.m_offset + (8 + 8 + str.length + 1) ≤ s.m_size
  · obtain ⟨a, h | h⟩ := addStringTail_cases d s str var_name hfit
    · rw [h]; exact publish_m_size _ _ _
    · rw [h]; show (publish _ _ _).m_size = _; rw [publish_m_size]; rfl
  · rw [addStringTail_fail d s str var_name hfit]; rfl

/-! ## No growth, no recursion -/

theorem addStringWith_noGrow (d : Platform) (realloc : StringTable → Outcome Unit)
    (s : StringTable) (str var_name : ustring) (base : Nat) (hb : s.m_ptr = some base)
    (h : s.m_offset + (8 + 8 + str.length + 1) < s.m_size) :
    addStringWith d realloc s str var_name = addStringTail d s str var_name := by
  simp only [addStringWith, hb]
  rw [if_neg (by omega)]

theorem addStringWith_grow (d : Platform) (realloc : StringTable → Outcome Unit)
    (s : StringTable) (str var_name : ustring) (base : Nat) (hb : s.m_ptr = some base)
    (h : s.m_size ≤ s.m_offset + (8 + 8 + str.length + 1)) :
    addStringWith d realloc s str var_name =
      match realloc s with
      | .fail e s1 => .fail e s1
      | .ok _ s1 => addStringTail d s1 str var_name := by
  simp only [addStringWith, hb]
  rw [if_pos (by omega)]

theorem addString_zero (d : Platform) :
    addString d 0 = addStringWith d (fun s => .fail .callDepth s) := rfl

theorem addString_succ (d : Platform) (depth : Nat) :
    addString d (depth + 1) = addStringWith d (reallocTable d depth) := rfl

theorem addString_noGrow (d : Platform) (depth : Nat) (s : StringTable) (str var_name : ustring)
    (base : Nat) (hb : s.m_ptr = some base)
    (h : s.m_offset + (8 + 8 + str.length + 1) < s.m_size) :
    addString d depth s str var_name = addStringTail d s str var_name := by
  cases depth with
  | zero => rw [addString_zero]; exact addStringWith_noGrow d _ s str var_name base hb h
  | succ n => rw [addString_succ]; exact addStringWith_noGrow d _ s str var_name base hb h

theorem addString_null (d : Platform) (depth : Nat) (s : StringTable) (str var_name : ustring)
    (h : s.m_ptr = none) : addString d depth s str var_name = .fail .notInitialized s := by
  cases depth with
  | zero => rw [addString_zero]; simp only [addStringWith, h]
  | succ n => rw [addString_succ]; simp only [addStringWith, h]

/-! ## A loop of `addString` calls -/

theorem replay_invariant (add : StringTable → ustring → ustring → Outcome Nat)
    (es : List (ustring × ustring)) :
    ∀ (P : List (ustring × ustring) → StringTable → Prop) (s : StringTable),
      P [] s →
      (∀ pre e post t, es = pre ++ e :: post → P pre t →
        ∃ a t', add t e.1 e.2 = .ok a t' ∧ P (pre ++ [e]) t') →
      ∃ t, replay add es s = .ok () t ∧ P es t := by
  induction es with
  | nil =>
    intro P s h0 _
    exact ⟨s, rfl, h0⟩
  | cons e es ih =>
    intro P s h0 hstep
    obtain ⟨a, t', hadd, hP⟩ := hstep [] e es s rfl h0
    obtain ⟨t, ht, hPt⟩ := ih (fun pre t => P (e :: pre) t) t' hP (by
      intro pre e' post u hes hu
      exact hstep (e :: pre) e' post u (by rw [hes]; rfl) hu)
    refine ⟨t, ?_, hPt⟩
    simp only [replay, hadd]
    exact ht

/-! ## Growth -/

theorem Inv.size_pos {d : Platform} {s : StringTable} (h : Inv d s) : 0 < s.m_size := by
  obtain ⟨j, hj⟩ := h.size
  rw [hj]
  exact Nat.mul_pos (by decide) (Nat.pos_pow_of_pos j (by decide))

theorem Inv.dvd_size {d : Platform} {s : StringTable} (h : Inv d s) : 8 ∣ s.m_size := by
  obtain ⟨j, hj⟩ := h.size
  rw [hj]
  exact Dvd.dvd.mul_right (by decide) _

theorem keys_perm {β : Type} {m n : List (ustring × β)} (h : m.Perm n) :
    (keys m).Perm (keys n) := h.map _

theorem replayed_start (d : Platform) (s : StringTable)
    (hdev : s.m_optix_ctx.enabledDeviceCount = 1) :
    Replayed d s []
      { s with
        m_size := s.m_size * 2
        m_ptr := some (d.cudaMalloc s.mallocs (s.m_size * 2))
        block := d.fresh s.mallocs
        mallocs := s.mallocs + 1
        m_offset := 0
        m_offset_map := [] } where
  m_size := rfl
  m_ptr := rfl
  mallocs := rfl
  m_name_map := rfl
  devices := hdev
  layout := ⟨rfl, fun k hk => (by cases hk), fun k o hf => (by cases hf),
    fun _ _ _ _ _ hf => (by cases hf)⟩
  bound := fun e he => by cases he
  unbound := fun _ _ => rfl
  order := fun pre₁ e post₁ h => by simp at h

theorem replayed_step (d : Platform) (depth : Nat) (s : StringTable) (hinv : Inv d s)
    (h31 : s.m_offset ≤ 2 ^ 31)
    (pre : List (ustring × ustring)) (e : ustring × ustring) (post : List (ustring × ustring))
    (t : StringTable) (hes : d.iter s.m_name_map = pre ++ e :: post)
    (ht : Replayed d s pre t) :
    ∃ a t', addString d depth t e.1 e.2 = .ok a t' ∧ Replayed d s (pre ++ [e]) t' := by
  have hperm := d.iter_perm s.m_name_map
  have hnd : (keys (pre ++ e :: post)).Nodup := by
    rw [← hes]; exact (keys_perm hperm).nodup_iff.mpr hinv.nodup
  have hkeys : keys (pre ++ e :: post) = keys pre ++ e.1 :: keys post := by simp [keys]
  rw [hkeys] at hnd
  have hnotin : e.1 ∉ keys pre := by
    intro hmem
    have := (List.nodup_append.mp hnd).2.2
    exact this hmem (List.mem_cons_self _ _)
  have hmem : e ∈ s.m_name_map := hperm.mem_iff.mp (by rw [hes]; simp)
  have hfindn : assocFind e.1 s.m_name_map = some e.2 := assocFind_of_mem hinv.nodup hmem
  -- the records replayed so far and this one fit in the old block
  have htotal : packedSize (keys pre) + recordSpan e.1 ≤ s.m_offset := by
    rw [hinv.layout.cursor, ← packedSize_perm (keys_perm hperm), hes, hkeys, packedSize_append,
      packedSize_cons]
    omega
  have hspan := recordSpan_ge e.1
  have hpos := hinv.size_pos
  have hbound := hinv.bound
  have hcur := ht.layout.cursor
  have hfit : t.m_offset + (8 + 8 + e.1.length + 1) < t.m_size := by
    rw [ht.m_size, hcur]; omega
  have hnone : assocFind e.1 t.m_offset_map = none := ht.layout.not_found hnotin
  have hlt : t.m_offset + (8 + 8 + e.1.length + 1) ≤ 2 ^ 31 := by rw [hcur]; omega
  rw [addString_noGrow d depth t e.1 e.2 _ ht.m_ptr hfit,
    addStringTail_new d t e.1 e.2 _ ht.m_ptr (Nat.le_of_lt hfit) hnone (by omega)]
  refine ⟨_, _, rfl, ?_⟩
  have hw := writeRecord_fst d t e.1 e.2
  rw [toInt32_of_lt _ (show t.m_offset + 8 + 8 < 2 ^ 31 by omega)] at hw
  have hlay := writeRecord_layout d t e.1 e.2 (keys pre) ht.layout hnotin hlt
  refine
    { m_size := by rw [publish_m_size, hw]; exact ht.m_size
      m_ptr := by rw [publish_m_ptr, hw]; exact ht.m_ptr
      mallocs := by rw [publish_mallocs, hw]; exact ht.mallocs
      m_name_map := ?_
      devices := by rw [publish_devices, hw]; exact ht.devices
      layout := ?_
      bound := ?_
      unbound := ?_
      order := ?_ }
  · rw [publish_m_name_map, hw]
    show assocSet e.1 e.2 t.m_name_map = s.m_name_map
    rw [ht.m_name_map, assocSet_of_assocFind hfindn]
  · have : keys (pre ++ [e]) = keys pre ++ [e.1] := by simp [keys]
    rw [this]
    exact publish_layout hlay _ _
  · intro e' he' hne huniq
    rw [publish_m_offset_map]
    rcases List.mem_append.mp he' with hin | hin
    · -- an entry visited before
      have hk' : e'.1 ∈ keys pre := List.mem_map.mpr ⟨e', hin, rfl⟩
      have hkne : e'.1 ≠ e.1 := fun h => hnotin (h ▸ hk')
      have hnne : e'.2 ≠ e.2 := by
        intro h
        have := huniq e (List.mem_append_right _ (List.mem_singleton_self _)) h.symm
        exact hkne (by rw [this])
      obtain ⟨p, hp, hv⟩ := ht.bound e' hin hne
        (fun e'' he'' h => huniq e'' (List.mem_append_left _ he'') h)
      refine ⟨p, ?_, ?_⟩
      · rw [hw]
        show assocFind e'.1 (assocSet e.1 _ t.m_offset_map) = some (p : Int)
        rw [assocFind_assocSet_ne _ _ _ _ hkne]; exact hp
      · rw [publish_vars_ne _ _ _ _ hnne, hw]; exact hv
    · -- the entry visited now
      have : e' = e := List.mem_singleton.mp hin
      subst this
      refine ⟨t.m_offset + 16, ?_, ?_⟩
      · rw [hw]
        exact assocFind_assocSet_self _ _ _
      · rw [publish_vars_self _ _ _ hne]
  · intro n hn
    have hne : n ≠ e.2 :=
      fun h => hn e (List.mem_append_right _ (List.mem_singleton_self _)) h.symm
    rw [publish_vars_ne _ _ _ _ hne, hw]
    exact ht.unbound n (fun e' he' => hn e' (List.mem_append_left _ he'))
  · intro pre₁ e₁ post₁ hsplit
    rw [publish_m_offset_map, hw]
    show assocFind e₁.1 (assocSet e.1 ((t.m_offset + 8 + 8 : Nat) : Int) t.m_offset_map) = _
    rcases List.eq_nil_or_concat post₁ with hnil | ⟨post₂, e₂, hcc⟩
    · -- the entry visited now
      subst hnil
      have hlast := List.append_inj' hsplit rfl
      have he : e = e₁ := (List.cons.inj hlast.2).1
      rw [← he, ← hlast.1, assocFind_assocSet_self, hcur]
    · -- an entry visited before
      subst hcc
      have hsplit' : pre ++ [e] = (pre₁ ++ e₁ :: post₂) ++ [e₂] := by
        rw [hsplit]; simp
      have hlast := List.append_inj' hsplit' rfl
      have hmem₁ : e₁.1 ∈ keys pre := by
        rw [hlast.1]; simp [keys]
      have hne₁ : e₁.1 ≠ e.1 := fun h => hnotin (h ▸ hmem₁)
      rw [assocFind_assocSet_ne _ _ _ _ hne₁]
      exact ht.order pre₁ e₁ post₂ hlast.1

theorem reallocTable_of_inv (d : Platform) (depth : Nat) (s : StringTable) (hinv : Inv d s)
    (h31 : s.m_offset ≤ 2 ^ 31) :
    ∃ t, reallocTable d depth s = .ok () t ∧ Replayed d s (d.iter s.m_name_map) t := by
  have hdev := hinv.devices
  unfold reallocTable reallocTableWith
  rw [if_neg (not_not.mpr hdev)]
  exact replay_invariant (addString d depth) (d.iter s.m_name_map) (Replayed d s) _
    (replayed_start d s hdev)
    (fun pre e post t hes ht => replayed_step d depth s hinv h31 pre e post t hes ht)

theorem Replayed.m_offset {d : Platform} {s t : StringTable} (hinv : Inv d s)
    (h : Replayed d s (d.iter s.m_name_map) t) : t.m_offset = s.m_offset := by
  rw [h.layout.cursor, hinv.layout.cursor]
  exact packedSize_perm (keys_perm (d.iter_perm _))

theorem Replayed.inv {d : Platform} {s t : StringTable} (hinv : Inv d s)
    (h : Replayed d s (d.iter s.m_name_map) t) : Inv d t where
  ptr := ⟨_, h.m_ptr⟩
  devices := h.devices
  size := by
    obtain ⟨j, hj⟩ := hinv.size
    exact ⟨j + 1, by rw [h.m_size, hj, pow_succ]; ring⟩
  bound := by
    rw [h.m_offset hinv, h.m_size]
    have := hinv.bound
    omega
  nodup := by rw [h.m_name_map]; exact hinv.nodup
  layout := by
    rw [h.m_name_map]
    exact h.layout.perm (keys_perm (d.iter_perm _))

/-! ## The invariant is kept -/

theorem publish_inv {d : Platform} {s : StringTable} (h : Inv d s) (n : ustring) (a : Nat) :
    Inv d (publish s n a) where
  ptr := by rw [publish_m_ptr]; exact h.ptr
  devices := by rw [publish_devices]; exact h.devices
  size := by rw [publish_m_size]; exact h.size
  bound := by rw [publish_m_offset, publish_m_size]; exact h.bound
  nodup := by rw [publish_m_name_map]; exact h.nodup
  layout := by rw [publish_m_name_map]; exact publish_layout h.layout n a

theorem writeRecord_inv {d : Platform} {s : StringTable} (h : Inv d s) (str var_name : ustring)
    (hnew : str ∉ keys s.m_name_map)
    (hfit : s.m_offset + (8 + 8 + str.length + 1) ≤ s.m_size)
    (h31 : s.m_offset + (8 + 8 + str.length + 1) ≤ 2 ^ 31) :
    Inv d (writeRecord d s str var_name).1 := by
  have hw := writeRecord_fst d s str var_name
  have hk : keys (assocSet str var_name s.m_name_map) = keys s.m_name_map ++ [str] := by
    rw [assocSet_of_not_mem var_name hnew, keys_append]; rfl
  have hn : (writeRecord d s str var_name).1.m_name_map = assocSet str var_name s.m_name_map := by
    rw [hw]
  refine
    { ptr := by rw [hw]; exact h.ptr
      devices := by rw [hw]; exact h.devices
      size := by rw [hw]; exact h.size
      bound := ?_
      nodup := ?_
      layout := ?_ }
  · rw [hw]
    show alignUp8 (s.m_offset + 8 + 8 + (str.length + 1)) ≤ s.m_size
    exact alignUp8_le _ _ h.dvd_size (by omega)
  · rw [hn, hk]
    exact List.nodup_append.mpr ⟨h.nodup, List.nodup_singleton _, by
      intro a ha hb
      rw [List.mem_singleton.mp hb] at ha
      exact hnew ha⟩
  · rw [hn, hk]
    exact writeRecord_layout d s str var_name _ h.layout hnew h31

/-- The capacity never shrinks, whatever the table and whether or not the call
returns. -/
theorem replay_m_size_le (add : StringTable → ustring → ustring → Outcome Nat)
    (hadd : ∀ s str var_name, s.m_size ≤ (add s str var_name).table.m_size)
    (es : List (ustring × ustring)) :
    ∀ s, s.m_size ≤ (replay add es s).table.m_size := by
  induction es with
  | nil => intro s; exact Nat.le_refl _
  | cons e es ih =>
    intro s
    have h := hadd s e.1 e.2
    simp only [replay]
    cases hcall : add s e.1 e.2 with
    | fail err s1 => rw [hcall] at h; exact h
    | ok a s1 => rw [hcall] at h; exact Nat.le_trans h (ih s1)

theorem addStringWith_m_size_le (d : Platform) (realloc : StringTable → Outcome Unit)
    (hr : ∀ s, s.m_size ≤ (realloc s).table.m_size) (s : StringTable) (str var_name : ustring) :
    s.m_size ≤ (addStringWith d realloc s str var_name).table.m_size := by
  cases hp : s.m_ptr with
  | none =>
    have e : addStringWith d realloc s str var_name = .fail .notInitialized s := by
      simp only [addStringWith, hp]
    rw [e]; exact Nat.le_refl _
  | some base =>
    by_cases hgrow : s.m_offset + (8 + 8 + str.length + 1) < s.m_size
    · rw [addStringWith_noGrow d realloc s str var_name base hp hgrow, addStringTail_m_size]
    · rw [addStringWith_grow d realloc s str var_name base hp (by omega)]
      have h := hr s
      cases hcall : realloc s with
      | fail err s1 => rw [hcall] at h; exact h
      | ok u s1 =>
        rw [hcall] at h
        show s.m_size ≤ (addStringTail d s1 str var_name).table.m_size
        rw [addStringTail_m_size]; exact h

theorem reallocTableWith_m_size_le (d : Platform)
    (add : StringTable → ustring → ustring → Outcome Nat)
    (hadd : ∀ s str var_name, s.m_size ≤ (add s str var_name).table.m_size) (s : StringTable) :
    s.m_size ≤ (reallocTableWith d add s).table.m_size := by
  unfold reallocTableWith
  split
  · exact Nat.le_refl _
  · refine Nat.le_trans ?_ (replay_m_size_le add hadd _ _)
    show s.m_size ≤ s.m_size * 2
    omega

theorem addString_m_size_le (d : Platform) (depth : Nat) :
    ∀ (s : StringTable) (str var_name : ustring),
      s.m_size ≤ (addString d depth s str var_name).table.m_size := by
  induction depth with
  | zero =>
    intro s str var_name
    rw [addString_zero]
    exact addStringWith_m_size_le d (fun s => .fail .callDepth s) (fun _ => Nat.le_refl _)
      s str var_name
  | succ n ih =>
    intro s str var_name
    rw [addString_succ]
    exact addStringWith_m_size_le d _ (fun t => reallocTableWith_m_size_le d _ ih t) s str var_name

theorem addString_m_size_mono {d : Platform} {depth : Nat} {s : StringTable}
    {str var_name : ustring} {a : Nat} {s' : StringTable}
    (hok : addString d depth s str var_name = .ok a s') : s.m_size ≤ s'.m_size := by
  have h := addString_m_size_le d depth s str var_name
  rw [hok] at h
  exact h

theorem replay_m_size_mono {d : Platform} {depth : Nat} {es : List (ustring × ustring)}
    {s t : StringTable} (h : replay (addString d depth) es s = .ok () t) :
    s.m_size ≤ t.m_size := by
  have h' := replay_m_size_le (addString d depth) (addString_m_size_le d depth) es s
  rw [h] at h'
  exact h'

/-- What a successful `addString` on a table that satisfies the invariant has
done: `t` is the table after the growth check (the table itself, or the one
`reallocTable` made of it), and the rest of the call either found `str` in `t`
or wrote its record at the cursor of `t`.  The address of a record written at
`2 ^ 31 - 16` or beyond goes through a negative `int`. -/
theorem addString_cases {d : Platform} {s : StringTable} (hinv : Inv d s)
    (h31 : s.m_offset ≤ 2 ^ 31) {depth : Nat}
    {str var_name : ustring} {a : Nat} {s' : StringTable}
    (hok : addString d depth s str var_name = .ok a s') :
    ∃ t base,
      ((t = s ∧ s.m_offset + (8 + 8 + str.length + 1) < s.m_size) ∨
        (s.m_size ≤ s.m_offset + (8 + 8 + str.length + 1) ∧
          Replayed d s (d.iter s.m_name_map) t)) ∧
      Inv d t ∧ t.m_ptr = some base ∧ t.m_offset + (8 + 8 + str.length + 1) ≤ t.m_size ∧
      ((∃ p : Nat, assocFind str t.m_offset_map = some (p : Int) ∧ str ∈ keys t.m_name_map ∧
          a = base + p ∧ s' = publish t var_name a) ∨
        (str ∉ keys t.m_name_map ∧ a = ((base : Int) + toInt32 (t.m_offset + 8 + 8)).toNat ∧
          s' = publish (writeRecord d t str var_name).1 var_name a)) := by
  -- the rest of the call, on a table `t` that satisfies the invariant
  have tail : ∀ t, Inv d t → addStringTail d t str var_name = .ok a s' →
      ∃ base, t.m_ptr = some base ∧ t.m_offset + (8 + 8 + str.length + 1) ≤ t.m_size ∧
      ((∃ p : Nat, assocFind str t.m_offset_map = some (p : Int) ∧ str ∈ keys t.m_name_map ∧
          a = base + p ∧ s' = publish t var_name a) ∨
        (str ∉ keys t.m_name_map ∧ a = ((base : Int) + toInt32 (t.m_offset + 8 + 8)).toNat ∧
          s' = publish (writeRecord d t str var_name).1 var_name a)) := by
    intro t ht htail
    obtain ⟨base, hb⟩ := ht.ptr
    have hfit : t.m_offset + (8 + 8 + str.length + 1) ≤ t.m_size := by
      by_contra hc
      rw [addStringTail_fail d t str var_name hc] at htail
      cases htail
    refine ⟨base, hb, hfit, ?_⟩
    by_cases hmem : str ∈ keys t.m_name_map
    · obtain ⟨p, hp⟩ := ht.layout.found str hmem
      rw [addStringTail_found d t str var_name base p hb hfit hp] at htail
      injection htail with h1 h2
      exact Or.inl ⟨p, hp, hmem, h1.symm, by rw [← h2, h1]⟩
    · have hnone := ht.layout.not_found hmem
      have hneg : getOffset t str < 0 := by rw [getOffset_of_none hnone]; decide
      rw [addStringTail_write d t str var_name base hb hfit hneg] at htail
      injection htail with h1 h2
      exact Or.inr ⟨hmem, h1.symm, by rw [← h2, h1]⟩
  obtain ⟨base0, hb0⟩ := hinv.ptr
  by_cases hgrow : s.m_offset + (8 + 8 + str.length + 1) < s.m_size
  · rw [addString_noGrow d depth s str var_name base0 hb0 hgrow] at hok
    obtain ⟨base, hb, hfit, hcase⟩ := tail s hinv hok
    exact ⟨s, base, Or.inl ⟨rfl, hgrow⟩, hinv, hb, hfit, hcase⟩
  · have hge : s.m_size ≤ s.m_offset + (8 + 8 + str.length + 1) := by omega
    cases depth with
    | zero =>
      rw [addString_zero, addStringWith_grow d _ s str var_name base0 hb0 hge] at hok
      cases hok
    | succ n =>
      obtain ⟨t, hre, hrep⟩ := reallocTable_of_inv d n s hinv h31
      rw [addString_succ, addStringWith_grow d _ s str var_name base0 hb0 hge, hre] at hok
      have ht := hrep.inv hinv
      obtain ⟨base, hb, hfit, hcase⟩ := tail t ht hok
      exact ⟨t, base, Or.inr ⟨hge, hrep⟩, ht, hb, hfit, hcase⟩

/-- The same for a call that leaves a table of at most `2 ^ 31` bytes: all
offsets are those of the cursor. -/
theorem addString_ok {d : Platform} {s : StringTable} (hinv : Inv d s) {depth : Nat}
    {str var_name : ustring} {a : Nat} {s' : StringTable}
    (hok : addString d depth s str var_name = .ok a s') (hs' : s'.m_size ≤ 2 ^ 31) :
    ∃ t base,
      ((t = s ∧ s.m_offset + (8 + 8 + str.length + 1) < s.m_size) ∨
        (s.m_size ≤ s.m_offset + (8 + 8 + str.length + 1) ∧
          Replayed d s (d.iter s.m_name_map) t)) ∧
      Inv d t ∧ t.m_ptr = some base ∧
      (t.m_offset + (8 + 8 + str.length + 1) ≤ t.m_size ∧ t.m_size ≤ 2 ^ 31) ∧
      ((∃ p : Nat, assocFind str t.m_offset_map = some (p : Int) ∧ str ∈ keys t.m_name_map ∧
          a = base + p ∧ s' = publish t var_name a) ∨
        (str ∉ keys t.m_name_map ∧ a = base + (t.m_offset + 16) ∧
          s' = publish (writeRecord d t str var_name).1 var_name a)) := by
  have hmono := addString_m_size_mono hok
  have hb := hinv.bound
  obtain ⟨t, base, hgrow, ht, hbase, hfit, hcase⟩ := addString_cases hinv (by omega) hok
  have hts : s'.m_size = t.m_size := by
    rcases hcase with ⟨p, _, _, _, hs⟩ | ⟨_, _, hs⟩
    · rw [hs, publish_m_size]
    · rw [hs, publish_m_size, writeRecord_m_size]
  refine ⟨t, base, hgrow, ht, hbase, ⟨hfit, by omega⟩, ?_⟩
  rcases hcase with h | ⟨hnew, ha, hs⟩
  · exact Or.inl h
  · refine Or.inr ⟨hnew, ?_, hs⟩
    rw [ha, toInt32_of_lt _ (by omega)]
    omega

theorem addString_inv {d : Platform} {s : StringTable} (hinv : Inv d s) {depth : Nat}
    {str var_name : ustring} {a : Nat} {s' : StringTable}
    (hok : addString d depth s str var_name = .ok a s') (hs' : s'.m_size ≤ 2 ^ 31) :
    Inv d s' := by
  obtain ⟨t, base, _, ht, _, hfit, hcase⟩ := addString_ok hinv hok hs'
  rcases hcase with ⟨p, _, _, _, hs'⟩ | ⟨hnew, _, hs'⟩
  · rw [hs']; exact publish_inv ht _ _
  · rw [hs']; exact publish_inv (writeRecord_inv ht str var_name hnew hfit.1 (by omega)) _ _

theorem replay_inv {d : Platform} (depth : Nat) (es : List (ustring × ustring)) :
    ∀ (s t : StringTable), Inv d s → replay (addString d depth) es s = .ok () t →
      t.m_size ≤ 2 ^ 31 → Inv d t := by
  induction es with
  | nil =>
    intro s t hs h _
    simp only [replay] at h
    injection h with _ h2
    exact h2 ▸ hs
  | cons e es ih =>
    intro s t hs h ht
    simp only [replay] at h
    cases hadd : addString d depth s e.1 e.2 with
    | fail err s1 => rw [hadd] at h; cases h
    | ok a s1 =>
      rw [hadd] at h
      have hm := replay_m_size_mono h
      exact ih s1 t (addString_inv hs hadd (by omega)) h ht

/-- The table that `init` hands to the `addString` calls of `strdecls.h`. -/
theorem init_ok {d : Platform} {depth : Nat} {ctx : Context} {s t : StringTable}
    (hnull : s.m_ptr = none) (h : init d depth ctx s = .ok () t) :
    ctx.enabledDeviceCount = 1 ∧
    replay (addString d depth) (d.strdecls.map strdecl)
      { s with
        m_optix_ctx := ctx
        m_ptr := some (d.cudaMalloc s.mallocs s.m_size)
        block := d.fresh s.mallocs
        mallocs := s.mallocs + 1 } = .ok () t := by
  simp only [init, hnull] at h
  by_cases hc : ctx.enabledDeviceCount = 1
  · rw [if_neg (not_not.mpr hc)] at h
    exact ⟨hc, h⟩
  · rw [if_pos hc] at h
    cases h

theorem inv_allocated (d : Platform) (ctx : Context) (hc : ctx.enabledDeviceCount = 1) :
    Inv d
      { StringTable.new with
        m_optix_ctx := ctx
        m_ptr := some (d.cudaMalloc StringTable.new.mallocs StringTable.new.m_size)
        block := d.fresh StringTable.new.mallocs
        mallocs := StringTable.new.mallocs + 1 } where
  ptr := ⟨_, rfl⟩
  devices := hc
  size := ⟨0, rfl⟩
  bound := Nat.zero_le _
  nodup := List.nodup_nil
  layout := ⟨rfl, fun k hk => (by cases hk), fun k o hf => (by cases hf),
    fun _ _ _ _ _ hf => (by cases hf)⟩

/-- A reachable table of at most `2 ^ 31` bytes satisfies the invariant: the
capacity never shrinks, so no table before it was larger. -/
theorem Reached.invariant {d : Platform} {calls : List (ustring × ustring)} {s : StringTable}
    (h : Reached d calls s) (hsmall : s.m_size ≤ 2 ^ 31) : Inv d s := by
  induction h with
  | init depth ctx s hinit =>
    obtain ⟨hc, hrep⟩ := init_ok rfl hinit
    exact replay_inv depth _ _ _ (inv_allocated d ctx hc) hrep hsmall
  | addString depth calls s str var_name addr s1 _ hok ih =>
    have hm := addString_m_size_mono hok
    exact addString_inv (ih (by omega)) hok hsmall

/-! ## What a call of `addString` leaves behind -/

theorem mem_keys_assocSet {β : Type} (k : ustring) (v : β) (m : List (ustring × β)) :
    k ∈ keys (assocSet k v m) :=
  mem_keys_of_assocFind (assocFind_assocSet_self k v m)

theorem Layout.getOffset_of_mem {d : Platform} {s : StringTable} {ks : List ustring}
    (h : Layout d s ks) {k : ustring} (hk : k ∈ ks) :
    ∃ p : Nat, getOffset s k = (p : Int) ∧ assocFind k s.m_offset_map = some (p : Int) ∧
      8 ∣ p ∧ p + k.length + 1 ≤ s.m_offset ∧ RecordAt d s.block k p := by
  obtain ⟨p, hp⟩ := h.found k hk
  obtain ⟨_, q, hq, hdvd, hle, hrec⟩ := h.stored k p hp
  have : p = q := by omega
  subst this
  exact ⟨p, getOffset_of_find hp, hp, hdvd, hle, hrec⟩

/-- After a successful call the string is in both maps and the address returned
is the base of the block plus its offset. -/
theorem addString_result {d : Platform} {s : StringTable} (hinv : Inv d s) {depth : Nat}
    {str var_name : ustring} {a : Nat} {s' : StringTable}
    (hok : addString d depth s str var_name = .ok a s') (hsmall : s'.m_size ≤ 2 ^ 31) :
    ∃ base p : Nat, s'.m_ptr = some base ∧ assocFind str s'.m_offset_map = some (p : Int) ∧
      a = base + p ∧ str ∈ keys s'.m_name_map := by
  obtain ⟨t, base, _, _, hb, hfit, hcase⟩ := addString_ok hinv hok hsmall
  rcases hcase with ⟨p, hp, hmem, ha, hs'⟩ | ⟨_, ha, hs'⟩
  · refine ⟨base, p, ?_, ?_, ha, ?_⟩
    · rw [hs', publish_m_ptr]; exact hb
    · rw [hs', publish_m_offset_map]; exact hp
    · rw [hs', publish_m_name_map]; exact hmem
  · refine ⟨base, t.m_offset + 16, ?_, ?_, ha, ?_⟩
    · rw [hs', publish_m_ptr, writeRecord_fst]; exact hb
    · rw [hs', publish_m_offset_map, writeRecord_m_offset_map, toInt32_of_lt _ (by omega)]
      exact assocFind_assocSet_self _ _ _
    · rw [hs', publish_m_name_map, writeRecord_fst]
      exact mem_keys_assocSet _ _ _

/-- The name index after a successful call: a string that was there keeps its
entry, a new one gets an entry at the end of the list. -/
theorem addString_name_map {d : Platform} {s : StringTable} (hinv : Inv d s) {depth : Nat}
    {str var_name : ustring} {a : Nat} {s' : StringTable}
    (hok : addString d depth s str var_name = .ok a s') (hsmall : s'.m_size ≤ 2 ^ 31) :
    (str ∈ keys s.m_name_map → s'.m_name_map = s.m_name_map ∧ s'.m_offset = s.m_offset) ∧
    (str ∉ keys s.m_name_map → s'.m_name_map = s.m_name_map ++ [(str, var_name)] ∧
      s'.m_offset = s.m_offset + recordSpan str) := by
  obtain ⟨t, base, hgrow, ht, _, hfit, hcase⟩ := addString_ok hinv hok hsmall
  have hn : t.m_name_map = s.m_name_map := by
    rcases hgrow with ⟨rfl, _⟩ | ⟨_, hrep⟩
    · rfl
    · exact hrep.m_name_map
  have ho : t.m_offset = s.m_offset := by
    rcases hgrow with ⟨rfl, _⟩ | ⟨_, hrep⟩
    · rfl
    · exact hrep.m_offset hinv
  rw [← hn, ← ho]
  rcases hcase with ⟨p, _, hmem, _, hs'⟩ | ⟨hnew, _, hs'⟩
  · refine ⟨fun _ => ?_, fun h => absurd hmem h⟩
    rw [hs', publish_m_name_map, publish_m_offset]
    exact ⟨rfl, rfl⟩
  · refine ⟨fun h => absurd h hnew, fun _ => ?_⟩
    rw [hs', publish_m_name_map, publish_m_offset,
      writeRecord_m_offset d t str var_name ht.layout.dvd_cursor (by omega), writeRecord_fst]
    exact ⟨assocSet_of_not_mem var_name hnew, rfl⟩

/-- A string that is in the name index leaves the name index and the cursor as
they were, also when the call grows the table beyond `2 ^ 31` bytes. -/
theorem addString_known {d : Platform} {s : StringTable} (hinv : Inv d s)
    (hsmall : s.m_size ≤ 2 ^ 31) {depth : Nat}
    {str var_name : ustring} {a : Nat} {s' : StringTable}
    (hok : addString d depth s str var_name = .ok a s') (hmem : str ∈ keys s.m_name_map) :
    s'.m_name_map = s.m_name_map ∧ s'.m_offset = s.m_offset := by
  obtain ⟨t, base, hgrow, ht, _, hfit, hcase⟩ :=
    addString_cases hinv (Nat.le_trans hinv.bound hsmall) hok
  have hn : t.m_name_map = s.m_name_map := by
    rcases hgrow with ⟨rfl, _⟩ | ⟨_, hrep⟩
    · rfl
    · exact hrep.m_name_map
  have ho : t.m_offset = s.m_offset := by
    rcases hgrow with ⟨rfl, _⟩ | ⟨_, hrep⟩
    · rfl
    · exact hrep.m_offset hinv
  rw [← hn, ← ho]
  rcases hcase with ⟨p, _, _, _, hs'⟩ | ⟨hnew, _, _⟩
  · rw [hs', publish_m_name_map, publish_m_offset]
    exact ⟨rfl, rfl⟩
  · exact absurd (hn ▸ hmem) hnew

/-- The block after a successful call: the one the table had when the growth
check did not fire, a new one of twice the size when it did. -/
theorem addString_block {d : Platform} {s : StringTable} (hinv : Inv d s)
    (hsmall : s.m_size ≤ 2 ^ 31) {depth : Nat}
    {str var_name : ustring} {a : Nat} {s' : StringTable}
    (hok : addString d depth s str var_name = .ok a s') :
    (s.m_offset + (8 + 8 + str.length + 1) < s.m_size →
      s'.m_size = s.m_size ∧ s'.m_ptr = s.m_ptr ∧ s'.mallocs = s.mallocs) ∧
    (s.m_size ≤ s.m_offset + (8 + 8 + str.length + 1) →
      s'.m_size = s.m_size * 2 ∧ s'.m_ptr = some (d.cudaMalloc s.mallocs (s.m_size * 2)) ∧
      s'.mallocs = s.mallocs + 1) := by
  obtain ⟨t, base, hgrow, ht, _, _, hcase⟩ :=
    addString_cases hinv (Nat.le_trans hinv.bound hsmall) hok
  have hs' : s'.m_size = t.m_size ∧ s'.m_ptr = t.m_ptr ∧ s'.mallocs = t.mallocs := by
    rcases hcase with ⟨p, _, _, _, hs'⟩ | ⟨_, _, hs'⟩
    · rw [hs', publish_m_size, publish_m_ptr, publish_mallocs]
      exact ⟨rfl, rfl, rfl⟩
    · rw [hs', publish_m_size, publish_m_ptr, publish_mallocs, writeRecord_fst]
      exact ⟨rfl, rfl, rfl⟩
  rcases hgrow with ⟨rfl, hlt⟩ | ⟨hge, hrep⟩
  · exact ⟨fun _ => hs', fun h => absurd hlt (by omega)⟩
  · refine ⟨fun h => absurd hge (by omega), fun _ => ?_⟩
    rw [hs'.1, hs'.2.1, hs'.2.2]
    exact ⟨hrep.m_size, hrep.m_ptr, hrep.mallocs⟩

/-- A call whose record fits, at once or in a block of twice the size,
returns. -/
theorem addString_returns {d : Platform} {s : StringTable} (hinv : Inv d s)
    (hsmall : s.m_size ≤ 2 ^ 31) (depth : Nat) (str var_name : ustring)
    (hfit : s.m_offset + (8 + 8 + str.length + 1) ≤ s.m_size * 2) :
    ∃ a s', addString d (depth + 1) s str var_name = .ok a s' := by
  have tail : ∀ t, t.m_offset + (8 + 8 + str.length + 1) ≤ t.m_size →
      ∃ a s', addStringTail d t str var_name = .ok a s' := by
    intro t hfit
    obtain ⟨a, h | h⟩ := addStringTail_cases d t str var_name hfit
    · exact ⟨_, _, h⟩
    · exact ⟨_, _, h⟩
  obtain ⟨base0, hb0⟩ := hinv.ptr
  by_cases hgrow : s.m_offset + (8 + 8 + str.length + 1) < s.m_size
  · rw [addString_noGrow d _ s str var_name base0 hb0 hgrow]
    exact tail s (Nat.le_of_lt hgrow)
  · obtain ⟨t, hre, hrep⟩ := reallocTable_of_inv d depth s hinv (Nat.le_trans hinv.bound hsmall)
    rw [addString_succ, addStringWith_grow d _ s str var_name base0 hb0 (by omega), hre]
    exact tail t (by rw [hrep.m_offset hinv, hrep.m_size]; exact hfit)

/-- A call that fails on a table that satisfies the invariant either had no
depth left for `reallocTable`, or failed the assertion of line 92 after
`reallocTable` had run. -/
theorem addString_fail {d : Platform} {s : StringTable} (hinv : Inv d s)
    (hsmall : s.m_size ≤ 2 ^ 31) {depth : Nat}
    {str var_name : ustring} {e : Failure} {s' : StringTable}
    (hfail : addString d depth s str var_name = .fail e s') :
    s.m_size ≤ s.m_offset + (8 + 8 + str.length + 1) ∧
    ((depth = 0 ∧ e = .callDepth ∧ s' = s) ∨
      (e = .allocationError ∧ Replayed d s (d.iter s.m_name_map) s' ∧
        s'.m_size < s'.m_offset + (8 + 8 + str.length + 1))) := by
  have tail : ∀ t, addStringTail d t str var_name = .fail e s' →
      e = .allocationError ∧ s' = t ∧ t.m_size < t.m_offset + (8 + 8 + str.length + 1) := by
    intro t htail
    obtain ⟨h1, h2, h3⟩ := addStringTail_of_fail d t str var_name e s' htail
    exact ⟨h2, h3, by omega⟩
  obtain ⟨base0, hb0⟩ := hinv.ptr
  by_cases hgrow : s.m_offset + (8 + 8 + str.length + 1) < s.m_size
  · rw [addString_noGrow d _ s str var_name base0 hb0 hgrow] at hfail
    obtain ⟨_, _, h⟩ := tail s hfail
    omega
  · refine ⟨by omega, ?_⟩
    cases depth with
    | zero =>
      rw [addString_zero, addStringWith_grow d _ s str var_name base0 hb0 (by omega)] at hfail
      injection hfail with h1 h2
      exact Or.inl ⟨rfl, h1.symm, h2.symm⟩
    | succ n =>
      obtain ⟨t, hre, hrep⟩ := reallocTable_of_inv d n s hinv (Nat.le_trans hinv.bound hsmall)
      rw [addString_succ, addStringWith_grow d _ s str var_name base0 hb0 (by omega), hre]
        at hfail
      obtain ⟨h1, h2, h3⟩ := tail t hfail
      exact Or.inr ⟨h1, h2 ▸ hrep, h2 ▸ h3⟩

/-! ## The depth bound does not matter on reachable tables -/

theorem replay_congr (add₁ add₂ : StringTable → ustring → ustring → Outcome Nat)
    (es : List (ustring × ustring)) :
    ∀ (P : List (ustring × ustring) → StringTable → Prop) (s : StringTable),
      P [] s →
      (∀ pre e post t, es = pre ++ e :: post → P pre t →
        add₁ t e.1 e.2 = add₂ t e.1 e.2 ∧
        ∃ a t', add₁ t e.1 e.2 = .ok a t' ∧ P (pre ++ [e]) t') →
      replay add₁ es s = replay add₂ es s := by
  induction es with
  | nil => intro P s _ _; rfl
  | cons e es ih =>
    intro P s h0 hstep
    obtain ⟨heq, a, t', hadd, hP⟩ := hstep [] e es s rfl h0
    simp only [replay, ← heq, hadd]
    exact ih (fun pre t => P (e :: pre) t) t' hP (by
      intro pre e' post u hes hu
      exact hstep (e :: pre) e' post u (by rw [hes]; rfl) hu)

theorem replayed_step_eq (d : Platform) (depth : Nat) (s : StringTable) (hinv : Inv d s)
    (pre : List (ustring × ustring)) (e : ustring × ustring) (post : List (ustring × ustring))
    (t : StringTable) (hes : d.iter s.m_name_map = pre ++ e :: post)
    (ht : Replayed d s pre t) :
    addString d depth t e.1 e.2 = addString d 0 t e.1 e.2 := by
  have hperm := d.iter_perm s.m_name_map
  have hkeys : keys (pre ++ e :: post) = keys pre ++ e.1 :: keys post := by simp [keys]
  have htotal : packedSize (keys pre) + recordSpan e.1 ≤ s.m_offset := by
    rw [hinv.layout.cursor, ← packedSize_perm (keys_perm hperm), hes, hkeys, packedSize_append,
      packedSize_cons]
    omega
  have hspan := recordSpan_ge e.1
  have hpos := hinv.size_pos
  have hbound := hinv.bound
  have hfit : t.m_offset + (8 + 8 + e.1.length + 1) < t.m_size := by
    rw [ht.m_size, ht.layout.cursor]; omega
  rw [addString_noGrow d depth t e.1 e.2 _ ht.m_ptr hfit,
    addString_noGrow d 0 t e.1 e.2 _ ht.m_ptr hfit]

theorem reallocTable_depth (d : Platform) (depth : Nat) (s : StringTable) (hinv : Inv d s)
    (h31 : s.m_offset ≤ 2 ^ 31) :
    reallocTable d depth s = reallocTable d 0 s := by
  unfold reallocTable reallocTableWith
  rw [if_neg (not_not.mpr hinv.devices), if_neg (not_not.mpr hinv.devices)]
  exact replay_congr (addString d depth) (addString d 0) (d.iter s.m_name_map) (Replayed d s) _
    (replayed_start d s hinv.devices)
    (fun pre e post t hes ht =>
      ⟨replayed_step_eq d depth s hinv pre e post t hes ht,
        replayed_step d depth s hinv h31 pre e post t hes ht⟩)

/-- On a table that satisfies the invariant, `reallocTable` never nests: a
depth of 1 gives `addString` all the room it takes. -/
theorem addString_depth (d : Platform) (depth : Nat) (s : StringTable) (hinv : Inv d s)
    (h31 : s.m_offset ≤ 2 ^ 31) (str var_name : ustring) :
    addString d (depth + 1) s str var_name = addString d 1 s str var_name := by
  obtain ⟨base, hb⟩ := hinv.ptr
  by_cases hgrow : s.m_offset + (8 + 8 + str.length + 1) < s.m_size
  · rw [addString_noGrow d _ s str var_name base hb hgrow,
      addString_noGrow d _ s str var_name base hb hgrow]
  · rw [addString_succ, addString_succ,
      addStringWith_grow d _ s str var_name base hb (by omega),
      addStringWith_grow d _ s str var_name base hb (by omega),
      reallocTable_depth d depth s hinv h31]

theorem reallocTable_eq_replay (d : Platform) (depth : Nat) (s : StringTable)
    (hdev : s.m_optix_ctx.enabledDeviceCount = 1) :
    reallocTable d depth s
      = replay (addString d depth) (d.iter s.m_name_map) (reallocStart d s) := by
  unfold reallocTable reallocTableWith
  rw [if_neg (not_not.mpr hdev)]
  rfl

theorem replayed_fits (d : Platform) (s : StringTable) (hinv : Inv d s)
    (pre : List (ustring × ustring)) (e : ustring × ustring) (post : List (ustring × ustring))
    (t : StringTable) (hes : d.iter s.m_name_map = pre ++ e :: post)
    (ht : Replayed d s pre t) :
    t.m_offset + (8 + 8 + e.1.length + 1) < t.m_size := by
  have hperm := d.iter_perm s.m_name_map
  have hkeys : keys (pre ++ e :: post) = keys pre ++ e.1 :: keys post := by simp [keys]
  have htotal : packedSize (keys pre) + recordSpan e.1 ≤ s.m_offset := by
    rw [hinv.layout.cursor, ← packedSize_perm (keys_perm hperm), hes, hkeys, packedSize_append,
      packedSize_cons]
    omega
  have hspan := recordSpan_ge e.1
  have hpos := hinv.size_pos
  have hbound := hinv.bound
  rw [ht.m_size, ht.layout.cursor]
  omega

theorem replay_upto (d : Platform) (depth : Nat) (s : StringTable) (hinv : Inv d s)
    (h31 : s.m_offset ≤ 2 ^ 31)
    (pre : List (ustring × ustring)) (rest : List (ustring × ustring))
    (hes : d.iter s.m_name_map = pre ++ rest) :
    ∃ u, replay (addString d depth) pre (reallocStart d s) = .ok () u ∧ Replayed d s pre u :=
  replay_invariant (addString d depth) pre (Replayed d s) (reallocStart d s)
    (replayed_start d s hinv.devices)
    (fun pre₁ e post₁ t hpre ht =>
      replayed_step d depth s hinv h31 pre₁ e (post₁ ++ rest) t
        (by rw [hes, hpre]; simp) ht)

/-! ## Tables of any size -/

theorem keys_assocSet_of_mem {β : Type} {k : ustring} (v : β) {m : List (ustring × β)}
    (h : k ∈ keys m) : keys (assocSet k v m) = keys m := by
  induction m with
  | nil => cases h
  | cons e m ih =>
    obtain ⟨k', v'⟩ := e
    by_cases hk : k' = k
    · simp [assocSet, keys, hk]
    · have hm : k ∈ keys m := by
        rcases List.mem_cons.mp h with h | h
        · exact absurd h.symm hk
        · exact h
      have e := ih hm
      simp only [keys] at e
      simp [assocSet, keys, hk, e]

theorem keys_assocSet {β : Type} (k : ustring) (v : β) (m : List (ustring × β)) :
    keys (assocSet k v m) = keys m ∨ (k ∉ keys m ∧ keys (assocSet k v m) = keys m ++ [k]) := by
  by_cases h : k ∈ keys m
  · exact Or.inl (keys_assocSet_of_mem v h)
  · refine Or.inr ⟨h, ?_⟩
    rw [assocSet_of_not_mem v h, keys_append]; rfl

theorem size_regime {n : Nat} (h : ∃ j, n = 65536 * 2 ^ j) : n ≤ 2 ^ 31 ∨ 2 ^ 32 ≤ n := by
  obtain ⟨j, rfl⟩ := h
  by_cases hj : j ≤ 15
  · have h1 : 2 ^ j ≤ 2 ^ 15 := Nat.pow_le_pow_right (by decide) hj
    norm_num at h1
    left; omega
  · have h1 : 2 ^ 16 ≤ 2 ^ j := Nat.pow_le_pow_right (by decide) (by omega)
    norm_num at h1
    right; omega

theorem Inv.toWide {d : Platform} {s : StringTable} (h : Inv d s) : Wide d s where
  ptr := h.ptr
  devices := h.devices
  size := h.size
  nodup := h.nodup
  fits := by
    intro k hk
    obtain ⟨p, _, _, _, hle, h16, _⟩ := h.layout.getOffset_of_mem hk
    have := h.bound
    omega
  cursor := h.layout.dvd_cursor
  aligned := by
    intro k o ho
    obtain ⟨_, p, hp, hdvd, _⟩ := h.layout.stored k o ho
    rw [hp]
    exact Int.natCast_dvd_natCast.mpr hdvd

theorem publish_wide {d : Platform} {s : StringTable} (h : Wide d s) (n : ustring) (a : Nat) :
    Wide d (publish s n a) where
  ptr := by rw [publish_m_ptr]; exact h.ptr
  devices := by rw [publish_devices]; exact h.devices
  size := by rw [publish_m_size]; exact h.size
  nodup := by rw [publish_m_name_map]; exact h.nodup
  fits := by rw [publish_m_name_map, publish_m_size]; exact h.fits
  cursor := by rw [publish_m_offset]; exact h.cursor
  aligned := by rw [publish_m_offset_map]; exact h.aligned

theorem aligned_assocSet {m : List (ustring × Int)} {c : Nat} (str : ustring)
    (hm : ∀ k (o : Int), assocFind k m = some o → (8 : Int) ∣ o) (hc : 8 ∣ c) :
    ∀ k (o : Int), assocFind k (assocSet str (toInt32 (c + 8 + 8)) m) = some o → (8 : Int) ∣ o := by
  intro k o ho
  by_cases hk : k = str
  · rw [hk, assocFind_assocSet_self] at ho
    rw [← Option.some.inj ho]
    exact dvd_toInt32 _ (by omega)
  · rw [assocFind_assocSet_ne _ _ _ _ hk] at ho
    exact hm k o ho

theorem writeRecord_wide {d : Platform} {s : StringTable} (h : Wide d s) (str var_name : ustring)
    (hfit : s.m_offset + (8 + 8 + str.length + 1) ≤ s.m_size) :
    Wide d (writeRecord d s str var_name).1 where
  ptr := h.ptr
  devices := h.devices
  size := h.size
  nodup := by
    rw [writeRecord_m_name_map]
    rcases keys_assocSet str var_name s.m_name_map with e | ⟨hnew, e⟩
    · rw [e]; exact h.nodup
    · rw [e]
      exact List.nodup_append.mpr ⟨h.nodup, List.nodup_singleton _, by
        intro a ha hb
        rw [List.mem_singleton.mp hb] at ha
        exact hnew ha⟩
  fits := by
    intro k hk
    rw [writeRecord_m_name_map] at hk
    rw [writeRecord_m_size]
    rcases keys_assocSet str var_name s.m_name_map with e | ⟨_, e⟩
    · rw [e] at hk; exact h.fits k hk
    · rw [e] at hk
      rcases List.mem_append.mp hk with hk | hk
      · exact h.fits k hk
      · rw [List.mem_singleton.mp hk]; omega
  cursor := by rw [writeRecord_cursor]; exact dvd_alignUp8 _
  aligned := by
    rw [writeRecord_m_offset_map]
    exact aligned_assocSet str h.aligned h.cursor

theorem addStringTail_wide {d : Platform} {t : StringTable} (h : Wide d t)
    {str var_name : ustring} {a : Nat} {s' : StringTable}
    (hok : addStringTail d t str var_name = .ok a s') : Wide d s' := by
  obtain ⟨hfit, hs | hs⟩ := addStringTail_of_ok d t str var_name a s' hok
  · rw [hs]; exact publish_wide h _ _
  · rw [hs]; exact publish_wide (writeRecord_wide h str var_name hfit) _ _

theorem rebuilt_start (d : Platform) (s : StringTable)
    (hdev : s.m_optix_ctx.enabledDeviceCount = 1) : Rebuilt d s (reallocStart d s) where
  m_size := rfl
  m_ptr := rfl
  m_name_map := rfl
  devices := hdev
  cursor := Nat.dvd_zero 8
  below := by show 0 < 2 ^ 32; decide
  aligned := fun k o hf => by cases hf

theorem rebuilt_fits {d : Platform} {s t : StringTable} (hw : Wide d s)
    (hbig : 2 ^ 32 ≤ s.m_size) (e : ustring × ustring) (he : e ∈ s.m_name_map)
    (ht : Rebuilt d s t) : t.m_offset + (8 + 8 + e.1.length + 1) < t.m_size := by
  have h1 := hw.fits e.1 (List.mem_map.mpr ⟨e, he, rfl⟩)
  have h2 := ht.below
  rw [ht.m_size]
  omega

theorem rebuilt_step {d : Platform} {s t : StringTable} (depth : Nat) (hw : Wide d s)
    (hbig : 2 ^ 32 ≤ s.m_size) (e : ustring × ustring) (he : e ∈ s.m_name_map)
    (ht : Rebuilt d s t) :
    ∃ a t', addString d depth t e.1 e.2 = .ok a t' ∧ Rebuilt d s t' := by
  have hfit := rebuilt_fits hw hbig e he ht
  rw [addString_noGrow d depth t e.1 e.2 _ ht.m_ptr hfit]
  obtain ⟨a, h | h⟩ := addStringTail_cases d t e.1 e.2 (Nat.le_of_lt hfit)
  · refine ⟨a, _, h, ?_⟩
    exact
      { m_size := by rw [publish_m_size]; exact ht.m_size
        m_ptr := by rw [publish_m_ptr]; exact ht.m_ptr
        m_name_map := by rw [publish_m_name_map]; exact ht.m_name_map
        devices := by rw [publish_devices]; exact ht.devices
        cursor := by rw [publish_m_offset]; exact ht.cursor
        below := by rw [publish_m_offset]; exact ht.below
        aligned := by rw [publish_m_offset_map]; exact ht.aligned }
  · refine ⟨a, _, h, ?_⟩
    exact
      { m_size := by rw [publish_m_size, writeRecord_m_size]; exact ht.m_size
        m_ptr := by rw [publish_m_ptr, writeRecord_m_ptr]; exact ht.m_ptr
        m_name_map := by
          rw [publish_m_name_map, writeRecord_m_name_map, ht.m_name_map]
          exact assocSet_of_assocFind (assocFind_of_mem hw.nodup he)
        devices := by rw [publish_devices, writeRecord_devices]; exact ht.devices
        cursor := by rw [publish_m_offset, writeRecord_cursor]; exact dvd_alignUp8 _
        below := by rw [publish_m_offset, writeRecord_cursor]; exact alignUp8_lt_pow _
        aligned := by
          rw [publish_m_offset_map, writeRecord_m_offset_map]
          exact aligned_assocSet e.1 ht.aligned ht.cursor }

theorem Rebuilt.rebuiltWide {d : Platform} {s t : StringTable} (hw : Wide d s) (h : Rebuilt d s t) :
    Wide d t where
  ptr := ⟨_, h.m_ptr⟩
  devices := h.devices
  size := by
    obtain ⟨j, hj⟩ := hw.size
    exact ⟨j + 1, by rw [h.m_size, hj, pow_succ]; ring⟩
  nodup := by rw [h.m_name_map]; exact hw.nodup
  fits := by
    intro k hk
    rw [h.m_name_map] at hk
    have := hw.fits k hk
    rw [h.m_size]
    omega
  cursor := h.cursor
  aligned := h.aligned

theorem rebuilt_upto {d : Platform} {s : StringTable} (depth : Nat) (hw : Wide d s)
    (hbig : 2 ^ 32 ≤ s.m_size) (pre rest : List (ustring × ustring))
    (hes : d.iter s.m_name_map = pre ++ rest) :
    ∃ u, replay (addString d depth) pre (reallocStart d s) = .ok () u ∧ Rebuilt d s u :=
  replay_invariant (addString d depth) pre (fun _ => Rebuilt d s) (reallocStart d s)
    (rebuilt_start d s hw.devices)
    (fun pre₁ e post₁ t hpre ht =>
      rebuilt_step depth hw hbig e
        ((d.iter_perm s.m_name_map).mem_iff.mp (by rw [hes, hpre]; simp)) ht)

theorem reallocTable_depth_wide {d : Platform} {s : StringTable} (depth : Nat) (hw : Wide d s)
    (hbig : 2 ^ 32 ≤ s.m_size) : reallocTable d depth s = reallocTable d 0 s := by
  rw [reallocTable_eq_replay d depth s hw.devices, reallocTable_eq_replay d 0 s hw.devices]
  refine replay_congr (addString d depth) (addString d 0) (d.iter s.m_name_map)
    (fun _ => Rebuilt d s) _ (rebuilt_start d s hw.devices) ?_
  intro pre e post t hes ht
  have he : e ∈ s.m_name_map := (d.iter_perm s.m_name_map).mem_iff.mp (by rw [hes]; simp)
  have hfit := rebuilt_fits hw hbig e he ht
  refine ⟨?_, rebuilt_step depth hw hbig e he ht⟩
  rw [addString_noGrow d depth t e.1 e.2 _ ht.m_ptr hfit,
    addString_noGrow d 0 t e.1 e.2 _ ht.m_ptr hfit]

/-- On a table that has the shape of a reachable one, `reallocTable` returns
with twice the capacity whatever the size of the table: below `2 ^ 31` bytes
because the records fitted the old block, beyond because the cursor is masked
to 32 bits and every record fitted half the new block.  No call of the loop
grows the table again. -/
theorem reallocTable_spec {d : Platform} {s : StringTable} (hw : Wide d s)
    (hi : s.m_size ≤ 2 ^ 31 → Inv d s) (depth : Nat) :
    (∃ t, reallocTable d depth s = .ok () t ∧ t.m_size = s.m_size * 2 ∧ Wide d t ∧
      (t.m_size ≤ 2 ^ 31 → Inv d t)) ∧
    (∀ pre e post, d.iter s.m_name_map = pre ++ e :: post →
      ∃ u, replay (addString d depth) pre (reallocStart d s) = .ok () u ∧
        u.m_offset + (8 + 8 + e.1.length + 1) < u.m_size) ∧
    reallocTable d depth s = reallocTable d 0 s := by
  rcases size_regime hw.size with hsmall | hbig
  · have hinv := hi hsmall
    have h31 : s.m_offset ≤ 2 ^ 31 := Nat.le_trans hinv.bound hsmall
    refine ⟨?_, ?_, reallocTable_depth d depth s hinv h31⟩
    · obtain ⟨t, ht, hrep⟩ := reallocTable_of_inv d depth s hinv h31
      exact ⟨t, ht, hrep.m_size, (hrep.inv hinv).toWide, fun _ => hrep.inv hinv⟩
    · intro pre e post hes
      obtain ⟨u, hu, hrep⟩ := replay_upto d depth s hinv h31 pre (e :: post) hes
      exact ⟨u, hu, replayed_fits d s hinv pre e post u hes hrep⟩
  · refine ⟨?_, ?_, reallocTable_depth_wide depth hw hbig⟩
    · obtain ⟨t, ht, hrep⟩ := rebuilt_upto depth hw hbig (d.iter s.m_name_map) [] (by simp)
      rw [← reallocTable_eq_replay d depth s hw.devices] at ht
      refine ⟨t, ht, hrep.m_size, hrep.rebuiltWide hw, fun hsm => ?_⟩
      rw [hrep.m_size] at hsm
      omega
    · intro pre e post hes
      obtain ⟨u, hu, hrep⟩ := rebuilt_upto depth hw hbig pre (e :: post) hes
      have he : e ∈ s.m_name_map := (d.iter_perm s.m_name_map).mem_iff.mp (by rw [hes]; simp)
      exact ⟨u, hu, rebuilt_fits hw hbig e he hrep⟩

/-- Whatever a call of `addString` does on a table that has the shape of a
reachable one, the table it leaves has that shape again, and its capacity is
the one before or twice that. -/
theorem addString_shape {d : Platform} {s : StringTable} (hw : Wide d s)
    (hi : s.m_size ≤ 2 ^ 31 → Inv d s) (depth : Nat) (str var_name : ustring) :
    ∀ r, addString d depth s str var_name = r →
      Wide d r.table ∧ (r.table.m_size ≤ 2 ^ 31 → Inv d r.table) ∧
      (r.table.m_size = s.m_size ∨ r.table.m_size = s.m_size * 2) := by
  intro r hr
  obtain ⟨base, hb⟩ := hw.ptr
  -- the table after the growth check
  have tail : ∀ t, Wide d t → (t.m_size ≤ 2 ^ 31 → Inv d t) →
      addStringTail d t str var_name = r →
      Wide d r.table ∧ (r.table.m_size ≤ 2 ^ 31 → (∀ a s', r = .ok a s' → Inv d s') → Inv d r.table)
        ∧ r.table.m_size = t.m_size := by
    intro t hwt hit ht
    have hsz := addStringTail_m_size d t str var_name
    rw [ht] at hsz
    cases r with
    | ok a s' =>
      exact ⟨addStringTail_wide hwt ht, fun _ h => h a s' rfl, hsz⟩
    | fail e s' =>
      obtain ⟨_, _, h3⟩ := addStringTail_of_fail d t str var_name e s' ht
      have e' : (Outcome.fail e s' : Outcome Nat).table = t := h3
      rw [e']
      exact ⟨hwt, fun hsm _ => hit hsm, rfl⟩
  have hinvr : r.table.m_size ≤ 2 ^ 31 → ∀ a s', r = .ok a s' → Inv d s' := by
    intro hsm a s' hrs
    rw [hrs] at hr hsm
    have hm := addString_m_size_mono hr
    exact addString_inv (hi (Nat.le_trans hm hsm)) hr hsm
  by_cases hgrow : s.m_offset + (8 + 8 + str.length + 1) < s.m_size
  · rw [addString_noGrow d depth s str var_name base hb hgrow] at hr
    obtain ⟨h1, h2, h3⟩ := tail s hw hi hr
    exact ⟨h1, fun hsm => h2 hsm (hinvr hsm), Or.inl h3⟩
  · cases depth with
    | zero =>
      rw [addString_zero, addStringWith_grow d _ s str var_name base hb (by omega)] at hr
      rw [← hr]
      exact ⟨hw, hi, Or.inl rfl⟩
    | succ n =>
      obtain ⟨⟨t, hre, hsz, hwt, hit⟩, _, _⟩ := reallocTable_spec hw hi n
      rw [addString_succ, addStringWith_grow d _ s str var_name base hb (by omega), hre] at hr
      obtain ⟨h1, h2, h3⟩ := tail t hwt hit hr
      exact ⟨h1, fun hsm => h2 hsm (hinvr hsm), Or.inr (by rw [h3, hsz])⟩

/-- A loop of `addString` calls, wherever it ends. -/
theorem replay_shape {d : Platform} (depth : Nat) (es : List (ustring × ustring)) :
    ∀ s, Wide d s → (s.m_size ≤ 2 ^ 31 → Inv d s) →
      Wide d (replay (addString d depth) es s).table ∧
      ((replay (addString d depth) es s).table.m_size ≤ 2 ^ 31 →
        Inv d (replay (addString d depth) es s).table) ∧
      ∃ j, (replay (addString d depth) es s).table.m_size = s.m_size * 2 ^ j := by
  induction es with
  | nil =>
    intro s hw hi
    exact ⟨hw, hi, 0, by show s.m_size = _; rw [pow_zero, Nat.mul_one]⟩
  | cons e es ih =>
    intro s hw hi
    obtain ⟨h1, h2, h3⟩ := addString_shape hw hi depth e.1 e.2 _ rfl
    simp only [replay]
    cases hcall : addString d depth s e.1 e.2 with
    | fail err s1 =>
      rw [hcall] at h1 h2 h3
      refine ⟨h1, h2, ?_⟩
      rcases h3 with h3 | h3
      · exact ⟨0, by rw [pow_zero, Nat.mul_one]; exact h3⟩
      · exact ⟨1, by rw [pow_one]; exact h3⟩
    | ok a s1 =>
      rw [hcall] at h1 h2 h3
      obtain ⟨g1, g2, j, g3⟩ := ih s1 h1 h2
      refine ⟨g1, g2, ?_⟩
      have h3' : s1.m_size = s.m_size ∨ s1.m_size = s.m_size * 2 := h3
      rcases h3' with h3' | h3'
      · exact ⟨j, by rw [g3, h3']⟩
      · exact ⟨j + 1, by rw [g3, h3', pow_succ]; ring⟩

theorem allocated_wide (d : Platform) (ctx : Context) (hc : ctx.enabledDeviceCount = 1) :
    Wide d (allocated d ctx) ∧ Inv d (allocated d ctx) :=
  ⟨(inv_allocated d ctx hc).toWide, inv_allocated d ctx hc⟩

/-- A reachable table has the shape `Wide` whatever its size. -/
theorem Reached.wide {d : Platform} {calls : List (ustring × ustring)} {s : StringTable}
    (h : Reached d calls s) : Wide d s := by
  induction h with
  | init depth ctx s hinit =>
    obtain ⟨hc, hrep⟩ := init_ok rfl hinit
    have := (replay_shape depth (d.strdecls.map strdecl) _ (inv_allocated d ctx hc).toWide
      (fun _ => inv_allocated d ctx hc)).1
    rw [hrep] at this
    exact this
  | addString depth calls s str var_name addr s1 hs hok ih =>
    have := (addString_shape ih hs.invariant depth str var_name _ rfl).1
    rw [hok] at this
    exact this

/-! ## The history of a reachable table -/

theorem addString_keys_mono {d : Platform} {s : StringTable} (hinv : Inv d s) {depth : Nat}
    {str var_name : ustring} {a : Nat} {s' : StringTable}
    (hok : addString d depth s str var_name = .ok a s') (hsmall : s'.m_size ≤ 2 ^ 31) :
    ∀ k ∈ keys s.m_name_map, k ∈ keys s'.m_name_map := by
  intro k hk
  have h := addString_name_map hinv hok hsmall
  by_cases hmem : str ∈ keys s.m_name_map
  · rw [(h.1 hmem).1]; exact hk
  · rw [(h.2 hmem).1, keys_append]; exact List.mem_append_left _ hk

theorem replay_keys {d : Platform} (depth : Nat) (es : List (ustring × ustring)) :
    ∀ (s t : StringTable), Inv d s → replay (addString d depth) es s = .ok () t →
      t.m_size ≤ 2 ^ 31 →
      (∀ k ∈ keys s.m_name_map, k ∈ keys t.m_name_map) ∧
      ∀ e ∈ es, e.1 ∈ keys t.m_name_map := by
  induction es with
  | nil =>
    intro s t _ h _
    simp only [replay] at h
    injection h with _ h2
    subst h2
    exact ⟨fun _ hk => hk, fun e he => by cases he⟩
  | cons e es ih =>
    intro s t hs h ht
    simp only [replay] at h
    cases hadd : addString d depth s e.1 e.2 with
    | fail err s1 => rw [hadd] at h; cases h
    | ok a s1 =>
      rw [hadd] at h
      have hs1 : s1.m_size ≤ 2 ^ 31 := Nat.le_trans (replay_m_size_mono h) ht
      obtain ⟨h1, h2⟩ := ih s1 t (addString_inv hs hadd hs1) h ht
      have hmono := addString_keys_mono hs hadd hs1
      obtain ⟨_, _, _, _, _, hmem⟩ := addString_result hs hadd hs1
      refine ⟨fun k hk => h1 k (hmono k hk), fun e' he' => ?_⟩
      rcases List.mem_cons.mp he' with rfl | he'
      · exact h1 _ hmem
      · exact h2 e' he'

theorem Reached.mem_keys {d : Platform} {calls : List (ustring × ustring)} {s : StringTable}
    (h : Reached d calls s) (hsmall : s.m_size ≤ 2 ^ 31) :
    ∀ e ∈ calls, e.1 ∈ keys s.m_name_map := by
  induction h with
  | init depth ctx s hinit =>
    obtain ⟨hc, hrep⟩ := init_ok rfl hinit
    exact (replay_keys depth _ _ _ (inv_allocated d ctx hc) hrep hsmall).2
  | addString depth calls s str var_name addr s1 hs hok ih =>
    have hs0 : s.m_size ≤ 2 ^ 31 := Nat.le_trans (addString_m_size_mono hok) hsmall
    intro e he
    rcases List.mem_append.mp he with he | he
    · exact addString_keys_mono (hs.invariant hs0) hok hsmall _ (ih hs0 e he)
    · rw [List.mem_singleton.mp he]
      obtain ⟨_, _, _, _, _, hmem⟩ := addString_result (hs.invariant hs0) hok hsmall
      exact hmem

theorem zeros_length (n : Nat) : (zeros n).length = n := by
  simp [zeros]

theorem recordSpan_zeros (n : Nat) : recordSpan (zeros n) = (8 + 8 + n + 1 + 7) / 8 * 8 := by
  unfold recordSpan
  rw [zeros_length]

theorem ne_zeros_of_length (k : ustring) (n : Nat) (h : k.length ≠ n) : k ≠ zeros n := by
  intro e
  have := congrArg List.length e
  rw [zeros_length] at this
  exact h this

theorem reached_emptyTable : Reached examplePlatform [] emptyTable :=
  Reached.init 0 oneDevice _ rfl

theorem reached_tableA : Reached examplePlatform [(strA, nameX)] tableA :=
  Reached.addString 0 [] emptyTable strA nameX 16777232 tableA reached_emptyTable rfl

theorem reached_tableAB :
    Reached examplePlatform [(strA, nameX), (strB, nameX)] tableAB :=
  Reached.addString 0 [(strA, nameX)] tableA strB nameX 16777256 tableAB reached_tableA rfl

theorem emptyTable_small : emptyTable.m_size ≤ 2 ^ 31 := by decide

theorem tableA_small : tableA.m_size ≤ 2 ^ 31 := by decide

theorem tableAB_small : tableAB.m_size ≤ 2 ^ 31 := by decide

/-! ## C3, C4, C5: the records of a reachable table -/

/-- C3, as amended: in a table of at most `2 ^ 31` bytes reached by `init` and successful
`addString` calls, `getOffset` finds every string that one of these calls was
given, with an offset that is not negative; this includes the calls that made
the table grow. -/
theorem getOffset_of_interned (d : Platform) (calls : List (ustring × ustring))
    (s : StringTable) (h : Reached d calls s) (hsmall : s.m_size ≤ 2 ^ 31)
    (str var_name : ustring) (hcall : (str, var_name) ∈ calls) :
    0 ≤ getOffset s str ∧ ∃ o, assocFind str s.m_offset_map = some o := by
  have hk := h.mem_keys hsmall _ hcall
  obtain ⟨p, hp, hf, _⟩ := (h.invariant hsmall).layout.getOffset_of_mem hk
  exact ⟨by rw [hp]; omega, _, hf⟩

theorem getOffset_of_interned_witness :
    Reached examplePlatform [(strA, nameX), (strB, nameX)] tableAB ∧
    tableAB.m_size ≤ 2 ^ 31 ∧
    (strA, nameX) ∈ [(strA, nameX), (strB, nameX)] ∧
    (0 ≤ getOffset tableAB strA ∧ ∃ o, assocFind strA tableAB.m_offset_map = some o) :=
  ⟨reached_tableAB, tableAB_small, by decide,
    getOffset_of_interned examplePlatform _ tableAB reached_tableAB tableAB_small strA nameX
      (by decide)⟩

/-- C4: in a table reached by `init` and successful `addString` calls every
offset stored in `m_offset_map` is a multiple of 8, and so is every result of
`getOffset` other than -1. -/
theorem offsets_aligned (d : Platform) (calls : List (ustring × ustring))
    (s : StringTable) (h : Reached d calls s) (str : ustring) :
    (∀ o, assocFind str s.m_offset_map = some o → (8 : Int) ∣ o) ∧
    (getOffset s str ≠ -1 → (8 : Int) ∣ getOffset s str) := by
  have h1 : ∀ o, assocFind str s.m_offset_map = some o → (8 : Int) ∣ o :=
    fun o ho => h.wide.aligned str o ho
  refine ⟨h1, fun hne => ?_⟩
  cases hf : assocFind str s.m_offset_map with
  | none => exact absurd (getOffset_of_none hf) hne
  | some o => rw [getOffset_of_find hf]; exact h1 o hf

theorem offsets_aligned_witness :
    Reached examplePlatform [(strA, nameX), (strB, nameX)] tableAB ∧
    getOffset tableAB strB = 40 ∧
    ((∀ o, assocFind strB tableAB.m_offset_map = some o → (8 : Int) ∣ o) ∧
      (getOffset tableAB strB ≠ -1 → (8 : Int) ∣ getOffset tableAB strB)) :=
  ⟨reached_tableAB, rfl, offsets_aligned examplePlatform _ tableAB reached_tableAB strB⟩

/-- C5, as amended: in a table of at most `2 ^ 31` bytes reached by `init` and
successful `addString` calls, for
every string with an offset `p` in `m_offset_map`, `p` is at least 16 and the
block holds, from
`p - 16` on, the 8 bytes of the hash of the string, the 8 bytes of its length,
its characters and a zero byte; read back as `size_t`, the two headers are the
hash and the length of the string.  The table may have taken further strings
and may have grown since the string was added. -/
theorem record_bytes (d : Platform) (calls : List (ustring × ustring))
    (s : StringTable) (h : Reached d calls s) (hsmall : s.m_size ≤ 2 ^ 31)
    (str : ustring) (p : Int) (hp : assocFind str s.m_offset_map = some p) :
    16 ≤ p ∧
    readBytes s.block (p.toNat - 16) 8 = sizeBytes (d.hash str) ∧
    readBytes s.block (p.toNat - 8) 8 = sizeBytes str.length ∧
    readBytes s.block p.toNat (str.length + 1) = str ++ [0] ∧
    bytesSize (readBytes s.block (p.toNat - 16) 8) = d.hash str % 2 ^ 64 ∧
    bytesSize (readBytes s.block (p.toNat - 8) 8) = str.length % 2 ^ 64 := by
  obtain ⟨_, q, hq, _, _, h16, h1, h2, h3⟩ := (h.invariant hsmall).layout.stored str p hp
  subst hq
  refine ⟨by omega, h1, h2, h3, ?_, ?_⟩
  · rw [Int.toNat_ofNat, h1]; exact bytesSize_sizeBytes _
  · rw [Int.toNat_ofNat, h2]; exact bytesSize_sizeBytes _

theorem record_bytes_witness :
    Reached examplePlatform [(strA, nameX), (strB, nameX)] tableAB ∧
    tableAB.m_size ≤ 2 ^ 31 ∧
    assocFind strB tableAB.m_offset_map = some 40 ∧
    ((16 : Int) ≤ 40 ∧
      readBytes tableAB.block ((40 : Int).toNat - 16) 8 = sizeBytes (examplePlatform.hash strB) ∧
      readBytes tableAB.block ((40 : Int).toNat - 8) 8 = sizeBytes strB.length ∧
      readBytes tableAB.block (40 : Int).toNat (strB.length + 1) = strB ++ [0] ∧
      bytesSize (readBytes tableAB.block ((40 : Int).toNat - 16) 8)
        = examplePlatform.hash strB % 2 ^ 64 ∧
      bytesSize (readBytes tableAB.block ((40 : Int).toNat - 8) 8) = strB.length % 2 ^ 64) :=
  ⟨reached_tableAB, tableAB_small, rfl,
    record_bytes examplePlatform _ tableAB reached_tableAB tableAB_small strB 40 rfl⟩

/-! ## C1: the same string twice -/

/-- C1, as amended: when `addString (v, n1)` and then `addString (v, n2)` both
succeed on a reachable table and the first call leaves a table of at most
`2 ^ 31` bytes, the write cursor after the second call is the
one after the first, and the two calls return the same address provided the
growth check of the second call does not fire, that is
`m_offset + 17 + length (v) < m_size` after the first call. -/
theorem addString_twice (d : Platform) (calls : List (ustring × ustring)) (s : StringTable)
    (h : Reached d calls s) (v n1 n2 : ustring) (depth1 depth2 a1 a2 : Nat)
    (s1 s2 : StringTable)
    (h1 : addString d depth1 s v n1 = .ok a1 s1)
    (h2 : addString d depth2 s1 v n2 = .ok a2 s2)
    (hsmall : s1.m_size ≤ 2 ^ 31) :
    s2.m_offset = s1.m_offset ∧
    (s1.m_offset + (8 + 8 + v.length + 1) < s1.m_size → a2 = a1) := by
  have hs0 : s.m_size ≤ 2 ^ 31 := Nat.le_trans (addString_m_size_mono h1) hsmall
  have hinv1 : Inv d s1 := addString_inv (h.invariant hs0) h1 hsmall
  obtain ⟨base, p, hb, hp, ha1, hmem⟩ := addString_result (h.invariant hs0) h1 hsmall
  refine ⟨(addString_known hinv1 hsmall h2 hmem).2, fun hlt => ?_⟩
  obtain ⟨t, base', hgrow, _, hb', _, hcase⟩ :=
    addString_cases hinv1 (Nat.le_trans hinv1.bound hsmall) h2
  rcases hgrow with ⟨rfl, _⟩ | ⟨hge, _⟩
  · rcases hcase with ⟨p', hp', _, ha2, _⟩ | ⟨hnew, _, _⟩
    · rw [hb] at hb'
      rw [hp] at hp'
      have e1 : base = base' := Option.some.inj hb'
      have e2 : (p : Int) = (p' : Int) := Option.some.inj hp'
      omega
    · exact absurd hmem hnew
  · omega

theorem addString_twice_witness :
    Reached examplePlatform [] emptyTable ∧
    addString examplePlatform 0 emptyTable strA nameX = .ok 16777232 tableA ∧
    addString examplePlatform 0 tableA strA nameY
      = .ok 16777232 (addString examplePlatform 0 tableA strA nameY).table ∧
    tableA.m_size ≤ 2 ^ 31 ∧
    ((addString examplePlatform 0 tableA strA nameY).table.m_offset = tableA.m_offset ∧
      (tableA.m_offset + (8 + 8 + strA.length + 1) < tableA.m_size → 16777232 = 16777232)) :=
  ⟨reached_emptyTable, rfl, rfl, tableA_small,
    addString_twice examplePlatform [] emptyTable reached_emptyTable strA nameX nameY 0 0
      16777232 16777232 tableA _ rfl rfl tableA_small⟩

/-- C1 fails as stated: on the table that `init` leaves, the string of 40000
zero characters is added twice.  The first call writes its record without
growth and returns the address 16777216 + 16.  At the second call the cursor
is 40024, the growth check `40024 + 40017 >= 65536` fires although the string
is in the table, and the call returns 33554432 + 16, an address in the new
block. -/
theorem addString_twice_moves :
    Reached examplePlatform [] emptyTable ∧
    (addString examplePlatform 1 emptyTable (zeros 40000) []).value? = some 16777232 ∧
    (addString examplePlatform 1
      (addString examplePlatform 1 emptyTable (zeros 40000) []).table
      (zeros 40000) []).value? = some 33554448 := by
  have hinv0 := reached_emptyTable.invariant emptyTable_small
  have hlen : (zeros 40000).length = 40000 := zeros_length _
  -- the first call
  have hfit0 : emptyTable.m_offset + (8 + 8 + (zeros 40000).length + 1) < emptyTable.m_size := by
    rw [hlen]; decide
  have h1 := addStringTail_new examplePlatform emptyTable (zeros 40000) [] 16777216 rfl
    (Nat.le_of_lt hfit0) rfl (by decide)
  rw [← addString_noGrow examplePlatform 1 emptyTable (zeros 40000) [] 16777216 rfl hfit0] at h1
  have hR1 := Reached.addString 1 [] emptyTable (zeros 40000) [] _ _ reached_emptyTable h1
  have hblk := (addString_block hinv0 emptyTable_small h1).1 hfit0
  have hs1 := emptyTable_small
  rw [← hblk.1] at hs1
  have hinv1 := hR1.invariant hs1
  have hnew : zeros 40000 ∉ keys emptyTable.m_name_map := fun hm => by cases hm
  have hspan : recordSpan (zeros 40000) = 40024 := by
    rw [recordSpan_zeros]
  have hcur := ((addString_name_map hinv0 h1 hs1).2 hnew).2
  rw [hspan] at hcur
  -- the second call
  rw [h1]
  refine ⟨reached_emptyTable, rfl, ?_⟩
  simp only [Outcome.table]
  generalize publish (writeRecord examplePlatform emptyTable (zeros 40000) []).1 []
    (16777216 + (emptyTable.m_offset + 16)) = s1 at *
  have hsize : s1.m_size = 65536 := hblk.1
  have hmal : s1.mallocs = 1 := hblk.2.2
  have hoff : s1.m_offset = 40024 := hcur
  have hge : s1.m_size ≤ s1.m_offset + (8 + 8 + (zeros 40000).length + 1) := by
    rw [hsize, hoff, hlen]; decide
  obtain ⟨a2, s2, h2⟩ := addString_returns hinv1 hs1 0 (zeros 40000) []
    (by rw [hsize, hoff, hlen]; decide)
  have hblk2 := (addString_block hinv1 hs1 h2).2 hge
  have hptr := hblk2.2.1
  have hs2 : s2.m_size ≤ 2 ^ 31 := by rw [hblk2.1, hsize]; decide
  obtain ⟨base, p, hb, hp, ha, hmem⟩ := addString_result hinv1 h2 hs2
  have hinv2 := addString_inv hinv1 h2 hs2
  obtain ⟨_, q, hq, hdvd, hle, h16, _⟩ := hinv2.layout.stored _ _ hp
  have hmem1 : zeros 40000 ∈ keys s1.m_name_map := by
    obtain ⟨_, _, _, _, _, hm⟩ := addString_result hinv0 h1 hs1
    exact hm
  have hcur2 := ((addString_name_map hinv1 h2 hs2).1 hmem1).2
  rw [hb, hmal, hsize] at hptr
  have hbase : base = 33554432 := by
    have := Option.some.inj hptr
    rw [this]; rfl
  rw [hcur2, hoff, hlen] at hle
  rw [h2]
  have ha2 : a2 = 33554448 := by omega
  rw [ha2]
  rfl

/-! ## C6, C7: the assertion of line 92 -/

/-- C6, as amended: when `addString (v, n)` fails the assertion
`String table allocation error` on a reachable table `s` of at most `2 ^ 31`
bytes, `reallocTable` has
run before: the table left behind has twice the capacity of `s` and a newly
allocated block; its write cursor and its name index are those of `s`, every
string of the name index is found by `getOffset`, and the table is not `s`. -/
theorem addString_allocationError (d : Platform) (calls : List (ustring × ustring))
    (s : StringTable) (h : Reached d calls s) (hsmall : s.m_size ≤ 2 ^ 31)
    (depth : Nat) (v n : ustring) (s' : StringTable)
    (hfail : addString d depth s v n = .fail .allocationError s') :
    s'.m_size = s.m_size * 2 ∧
    s'.m_ptr = some (d.cudaMalloc s.mallocs (s.m_size * 2)) ∧
    s'.mallocs = s.mallocs + 1 ∧
    s'.m_offset = s.m_offset ∧
    s'.m_name_map = s.m_name_map ∧
    (∀ k ∈ keys s.m_name_map, 0 ≤ getOffset s' k) ∧
    s' ≠ s := by
  have hinv := h.invariant hsmall
  obtain ⟨_, hcase⟩ := addString_fail hinv hsmall hfail
  rcases hcase with ⟨_, he, _⟩ | ⟨_, hrep, _⟩
  · cases he
  · refine ⟨hrep.m_size, hrep.m_ptr, hrep.mallocs, hrep.m_offset hinv, hrep.m_name_map, ?_, ?_⟩
    · intro k hk
      have hk' : k ∈ keys s'.m_name_map := by rw [hrep.m_name_map]; exact hk
      obtain ⟨p, hp, _⟩ := (hrep.inv hinv).layout.getOffset_of_mem hk'
      rw [hp]; omega
    · intro heq
      have h1 := hrep.m_size
      have h2 := hinv.size_pos
      rw [heq] at h1
      omega

theorem addString_too_long (depth n : Nat) (hn : 131072 < 8 + 8 + n + 1) :
    addString examplePlatform (depth + 1) emptyTable (zeros n) []
      = .fail .allocationError (reallocTable examplePlatform 0 emptyTable).table := by
  have hlen := zeros_length n
  have hre : reallocTable examplePlatform depth emptyTable
      = .ok () (reallocTable examplePlatform 0 emptyTable).table := rfl
  have hge : emptyTable.m_size ≤ emptyTable.m_offset + (8 + 8 + (zeros n).length + 1) := by
    rw [hlen]
    show 65536 ≤ 0 + (8 + 8 + n + 1)
    omega
  rw [addString_succ, addStringWith_grow examplePlatform _ emptyTable (zeros n) [] 16777216 rfl
    hge, hre]
  apply addStringTail_fail
  rw [hlen]
  show ¬ (0 + (8 + 8 + n + 1) ≤ 131072)
  omega

theorem addString_allocationError_witness :
    Reached examplePlatform [] emptyTable ∧
    emptyTable.m_size ≤ 2 ^ 31 ∧
    addString examplePlatform 1 emptyTable (zeros 200000) []
      = .fail .allocationError (reallocTable examplePlatform 0 emptyTable).table ∧
    ((reallocTable examplePlatform 0 emptyTable).table.m_size = emptyTable.m_size * 2 ∧
      (reallocTable examplePlatform 0 emptyTable).table.m_ptr
        = some (examplePlatform.cudaMalloc emptyTable.mallocs (emptyTable.m_size * 2)) ∧
      (reallocTable examplePlatform 0 emptyTable).table.mallocs = emptyTable.mallocs + 1 ∧
      (reallocTable examplePlatform 0 emptyTable).table.m_offset = emptyTable.m_offset ∧
      (reallocTable examplePlatform 0 emptyTable).table.m_name_map = emptyTable.m_name_map ∧
      (∀ k ∈ keys emptyTable.m_name_map,
        0 ≤ getOffset (reallocTable examplePlatform 0 emptyTable).table k) ∧
      (reallocTable examplePlatform 0 emptyTable).table ≠ emptyTable) :=
  ⟨reached_emptyTable, emptyTable_small, addString_too_long 0 200000 (by decide),
    addString_allocationError examplePlatform [] emptyTable reached_emptyTable emptyTable_small 1
      (zeros 200000) [] _ (addString_too_long 0 200000 (by decide))⟩

/-- C6 fails as stated: on the table that `init` leaves, with capacity 65536,
`addString` of a string of 200000 characters fails the assertion of line 92,
and the table it leaves has capacity 131072, a block at another address and
one more allocation behind it. -/
theorem addString_failure_keeps_growth :
    Reached examplePlatform [] emptyTable ∧
    emptyTable.m_size = 65536 ∧ emptyTable.m_ptr = some 16777216 ∧
    (addString examplePlatform 1 emptyTable (zeros 200000) []).failure?
      = some .allocationError ∧
    (addString examplePlatform 1 emptyTable (zeros 200000) []).table.m_size = 131072 ∧
    (addString examplePlatform 1 emptyTable (zeros 200000) []).table.m_ptr = some 33554432 := by
  rw [addString_too_long 0 200000 (by decide)]
  exact ⟨reached_emptyTable, rfl, rfl, rfl, rfl, rfl⟩

/-- C7, as amended: on a reachable table of at most `2 ^ 31` bytes, when the
growth check fires
(`m_offset + 17 + length (v) >= m_size`), `addString` doubles the capacity
once.  If the record fits below twice the old capacity the call returns, with
the capacity doubled; if not, the call fails the assertion
`String table allocation error`, with the capacity doubled once and not
again.  There is no ceiling on the capacity. -/
theorem addString_grows_once (d : Platform) (calls : List (ustring × ustring))
    (s : StringTable) (h : Reached d calls s) (hsmall : s.m_size ≤ 2 ^ 31)
    (depth : Nat) (v n : ustring)
    (hgrow : s.m_size ≤ s.m_offset + (8 + 8 + v.length + 1)) :
    (s.m_offset + (8 + 8 + v.length + 1) ≤ s.m_size * 2 →
      ∃ a s', addString d (depth + 1) s v n = .ok a s' ∧ s'.m_size = s.m_size * 2) ∧
    (s.m_size * 2 < s.m_offset + (8 + 8 + v.length + 1) →
      ∃ s', addString d (depth + 1) s v n = .fail .allocationError s' ∧
        s'.m_size = s.m_size * 2) := by
  have hinv := h.invariant hsmall
  constructor
  · intro hfit
    obtain ⟨a, s', hok⟩ := addString_returns hinv hsmall depth v n hfit
    exact ⟨a, s', hok, ((addString_block hinv hsmall hok).2 hgrow).1⟩
  · intro hbig
    obtain ⟨base0, hb0⟩ := hinv.ptr
    obtain ⟨t, hre, hrep⟩ :=
      reallocTable_of_inv d depth s hinv (Nat.le_trans hinv.bound hsmall)
    refine ⟨t, ?_, hrep.m_size⟩
    rw [addString_succ, addStringWith_grow d _ s v n base0 hb0 hgrow, hre]
    apply addStringTail_fail
    rw [hrep.m_offset hinv, hrep.m_size]
    omega

theorem addString_grows_once_witness :
    Reached examplePlatform [] emptyTable ∧
    emptyTable.m_size ≤ 2 ^ 31 ∧
    emptyTable.m_size ≤ emptyTable.m_offset + (8 + 8 + (zeros 100000).length + 1) ∧
    ((emptyTable.m_offset + (8 + 8 + (zeros 100000).length + 1) ≤ emptyTable.m_size * 2 →
      ∃ a s', addString examplePlatform 1 emptyTable (zeros 100000) nameX = .ok a s' ∧
        s'.m_size = emptyTable.m_size * 2) ∧
    (emptyTable.m_size * 2 < emptyTable.m_offset + (8 + 8 + (zeros 100000).length + 1) →
      ∃ s', addString examplePlatform 1 emptyTable (zeros 100000) nameX
          = .fail .allocationError s' ∧
        s'.m_size = emptyTable.m_size * 2)) :=
  have hgrow : emptyTable.m_size ≤ emptyTable.m_offset + (8 + 8 + (zeros 100000).length + 1) := by
    rw [zeros_length]; decide
  ⟨reached_emptyTable, emptyTable_small, hgrow,
    addString_grows_once examplePlatform [] emptyTable reached_emptyTable emptyTable_small 0
      (zeros 100000) nameX hgrow⟩

/-- C7 fails as stated: the record of a string of 200000 characters takes
200017 bytes, which do not fit into 131072 but fit into 262144.  On the table
that `init` leaves, with capacity 65536, `addString` doubles the capacity
once, to 131072, and fails; allowing `reallocTable` to nest more deeply changes
nothing. -/
theorem addString_no_second_doubling :
    Reached examplePlatform [] emptyTable ∧
    8 + 8 + (zeros 200000).length + 1 ≤ 65536 * 4 ∧
    (addString examplePlatform 3 emptyTable (zeros 200000) []).value? = none ∧
    (addString examplePlatform 3 emptyTable (zeros 200000) []).failure?
      = some .allocationError ∧
    (addString examplePlatform 3 emptyTable (zeros 200000) []).table.m_size = 65536 * 2 := by
  rw [addString_too_long 2 200000 (by decide), zeros_length]
  exact ⟨reached_emptyTable, by decide, rfl, rfl, rfl⟩

/-! ## C8, C9, C10: the assertions of `init` and of line 74 -/

/-- C8: on a table whose `m_ptr` is null, that is on which `init` has not
succeeded, every `addString` call fails the assertion
`StringTable has not been initialized` and leaves the table as it was. -/
theorem addString_notInitialized (d : Platform) (depth : Nat) (s : StringTable)
    (v n : ustring) (h : s.m_ptr = none) :
    addString d depth s v n = .fail .notInitialized s :=
  addString_null d depth s v n h

theorem addString_notInitialized_witness :
    StringTable.new.m_ptr = none ∧
    addString examplePlatform 1 StringTable.new strA nameX
      = .fail .notInitialized StringTable.new :=
  ⟨rfl, addString_notInitialized examplePlatform 1 StringTable.new strA nameX rfl⟩

theorem init_of_some (d : Platform) (depth : Nat) (ctx : Context) (s : StringTable)
    (h : ∃ p, s.m_ptr = some p) : init d depth ctx s = .fail .alreadyInitialized s := by
  obtain ⟨p, hp⟩ := h
  simp only [init, hp]

/-- C9: on a table reached by `init` and successful `addString` calls, every
further `init`, whatever the context and whatever `strdecls.h` holds, fails the
assertion `StringTable should only be initialized once` and leaves the table
as it was. -/
theorem init_alreadyInitialized (d : Platform) (calls : List (ustring × ustring))
    (s : StringTable) (h : Reached d calls s) (d' : Platform) (depth : Nat) (ctx : Context) :
    init d' depth ctx s = .fail .alreadyInitialized s :=
  init_of_some d' depth ctx s h.wide.ptr

theorem init_alreadyInitialized_witness :
    Reached examplePlatform [(strA, nameX)] tableA ∧
    init examplePlatform 1 twoDevices tableA = .fail .alreadyInitialized tableA :=
  ⟨reached_tableA,
    init_alreadyInitialized examplePlatform _ tableA reached_tableA examplePlatform 1 twoDevices⟩

theorem addString_returns_noGrow {d : Platform} {s : StringTable} (hinv : Inv d s) (depth : Nat)
    (str var_name : ustring)
    (hfit : s.m_offset + (8 + 8 + str.length + 1) < s.m_size) :
    ∃ a s', addString d depth s str var_name = .ok a s' ∧ s'.m_size = s.m_size := by
  obtain ⟨base, hb⟩ := hinv.ptr
  rw [addString_noGrow d depth s str var_name base hb hfit]
  have hsz := addStringTail_m_size d s str var_name
  obtain ⟨a, h | h⟩ := addStringTail_cases d s str var_name (Nat.le_of_lt hfit)
  · rw [h] at hsz; exact ⟨_, _, h, hsz⟩
  · rw [h] at hsz; exact ⟨_, _, h, hsz⟩

theorem keys_map_strdecl (es : List (ustring × ustring)) : keys (es.map strdecl) = keys es := by
  simp [keys, strdecl, Function.comp_def]

/-- When the strings of `strdecls.h` fit together into the first block, `init`
with a context of one device returns on a newly constructed table. -/
theorem init_returns (d : Platform) (depth : Nat) (ctx : Context)
    (hc : ctx.enabledDeviceCount = 1) (hfit : packedSize (keys d.strdecls) < 65536) :
    ∃ t, init d depth ctx StringTable.new = .ok () t := by
  have hstart := inv_allocated d ctx hc
  have hrun := replay_invariant (addString d depth) (d.strdecls.map strdecl)
    (fun pre t => Inv d t ∧ t.m_size = 65536 ∧ t.m_offset ≤ packedSize (keys pre)) _
    ⟨hstart, rfl, Nat.le_refl _⟩
    (by
      intro pre e post t hes ⟨ht, hsize, hcur⟩
      have htot : packedSize (keys pre) + recordSpan e.1 ≤ packedSize (keys d.strdecls) := by
        have hk : keys d.strdecls = keys (d.strdecls.map strdecl) := (keys_map_strdecl _).symm
        rw [hk, hes]
        have : keys (pre ++ e :: post) = keys pre ++ e.1 :: keys post := by simp [keys]
        rw [this, packedSize_append, packedSize_cons]
        omega
      have hspan := recordSpan_ge e.1
      have hlt : t.m_offset + (8 + 8 + e.1.length + 1) < t.m_size := by omega
      obtain ⟨a, t', hok, hsz⟩ := addString_returns_noGrow ht depth e.1 e.2 hlt
      have hsm : t'.m_size ≤ 2 ^ 31 := by rw [hsz, hsize]; decide
      refine ⟨a, t', hok, addString_inv ht hok hsm, ?_, ?_⟩
      · rw [hsz]; exact hsize
      · have hk : keys (pre ++ [e]) = keys pre ++ [e.1] := by simp [keys]
        rw [hk, packedSize_append, packedSize_cons, packedSize_nil]
        have hn := addString_name_map ht hok hsm
        by_cases hmem : e.1 ∈ keys t.m_name_map
        · rw [(hn.1 hmem).2]; omega
        · rw [(hn.2 hmem).2]; omega)
  obtain ⟨t, ht, _⟩ := hrun
  refine ⟨t, ?_⟩
  simp only [init]
  rw [if_neg (not_not.mpr hc)]
  exact ht

theorem init_of_devices (d : Platform) (depth : Nat) (ctx : Context) (s : StringTable)
    (h : s.m_ptr = none) (hc : ctx.enabledDeviceCount ≠ 1) :
    init d depth ctx s = .fail .unsupportedDeviceTopology { s with m_optix_ctx := ctx } := by
  simp only [init, h]
  rw [if_pos hc]

theorem init_forgets_context (d : Platform) (depth : Nat) (ctx c : Context) (s : StringTable)
    (h : s.m_ptr = none) :
    init d depth ctx { s with m_optix_ctx := c } = init d depth ctx s := by
  simp only [init, h]

/-- C10: on a table on which `init` has not succeeded, `init` with a context
whose number of enabled devices is not 1 fails the assertion
`Only one CUDA device is currently supported`.  No block has been allocated and
no string has been added: the table is still uninitialized, `m_ptr` is null and
the maps are empty.  A following `addString` fails the assertion
`StringTable has not been initialized`, and a following `init` with a context
of one device returns, as it does on a newly constructed table, when the
strings of `strdecls.h` fit into the first block. -/
theorem init_unsupportedDeviceTopology (d : Platform) (depth : Nat) (ctx : Context)
    (s : StringTable) (hs : Uninitialized s) (hc : ctx.enabledDeviceCount ≠ 1) :
    ∃ s', init d depth ctx s = .fail .unsupportedDeviceTopology s' ∧
      Uninitialized s' ∧ s'.m_ptr = none ∧ s'.mallocs = s.mallocs ∧
      s'.m_offset_map = [] ∧ s'.m_name_map = [] ∧
      (∀ depth' v n, addString d depth' s' v n = .fail .notInitialized s') ∧
      (∀ depth' ctx', init d depth' ctx' s' = init d depth' ctx' StringTable.new) ∧
      (packedSize (keys d.strdecls) < 65536 →
        ∀ depth' ctx', ctx'.enabledDeviceCount = 1 →
          ∃ t, init d depth' ctx' s' = .ok () t ∧ ∃ p, t.m_ptr = some p) := by
  obtain ⟨c, rfl⟩ := hs
  refine ⟨{ StringTable.new with m_optix_ctx := ctx }, ?_, ⟨ctx, rfl⟩, rfl, rfl, rfl, rfl, ?_, ?_,
    ?_⟩
  · exact init_of_devices d depth ctx _ rfl hc
  · intro depth' v n
    exact addString_null d depth' _ v n rfl
  · intro depth' ctx'
    exact init_forgets_context d depth' ctx' ctx StringTable.new rfl
  · intro hfit depth' ctx' hc'
    obtain ⟨t, ht⟩ := init_returns d depth' ctx' hc' hfit
    refine ⟨t, ?_, (Reached.init depth' ctx' t ht).wide.ptr⟩
    rw [init_forgets_context d depth' ctx' ctx StringTable.new rfl]
    exact ht

theorem init_unsupportedDeviceTopology_witness :
    Uninitialized StringTable.new ∧ twoDevices.enabledDeviceCount ≠ 1 ∧
    ∃ s', init examplePlatform 1 twoDevices StringTable.new
        = .fail .unsupportedDeviceTopology s' ∧
      Uninitialized s' ∧ s'.m_ptr = none ∧ s'.mallocs = StringTable.new.mallocs ∧
      s'.m_offset_map = [] ∧ s'.m_name_map = [] ∧
      (∀ depth' v n, addString examplePlatform depth' s' v n = .fail .notInitialized s') ∧
      (∀ depth' ctx',
        init examplePlatform depth' ctx' s' = init examplePlatform depth' ctx' StringTable.new) ∧
      (packedSize (keys examplePlatform.strdecls) < 65536 →
        ∀ depth' ctx', ctx'.enabledDeviceCount = 1 →
          ∃ t, init examplePlatform depth' ctx' s' = .ok () t ∧ ∃ p, t.m_ptr = some p) :=
  ⟨⟨_, rfl⟩, by decide,
    init_unsupportedDeviceTopology examplePlatform 1 twoDevices StringTable.new ⟨_, rfl⟩
      (by decide)⟩

/-! ## C2: the context after growth -/

/-- C2, as amended: immediately after a successful `addString (v, n)` whose
growth check fired on a reachable table and which leaves a table of at most
`2 ^ 31` bytes, `m_ptr` is the block that
`reallocTable` allocated, and for every entry `(value, name)` of `m_name_map`
whose name is not empty, is the name of no other entry, and is not the name `n`
of the call unless `value` is `v`, the context holds under `name` the address
`m_ptr + getOffset (value)`. -/
theorem bindings_after_growth (d : Platform) (calls : List (ustring × ustring))
    (s : StringTable) (h : Reached d calls s) (depth : Nat) (v n : ustring) (a : Nat)
    (s' : StringTable) (hok : addString d depth s v n = .ok a s')
    (hgrow : s.m_size ≤ s.m_offset + (8 + 8 + v.length + 1))
    (hsmall : s'.m_size ≤ 2 ^ 31) :
    s'.m_ptr = some (d.cudaMalloc s.mallocs (s.m_size * 2)) ∧
    ∀ e ∈ s'.m_name_map, e.2 ≠ [] →
      (∀ e' ∈ s'.m_name_map, e'.2 = e.2 → e' = e) →
      (e.2 = n → e.1 = v) →
      ∃ p : Nat, getOffset s' e.1 = (p : Int) ∧
        s'.m_optix_ctx.vars e.2 = some (d.cudaMalloc s.mallocs (s.m_size * 2) + p) := by
  have hs0 : s.m_size ≤ 2 ^ 31 := Nat.le_trans (addString_m_size_mono hok) hsmall
  have hinv := h.invariant hs0
  refine ⟨((addString_block hinv hs0 hok).2 hgrow).2.1, ?_⟩
  obtain ⟨t, base, hg, ht, hb, hfit, hcase⟩ := addString_ok hinv hok hsmall
  rcases hg with ⟨_, hlt⟩ | ⟨_, hrep⟩
  · omega
  have hbase : base = d.cudaMalloc s.mallocs (s.m_size * 2) := by
    rw [hrep.m_ptr] at hb
    exact (Option.some.inj hb).symm
  have hperm := d.iter_perm s.m_name_map
  -- what `reallocTable` has published for an entry of the old name index
  have old : ∀ e ∈ s.m_name_map, e.2 ≠ [] → (∀ e' ∈ s.m_name_map, e'.2 = e.2 → e' = e) →
      ∃ p : Nat, assocFind e.1 t.m_offset_map = some (p : Int) ∧
        t.m_optix_ctx.vars e.2 = some (d.cudaMalloc s.mallocs (s.m_size * 2) + p) :=
    fun e he hne huniq => hrep.bound e (hperm.mem_iff.mpr he) hne
      (fun e' he' => huniq e' (hperm.mem_iff.mp he'))
  intro e he hne huniq hn
  rcases hcase with ⟨p, hp, hmem, ha, hs'⟩ | ⟨hnew, ha, hs'⟩
  · -- `v` was in the table
    rw [hs', publish_m_name_map, hrep.m_name_map] at he huniq
    obtain ⟨q, hq, hv⟩ := old e he hne huniq
    rw [hs', publish_getOffset]
    refine ⟨q, getOffset_of_find hq, ?_⟩
    by_cases hen : e.2 = n
    · have hev := hn hen
      rw [hev, hp] at hq
      have hpq : (p : Int) = (q : Int) := Option.some.inj hq
      rw [hen, publish_vars_self _ _ _ (hen ▸ hne), ha, hbase]
      congr 1
      omega
    · rw [publish_vars_ne _ _ _ _ hen]; exact hv
  · -- `v` is new
    have hnm : (writeRecord d t v n).1.m_name_map = s.m_name_map ++ [(v, n)] := by
      rw [writeRecord_fst]
      show assocSet v n t.m_name_map = _
      rw [assocSet_of_not_mem n hnew, hrep.m_name_map]
    have hom : (writeRecord d t v n).1.m_offset_map
        = assocSet v ((t.m_offset + 8 + 8 : Nat) : Int) t.m_offset_map := by
      rw [writeRecord_m_offset_map, toInt32_of_lt _ (by omega)]
    rw [hs', publish_m_name_map, hnm] at he huniq
    rw [hs', publish_getOffset]
    rcases List.mem_append.mp he with he | he
    · have hkey : e.1 ∈ keys t.m_name_map := by
        rw [hrep.m_name_map]; exact List.mem_map.mpr ⟨e, he, rfl⟩
      have hev : e.1 ≠ v := fun h => hnew (h ▸ hkey)
      have hen : e.2 ≠ n := by
        intro h
        have := huniq (v, n) (List.mem_append_right _ (List.mem_singleton_self _)) h.symm
        exact hev (by rw [← this])
      obtain ⟨q, hq, hv⟩ := old e he hne
        (fun e' he' => huniq e' (List.mem_append_left _ he'))
      refine ⟨q, ?_, ?_⟩
      · apply getOffset_of_find
        rw [hom, assocFind_assocSet_ne _ _ _ _ hev]; exact hq
      · rw [publish_vars_ne _ _ _ _ hen, writeRecord_fst]; exact hv
    · have : e = (v, n) := List.mem_singleton.mp he
      subst this
      refine ⟨t.m_offset + 16, ?_, ?_⟩
      · apply getOffset_of_find
        rw [hom]; exact assocFind_assocSet_self _ _ _
      · rw [publish_vars_self _ _ _ hne, ha, hbase]

theorem bindings_after_growth_witness :
    Reached examplePlatform [(strA, nameX)] tableA ∧
    tableA.m_size ≤ tableA.m_offset + (8 + 8 + (zeros 65510).length + 1) ∧
    ∃ a s', addString examplePlatform 1 tableA (zeros 65510) nameY = .ok a s' ∧
      s'.m_size ≤ 2 ^ 31 ∧
      (s'.m_ptr = some (examplePlatform.cudaMalloc tableA.mallocs (tableA.m_size * 2)) ∧
      ∀ e ∈ s'.m_name_map, e.2 ≠ [] →
        (∀ e' ∈ s'.m_name_map, e'.2 = e.2 → e' = e) →
        (e.2 = nameY → e.1 = zeros 65510) →
        ∃ p : Nat, getOffset s' e.1 = (p : Int) ∧
          s'.m_optix_ctx.vars e.2
            = some (examplePlatform.cudaMalloc tableA.mallocs (tableA.m_size * 2) + p)) := by
  have hgrow : tableA.m_size ≤ tableA.m_offset + (8 + 8 + (zeros 65510).length + 1) := by
    rw [zeros_length]; decide
  have hinv := reached_tableA.invariant tableA_small
  obtain ⟨a, s', hok⟩ := addString_returns hinv tableA_small 0 (zeros 65510) nameY
    (by rw [zeros_length]; decide)
  have hsm : s'.m_size ≤ 2 ^ 31 := by
    rw [((addString_block hinv tableA_small hok).2 hgrow).1]; decide
  exact ⟨reached_tableA, hgrow, a, s', hok, hsm,
    bindings_after_growth examplePlatform _ tableA reached_tableA 1 (zeros 65510) nameY a s'
      hok hgrow hsm⟩

theorem publish_nil (s : StringTable) (a : Nat) : publish s [] a = s := rfl

/-- C2 fails as stated: `a` and `b` are both added under the name `X`, and a
third call, with a string of 65500 characters and no name, makes the table
grow.  After that call `(a, X)` is an entry of `m_name_map`, the block is at
33554432 and `getOffset (a)` is 16, but the context holds 33554432 + 40 under
`X`, the address of `b`, which `reallocTable` published after that of `a`. -/
theorem bindings_after_growth_shared_name :
    Reached examplePlatform [(strA, nameX), (strB, nameX)] tableAB ∧
    tableAB.m_size ≤ tableAB.m_offset + (8 + 8 + (zeros 65500).length + 1) ∧
    (addString examplePlatform 1 tableAB (zeros 65500) []).value? = some 33554496 ∧
    (strA, nameX) ∈ (addString examplePlatform 1 tableAB (zeros 65500) []).table.m_name_map ∧
    (addString examplePlatform 1 tableAB (zeros 65500) []).table.m_ptr = some 33554432 ∧
    getOffset (addString examplePlatform 1 tableAB (zeros 65500) []).table strA = 16 ∧
    (addString examplePlatform 1 tableAB (zeros 65500) []).table.m_optix_ctx.vars nameX
      = some 33554472 := by
  have hlen := zeros_length 65500
  have hgrow : tableAB.m_size ≤ tableAB.m_offset + (8 + 8 + (zeros 65500).length + 1) := by
    rw [hlen]; decide
  have hre : reallocTable examplePlatform 0 tableAB
      = .ok () (reallocTable examplePlatform 0 tableAB).table := rfl
  have hfit : (reallocTable examplePlatform 0 tableAB).table.m_offset
      + (8 + 8 + (zeros 65500).length + 1)
      ≤ (reallocTable examplePlatform 0 tableAB).table.m_size := by
    rw [hlen]; decide
  have hneA : strA ≠ zeros 65500 := by
    intro h
    have := congrArg List.length h
    rw [hlen] at this
    exact absurd this (by decide)
  have hneB : strB ≠ zeros 65500 := by
    intro h
    have := congrArg List.length h
    rw [hlen] at this
    exact absurd this (by decide)
  have hnone : assocFind (zeros 65500) (reallocTable examplePlatform 0 tableAB).table.m_offset_map
      = none := by
    show assocFind (zeros 65500) [(strA, 16), (strB, 40)] = none
    simp [assocFind, hneA, hneB]
  have hcall : addString examplePlatform 1 tableAB (zeros 65500) []
      = .ok (33554432 + ((reallocTable examplePlatform 0 tableAB).table.m_offset + 16))
        (publish (writeRecord examplePlatform (reallocTable examplePlatform 0 tableAB).table
          (zeros 65500) []).1 []
          (33554432 + ((reallocTable examplePlatform 0 tableAB).table.m_offset + 16))) := by
    rw [addString_succ, addStringWith_grow examplePlatform _ tableAB (zeros 65500) [] 16777216
      rfl hgrow, hre]
    exact addStringTail_new examplePlatform _ (zeros 65500) [] 33554432 rfl hfit hnone
      (by decide)
  have hw := writeRecord_fst examplePlatform (reallocTable examplePlatform 0 tableAB).table
    (zeros 65500) []
  refine ⟨reached_tableAB, hgrow, ?_, ?_, ?_, ?_, ?_⟩
  · rw [hcall]; rfl
  · rw [hcall]
    show (strA, nameX) ∈ (publish _ [] _).m_name_map
    rw [publish_nil, hw]
    show (strA, nameX) ∈ assocSet (zeros 65500) [] [(strA, nameX), (strB, nameX)]
    simp [assocSet, hneA, hneB]
  · rw [hcall]; rfl
  · rw [hcall]
    show getOffset (publish _ [] _) strA = 16
    rw [publish_nil]
    apply getOffset_of_find
    rw [hw]
    show assocFind strA (assocSet (zeros 65500) _ [(strA, 16), (strB, 40)]) = some 16
    rw [assocFind_assocSet_ne _ _ _ _ hneA]
    rfl
  · rw [hcall]; rfl

/-! ## Induction over the history of a reachable table -/

theorem inv_of_allocated (d : Platform) (ctx : Context) (hc : ctx.enabledDeviceCount = 1) :
    Inv d (allocated d ctx) :=
  inv_allocated d ctx hc

theorem replay_history {d : Platform} (depth : Nat)
    (R : List (ustring × ustring) → StringTable → Prop)
    (step : ∀ calls s str var_name a s', Inv d s → R calls s →
      addString d depth s str var_name = .ok a s' → s'.m_size ≤ 2 ^ 31 →
      R (calls ++ [(str, var_name)]) s')
    (es : List (ustring × ustring)) :
    ∀ calls s t, Inv d s → R calls s → replay (addString d depth) es s = .ok () t →
      t.m_size ≤ 2 ^ 31 → R (calls ++ es) t := by
  induction es with
  | nil =>
    intro calls s t _ hR h _
    simp only [replay] at h
    injection h with _ h2
    subst h2
    simpa using hR
  | cons e es ih =>
    intro calls s t hs hR h ht
    simp only [replay] at h
    cases hadd : addString d depth s e.1 e.2 with
    | fail err s1 => rw [hadd] at h; cases h
    | ok a s1 =>
      rw [hadd] at h
      have hs1 : s1.m_size ≤ 2 ^ 31 := Nat.le_trans (replay_m_size_mono h) ht
      have := ih (calls ++ [(e.1, e.2)]) s1 t (addString_inv hs hadd hs1)
        (step calls s e.1 e.2 a s1 hs hR hadd hs1) h ht
      simpa using this

theorem Reached.history {d : Platform} (R : List (ustring × ustring) → StringTable → Prop)
    (base : ∀ ctx, ctx.enabledDeviceCount = 1 → R [] (allocated d ctx))
    (step : ∀ depth calls s str var_name a s', Inv d s → R calls s →
      OSL.addString d depth s str var_name = .ok a s' → s'.m_size ≤ 2 ^ 31 →
      R (calls ++ [(str, var_name)]) s')
    {calls : List (ustring × ustring)} {s : StringTable} (h : Reached d calls s)
    (hsmall : s.m_size ≤ 2 ^ 31) :
    R calls s := by
  induction h with
  | init depth ctx s hinit =>
    obtain ⟨hc, hrep⟩ := init_ok rfl hinit
    have := replay_history depth R (step depth) _ [] (allocated d ctx) s
      (inv_of_allocated d ctx hc) (base ctx hc) hrep hsmall
    simpa using this
  | addString depth calls s str var_name addr s1 hs hok ih =>
    have hs0 : s.m_size ≤ 2 ^ 31 := Nat.le_trans (addString_m_size_mono hok) hsmall
    exact step depth calls s str var_name addr s1 (hs.invariant hs0) (ih hs0) hok hsmall

/-- The strings of the name index are strings of the history. -/
theorem Reached.keys_subset {d : Platform} {calls : List (ustring × ustring)} {s : StringTable}
    (h : Reached d calls s) (hsmall : s.m_size ≤ 2 ^ 31) :
    ∀ k ∈ keys s.m_name_map, k ∈ keys calls := by
  refine Reached.history (fun calls s => ∀ k ∈ keys s.m_name_map, k ∈ keys calls) ?_ ?_ h hsmall
  · intro ctx _ k hk
    cases hk
  · intro depth calls s str var_name a s' hinv hR hok hs' k hk
    rw [keys_append]
    have hn := addString_name_map hinv hok hs'
    by_cases hmem : str ∈ keys s.m_name_map
    · rw [(hn.1 hmem).1] at hk
      exact List.mem_append_left _ (hR k hk)
    · rw [(hn.2 hmem).1, keys_append] at hk
      rcases List.mem_append.mp hk with hk | hk
      · exact List.mem_append_left _ (hR k hk)
      · exact List.mem_append_right _ hk

/-- The strings of the name index are the strings of the history, each once. -/
theorem Reached.keys_perm_dedup {d : Platform} {calls : List (ustring × ustring)}
    {s : StringTable} (h : Reached d calls s) (hsmall : s.m_size ≤ 2 ^ 31) :
    (keys s.m_name_map).Perm (keys calls).dedup := by
  apply (List.perm_ext_iff_of_nodup (h.invariant hsmall).nodup (List.nodup_dedup _)).mpr
  intro k
  rw [List.mem_dedup]
  constructor
  · exact h.keys_subset hsmall k
  · intro hk
    obtain ⟨e, he, rfl⟩ := List.mem_map.mp hk
    exact h.mem_keys hsmall e he

/-! ## C18, C19, C13: where the records lie -/

/-- C18, as amended: in a table of at most `2 ^ 31` bytes reached by `init` and
successful `addString` calls the
records lie inside the block and do not overlap: a string with offset `p` has
`0 <= p - 16` and `p + length + 1 <= m_size`, and for two different strings
with offsets `p` and `q` the ranges from `p - 16` to `p + length + 1` and from
`q - 16` to `q + length + 1` have no byte in common. -/
theorem records_disjoint (d : Platform) (calls : List (ustring × ustring))
    (s : StringTable) (h : Reached d calls s) (hsmall : s.m_size ≤ 2 ^ 31) :
    (∀ v (p : Int), assocFind v s.m_offset_map = some p →
      0 ≤ p - 16 ∧ p + v.length + 1 ≤ s.m_size) ∧
    (∀ v w (p q : Int), v ≠ w →
      assocFind v s.m_offset_map = some p → assocFind w s.m_offset_map = some q →
      p + v.length + 1 ≤ q - 16 ∨ q + w.length + 1 ≤ p - 16) := by
  have hinv := h.invariant hsmall
  have hb := hinv.bound
  constructor
  · intro v p hp
    obtain ⟨_, p', rfl, _, hle, h16, _⟩ := hinv.layout.stored v p hp
    omega
  · intro v w p q hne hp hq
    obtain ⟨_, p', rfl, _, _, _⟩ := hinv.layout.stored v p hp
    obtain ⟨_, q', rfl, _, _, _⟩ := hinv.layout.stored w q hq
    rcases hinv.layout.apart v w p' q' hne hp hq with h1 | h1
    · left; omega
    · right; omega

theorem records_disjoint_witness :
    Reached examplePlatform [(strA, nameX), (strB, nameX)] tableAB ∧
    tableAB.m_size ≤ 2 ^ 31 ∧
    assocFind strA tableAB.m_offset_map = some 16 ∧
    assocFind strB tableAB.m_offset_map = some 40 ∧
    ((∀ v (p : Int), assocFind v tableAB.m_offset_map = some p →
      0 ≤ p - 16 ∧ p + v.length + 1 ≤ tableAB.m_size) ∧
    (∀ v w (p q : Int), v ≠ w →
      assocFind v tableAB.m_offset_map = some p → assocFind w tableAB.m_offset_map = some q →
      p + v.length + 1 ≤ q - 16 ∨ q + w.length + 1 ≤ p - 16)) :=
  ⟨reached_tableAB, tableAB_small, rfl, rfl,
    records_disjoint examplePlatform _ tableAB reached_tableAB tableAB_small⟩

theorem packedSize_eq (ks : List ustring) :
    packedSize ks = (ks.map fun v => (17 + v.length + 7) / 8 * 8).sum := by
  unfold packedSize
  congr 1
  apply List.map_congr_left
  intro v _
  unfold recordSpan
  omega

theorem least_multiple (c n x : Nat) (hc : 8 ∣ c) (hx : x = c + (n + 7) / 8 * 8) :
    8 ∣ x ∧ c + n ≤ x ∧ ∀ y, 8 ∣ y → c + n ≤ y → x ≤ y := by
  subst hx
  refine ⟨by omega, by omega, fun y hy hle => by omega⟩

/-- C19, as amended: in a table of at most `2 ^ 31` bytes reached by `init` and
successful `addString` calls the
write cursor is the sum, over the strings added so far, each counted once, of
`17 + length` rounded up to a multiple of 8, and it is at most `m_size`.
Hence `reallocTable` returns with the cursor it found, and `addString` of a
string that is not in the table, when the growth check does not fire, returns
with the cursor at the least multiple of 8 that is at least
`m_offset + 17 + length`. -/
theorem cursor_is_packed_size (d : Platform) (calls : List (ustring × ustring))
    (s : StringTable) (h : Reached d calls s) (hsmall : s.m_size ≤ 2 ^ 31) :
    s.m_offset = ((keys calls).dedup.map fun v => (17 + v.length + 7) / 8 * 8).sum ∧
    s.m_offset ≤ s.m_size ∧
    (∀ depth, ∃ t, reallocTable d depth s = .ok () t ∧ t.m_offset = s.m_offset) ∧
    (∀ depth v n, v ∉ keys calls → s.m_offset + (8 + 8 + v.length + 1) < s.m_size →
      ∃ a s', addString d depth s v n = .ok a s' ∧
        8 ∣ s'.m_offset ∧ s.m_offset + (17 + v.length) ≤ s'.m_offset ∧
        ∀ y, 8 ∣ y → s.m_offset + (17 + v.length) ≤ y → s'.m_offset ≤ y) := by
  have hinv := h.invariant hsmall
  refine ⟨?_, hinv.bound, ?_, ?_⟩
  · rw [← packedSize_eq, hinv.layout.cursor]
    exact packedSize_perm (h.keys_perm_dedup hsmall)
  · intro depth
    obtain ⟨t, ht, hrep⟩ := reallocTable_of_inv d depth s hinv (Nat.le_trans hinv.bound hsmall)
    exact ⟨t, ht, hrep.m_offset hinv⟩
  · intro depth v n hv hlt
    obtain ⟨a, s', hok, hsz⟩ := addString_returns_noGrow hinv depth v n hlt
    have hnew : v ∉ keys s.m_name_map := fun hm => hv (h.keys_subset hsmall v hm)
    have hcur := ((addString_name_map hinv hok (by rw [hsz]; exact hsmall)).2 hnew).2
    refine ⟨a, s', hok, ?_⟩
    have e : 8 + 8 + v.length + 1 = 17 + v.length := by omega
    exact least_multiple s.m_offset (17 + v.length) s'.m_offset hinv.layout.dvd_cursor
      (by rw [hcur, recordSpan, e])

theorem cursor_is_packed_size_witness :
    Reached examplePlatform [(strA, nameX), (strB, nameX)] tableAB ∧
    tableAB.m_size ≤ 2 ^ 31 ∧
    tableAB.m_offset = 48 ∧
    (tableAB.m_offset
      = ((keys [(strA, nameX), (strB, nameX)]).dedup.map
          fun v => (17 + v.length + 7) / 8 * 8).sum ∧
    tableAB.m_offset ≤ tableAB.m_size ∧
    (∀ depth, ∃ t, reallocTable examplePlatform depth tableAB = .ok () t ∧
      t.m_offset = tableAB.m_offset) ∧
    (∀ depth v n, v ∉ keys [(strA, nameX), (strB, nameX)] →
      tableAB.m_offset + (8 + 8 + v.length + 1) < tableAB.m_size →
      ∃ a s', addString examplePlatform depth tableAB v n = .ok a s' ∧
        8 ∣ s'.m_offset ∧ tableAB.m_offset + (17 + v.length) ≤ s'.m_offset ∧
        ∀ y, 8 ∣ y → tableAB.m_offset + (17 + v.length) ≤ y → s'.m_offset ≤ y)) :=
  ⟨reached_tableAB, tableAB_small, rfl,
    cursor_is_packed_size examplePlatform _ tableAB reached_tableAB tableAB_small⟩

/-- C13, as amended: in a table of at most `2 ^ 31` bytes reached by `init` and
successful `addString`
calls every entry `(v, offset)` of the offset index has `16 <= offset`, and the
record, which starts 16 bytes before the stored offset, ends inside the block:
`(offset - 16) + record_size (v) <= m_size` with
`record_size (v) = 8 + 8 + length (v) + 1`. -/
theorem record_within_capacity (d : Platform) (calls : List (ustring × ustring))
    (s : StringTable) (h : Reached d calls s) (hsmall : s.m_size ≤ 2 ^ 31)
    (v : ustring) (o : Int) (ho : assocFind v s.m_offset_map = some o) :
    16 ≤ o ∧ (o - 16) + (8 + 8 + v.length + 1 : Nat) ≤ s.m_size := by
  have hb := (h.invariant hsmall).bound
  obtain ⟨_, p, rfl, _, hle, h16, _⟩ := (h.invariant hsmall).layout.stored v o ho
  omega

theorem record_within_capacity_witness :
    Reached examplePlatform [(strA, nameX), (strB, nameX)] tableAB ∧
    tableAB.m_size ≤ 2 ^ 31 ∧
    assocFind strB tableAB.m_offset_map = some 40 ∧
    ((16 : Int) ≤ 40 ∧ ((40 : Int) - 16) + (8 + 8 + strB.length + 1 : Nat) ≤ tableAB.m_size) :=
  ⟨reached_tableAB, tableAB_small, rfl,
    record_within_capacity examplePlatform _ tableAB reached_tableAB tableAB_small strB 40 rfl⟩

/-! ## Long strings in the first block -/

theorem addString_zeros_emptyTable (depth n : Nat) (name : ustring)
    (hn : 8 + 8 + n + 1 < 65536) :
    addString examplePlatform depth emptyTable (zeros n) name
      = .ok (16777216 + (emptyTable.m_offset + 16))
          (publish (writeRecord examplePlatform emptyTable (zeros n) name).1 name
            (16777216 + (emptyTable.m_offset + 16))) := by
  have hfit : emptyTable.m_offset + (8 + 8 + (zeros n).length + 1) < emptyTable.m_size := by
    rw [zeros_length]
    show 0 + (8 + 8 + n + 1) < 65536
    omega
  rw [addString_noGrow examplePlatform depth emptyTable (zeros n) name 16777216 rfl hfit]
  exact addStringTail_new examplePlatform emptyTable (zeros n) name 16777216 rfl
    (Nat.le_of_lt hfit) rfl (by decide)

theorem tableZ_eq :
    tableZ = publish (writeRecord examplePlatform emptyTable (zeros 40000) []).1 []
      (16777216 + (emptyTable.m_offset + 16)) := by
  unfold tableZ
  rw [addString_zeros_emptyTable 0 40000 [] (by decide)]
  rfl

theorem reached_tableZ : Reached examplePlatform [(zeros 40000, [])] tableZ := by
  have h := addString_zeros_emptyTable 0 40000 [] (by decide)
  rw [← tableZ_eq] at h
  exact Reached.addString 0 [] emptyTable (zeros 40000) [] _ tableZ reached_emptyTable h

theorem tableZ_find : assocFind (zeros 40000) tableZ.m_offset_map = some 16 := by
  rw [tableZ_eq, publish_m_offset_map, writeRecord_fst]
  exact assocFind_assocSet_self _ _ _

theorem tableZ_m_size : tableZ.m_size = 65536 := by
  rw [tableZ_eq, publish_m_size, writeRecord_fst]
  rfl

theorem tableZ_m_ptr : tableZ.m_ptr = some 16777216 := by
  rw [tableZ_eq, publish_m_ptr, writeRecord_fst]
  rfl

theorem tableZ_mallocs : tableZ.mallocs = 1 := by
  rw [tableZ_eq, publish_mallocs, writeRecord_fst]
  rfl

theorem tableZ_m_offset : tableZ.m_offset = 40024 := by
  have h8 : 8 ∣ emptyTable.m_offset := ⟨0, rfl⟩
  have hcur := writeRecord_m_offset examplePlatform emptyTable (zeros 40000) [] h8
    (by rw [zeros_length]; decide)
  rw [recordSpan_zeros] at hcur
  rw [tableZ_eq, publish_m_offset, hcur]
  rfl

/-- C13 fails as stated: the string of 65518 zero characters is added to the
table that `init` leaves.  Its record takes `8 + 8 + 65518 + 1 = 65535` bytes
from offset 0, so the growth check does not fire and the capacity stays 65536.
The stored offset is 16, that of the characters, and
`16 + 65535 = 65551` is more than 65536. -/
theorem record_past_capacity :
    Reached examplePlatform [] emptyTable ∧
    (addString examplePlatform 0 emptyTable (zeros 65518) []).value? = some 16777232 ∧
    assocFind (zeros 65518)
      (addString examplePlatform 0 emptyTable (zeros 65518) []).table.m_offset_map = some 16 ∧
    (addString examplePlatform 0 emptyTable (zeros 65518) []).table.m_size = 65536 ∧
    ¬ ((16 : Int) + (8 + 8 + (zeros 65518).length + 1 : Nat) ≤ (65536 : Nat)) := by
  have hcall := addString_zeros_emptyTable 0 65518 [] (by decide)
  refine ⟨reached_emptyTable, ?_, ?_, ?_, ?_⟩
  · rw [hcall]; rfl
  · rw [hcall]
    show assocFind (zeros 65518) (publish _ [] _).m_offset_map = some 16
    rw [publish_m_offset_map, writeRecord_fst]
    exact assocFind_assocSet_self _ _ _
  · rw [hcall]
    show (publish _ [] _).m_size = 65536
    rw [publish_m_size, writeRecord_fst]
    rfl
  · rw [zeros_length]; decide

/-! ## C12: a string that is in the table -/

/-- C12, as amended: on a reachable table of at most `2 ^ 31` bytes in which `v`
is in the offset index,
`addString (v, n)` makes the growth check all the same.  When the check does
not fire (`m_offset + 17 + length (v) < m_size`) the call writes nothing:
`m_size`, `m_ptr`, the block, the write cursor, the offset index and the name
index are as before, and only the context may have changed, by the address
published under a name that is not empty.  When the check fires, the call
returns after `reallocTable`: the capacity is doubled and the block is a new
one, while the write cursor and the name index are as before. -/
theorem addString_present (d : Platform) (calls : List (ustring × ustring))
    (s : StringTable) (h : Reached d calls s) (hsmall : s.m_size ≤ 2 ^ 31)
    (depth : Nat) (v n : ustring) (o : Int)
    (ho : assocFind v s.m_offset_map = some o) :
    (s.m_offset + (8 + 8 + v.length + 1) < s.m_size →
      ∃ a s', addString d depth s v n = .ok a s' ∧ s' = publish s n a ∧
        s'.m_size = s.m_size ∧ s'.m_ptr = s.m_ptr ∧ s'.block = s.block ∧
        s'.mallocs = s.mallocs ∧ s'.m_offset = s.m_offset ∧
        s'.m_offset_map = s.m_offset_map ∧ s'.m_name_map = s.m_name_map) ∧
    (s.m_size ≤ s.m_offset + (8 + 8 + v.length + 1) →
      ∃ a s', addString d (depth + 1) s v n = .ok a s' ∧
        s'.m_size = s.m_size * 2 ∧
        s'.m_ptr = some (d.cudaMalloc s.mallocs (s.m_size * 2)) ∧
        s'.mallocs = s.mallocs + 1 ∧
        s'.m_offset = s.m_offset ∧ s'.m_name_map = s.m_name_map) := by
  have hinv := h.invariant hsmall
  obtain ⟨hmem, p, rfl, _, hle, h16, _⟩ := hinv.layout.stored v o ho
  have hb := hinv.bound
  constructor
  · intro hlt
    obtain ⟨base, hbase⟩ := hinv.ptr
    refine ⟨base + p, publish s n (base + p), ?_, rfl, publish_m_size _ _ _, publish_m_ptr _ _ _,
      publish_block _ _ _, publish_mallocs _ _ _, publish_m_offset _ _ _,
      publish_m_offset_map _ _ _, publish_m_name_map _ _ _⟩
    rw [addString_noGrow d depth s v n base hbase hlt]
    exact addStringTail_found d s v n base p hbase (Nat.le_of_lt hlt) ho
  · intro hge
    obtain ⟨a, s', hok⟩ := addString_returns hinv hsmall depth v n (by omega)
    have hblk := (addString_block hinv hsmall hok).2 hge
    have hnm := addString_known hinv hsmall hok hmem
    exact ⟨a, s', hok, hblk.1, hblk.2.1, hblk.2.2, hnm.2, hnm.1⟩

theorem addString_present_witness :
    Reached examplePlatform [(strA, nameX)] tableA ∧
    tableA.m_size ≤ 2 ^ 31 ∧
    assocFind strA tableA.m_offset_map = some 16 ∧
    ((tableA.m_offset + (8 + 8 + strA.length + 1) < tableA.m_size →
      ∃ a s', addString examplePlatform 0 tableA strA nameY = .ok a s' ∧
        s' = publish tableA nameY a ∧
        s'.m_size = tableA.m_size ∧ s'.m_ptr = tableA.m_ptr ∧ s'.block = tableA.block ∧
        s'.mallocs = tableA.mallocs ∧ s'.m_offset = tableA.m_offset ∧
        s'.m_offset_map = tableA.m_offset_map ∧ s'.m_name_map = tableA.m_name_map) ∧
    (tableA.m_size ≤ tableA.m_offset + (8 + 8 + strA.length + 1) →
      ∃ a s', addString examplePlatform (0 + 1) tableA strA nameY = .ok a s' ∧
        s'.m_size = tableA.m_size * 2 ∧
        s'.m_ptr = some (examplePlatform.cudaMalloc tableA.mallocs (tableA.m_size * 2)) ∧
        s'.mallocs = tableA.mallocs + 1 ∧
        s'.m_offset = tableA.m_offset ∧ s'.m_name_map = tableA.m_name_map)) :=
  ⟨reached_tableA, tableA_small, rfl,
    addString_present examplePlatform _ tableA reached_tableA tableA_small 0 strA nameY 16 rfl⟩

/-- C12 fails as stated: the string of 40000 zero characters is in `tableZ`,
at offset 16, and the cursor is 40024 of 65536.  `addString` of that string
finds `40024 + 40017 >= 65536`, calls `reallocTable`, and returns a table with
capacity 131072 and a block at another address. -/
theorem addString_present_grows :
    Reached examplePlatform [(zeros 40000, [])] tableZ ∧
    assocFind (zeros 40000) tableZ.m_offset_map = some 16 ∧
    tableZ.m_size = 65536 ∧ tableZ.m_ptr = some 16777216 ∧
    ∃ a s', addString examplePlatform 1 tableZ (zeros 40000) [] = .ok a s' ∧
      s'.m_size = 131072 ∧ s'.m_ptr = some 33554432 := by
  refine ⟨reached_tableZ, tableZ_find, tableZ_m_size, tableZ_m_ptr, ?_⟩
  have hsm : tableZ.m_size ≤ 2 ^ 31 := by rw [tableZ_m_size]; decide
  have hinv := reached_tableZ.invariant hsm
  have hge : tableZ.m_size ≤ tableZ.m_offset + (8 + 8 + (zeros 40000).length + 1) := by
    rw [tableZ_m_size, tableZ_m_offset, zeros_length]; decide
  obtain ⟨a, s', hok⟩ := addString_returns hinv hsm 0 (zeros 40000) []
    (by rw [tableZ_m_size, tableZ_m_offset, zeros_length]; decide)
  have hblk := (addString_block hinv hsm hok).2 hge
  refine ⟨a, s', hok, ?_, ?_⟩
  · rw [hblk.1, tableZ_m_size]
  · rw [hblk.2.1, tableZ_mallocs, tableZ_m_size]
    rfl

/-! ## C17: `reallocTable` on a reachable table -/

/-- C17: on a table reached by `init` and successful `addString` calls,
`reallocTable` returns, with twice the capacity.  At every entry that its loop
visits, the growth check of the `addString` call is false
(`m_offset + size < m_size` in the table that the entries before have left), so
that no call of the loop reaches `reallocTable` or fails the assertion of
line 92: the call runs the same with no depth left for a nested
`reallocTable`. -/
theorem reallocTable_completes (d : Platform) (calls : List (ustring × ustring))
    (s : StringTable) (h : Reached d calls s) (depth : Nat) :
    (∃ t, reallocTable d depth s = .ok () t ∧ t.m_size = s.m_size * 2) ∧
    reallocTable d depth s
      = replay (addString d depth) (d.iter s.m_name_map) (reallocStart d s) ∧
    (∀ pre e post, d.iter s.m_name_map = pre ++ e :: post →
      ∃ u, replay (addString d depth) pre (reallocStart d s) = .ok () u ∧
        u.m_offset + (8 + 8 + e.1.length + 1) < u.m_size) ∧
    reallocTable d depth s = reallocTable d 0 s := by
  have hw := h.wide
  obtain ⟨⟨t, ht, hsz, _, _⟩, hloop, hdepth⟩ := reallocTable_spec hw h.invariant depth
  exact ⟨⟨t, ht, hsz⟩, reallocTable_eq_replay d depth s hw.devices, hloop, hdepth⟩

theorem reallocTable_completes_witness :
    Reached examplePlatform [(strA, nameX), (strB, nameX)] tableAB ∧
    tableAB.m_size = 65536 ∧
    (reallocTable examplePlatform 2 tableAB).table.m_size = 131072 ∧
    ((∃ t, reallocTable examplePlatform 2 tableAB = .ok () t ∧ t.m_size = tableAB.m_size * 2) ∧
    reallocTable examplePlatform 2 tableAB
      = replay (addString examplePlatform 2) (examplePlatform.iter tableAB.m_name_map)
          (reallocStart examplePlatform tableAB) ∧
    (∀ pre e post, examplePlatform.iter tableAB.m_name_map = pre ++ e :: post →
      ∃ u, replay (addString examplePlatform 2) pre (reallocStart examplePlatform tableAB)
          = .ok () u ∧
        u.m_offset + (8 + 8 + e.1.length + 1) < u.m_size) ∧
    reallocTable examplePlatform 2 tableAB = reallocTable examplePlatform 0 tableAB) :=
  ⟨reached_tableAB, rfl, rfl,
    reallocTable_completes examplePlatform _ tableAB reached_tableAB 2⟩

/-! ## C14: how far the capacity grows -/

theorem Reached.distinct {d : Platform} {calls : List (ustring × ustring)} {s : StringTable}
    (h : Reached d calls s) (hsmall : s.m_size ≤ 2 ^ 31) : (keys calls).Nodup →
      keys s.m_name_map = keys calls ∧ (s.m_size = 65536 ∨ s.m_size ≤ 2 * s.m_offset) := by
  refine Reached.history (fun calls s => (keys calls).Nodup →
      keys s.m_name_map = keys calls ∧ (s.m_size = 65536 ∨ s.m_size ≤ 2 * s.m_offset)) ?_ ?_ h
    hsmall
  · intro ctx _ _
    exact ⟨rfl, Or.inl rfl⟩
  · intro depth calls s str var_name a s' hinv hR hok hs' hnd
    have hs0 : s.m_size ≤ 2 ^ 31 := Nat.le_trans (addString_m_size_mono hok) hs'
    rw [keys_append] at hnd
    obtain ⟨hnd₁, _, hdisj⟩ := List.nodup_append.mp hnd
    obtain ⟨hkeys, hcap⟩ := hR hnd₁
    have hnew : str ∉ keys s.m_name_map := by
      rw [hkeys]
      intro hm
      exact hdisj hm (List.mem_singleton_self _)
    obtain ⟨hnm, hcur⟩ := (addString_name_map hinv hok hs').2 hnew
    have hspan := recordSpan_ge str
    refine ⟨by rw [hnm, keys_append, hkeys, keys_append], ?_⟩
    have hblk := addString_block hinv hs0 hok
    by_cases hlt : s.m_offset + (8 + 8 + str.length + 1) < s.m_size
    · rw [(hblk.1 hlt).1, hcur]
      rcases hcap with hc | hc
      · exact Or.inl hc
      · right; omega
    · rw [(hblk.2 (by omega)).1, hcur]
      right; omega

/-- C14, as amended: when the strings given to the successful `addString` calls
since construction, those of `init` included, are pairwise different and the
table has at most `2 ^ 31` bytes, the
capacity is `65536 * 2 ^ k` and the records, which take `T` bytes together
(each `8 + 8 + length + 1` rounded up to a multiple of 8), fit: `T` is at most
`65536 * 2 ^ k`.  The number `k` is the least with that property, or one more
than the least when the records fill the smaller block to the last byte
(`T = 65536 * 2 ^ (k - 1)`): the growth check of line 86 fires on `>=`. -/
theorem capacity_after_distinct (d : Platform) (calls : List (ustring × ustring))
    (s : StringTable) (h : Reached d calls s) (hnd : (keys calls).Nodup)
    (hsmall : s.m_size ≤ 2 ^ 31) :
    ∃ k, s.m_size = 65536 * 2 ^ k ∧ packedSize (keys calls) ≤ 65536 * 2 ^ k ∧
      ∀ j, packedSize (keys calls) ≤ 65536 * 2 ^ j →
        k ≤ j ∨ (k = j + 1 ∧ packedSize (keys calls) = 65536 * 2 ^ j) := by
  have hinv := h.invariant hsmall
  obtain ⟨hkeys, hcap⟩ := h.distinct hsmall hnd
  obtain ⟨k, hk⟩ := hinv.size
  have hT : s.m_offset = packedSize (keys calls) := by rw [hinv.layout.cursor, hkeys]
  have hb := hinv.bound
  refine ⟨k, hk, by omega, fun j hj => ?_⟩
  rcases hcap with hc | hc
  · left
    rw [hk] at hc
    have h1 : 2 ^ k = 1 := by omega
    have : k = 0 := by
      rcases Nat.eq_zero_or_pos k with h0 | h0
      · exact h0
      · have := Nat.one_lt_two_pow (Nat.pos_iff_ne_zero.mp h0)
        omega
    omega
  · have hpow : 2 ^ k ≤ 2 ^ (j + 1) := by
      rw [pow_succ]; omega
    have hkj : k ≤ j + 1 := (Nat.pow_le_pow_iff_right (by decide)).mp hpow
    rcases Nat.lt_or_ge k (j + 1) with hlt | hge
    · left; omega
    · right
      have hkeq : k = j + 1 := by omega
      refine ⟨hkeq, ?_⟩
      rw [hkeq, pow_succ] at hk
      omega

theorem capacity_after_distinct_witness :
    ∃ a s, addString examplePlatform 1 tableA (zeros 65510) nameY = .ok a s ∧
      Reached examplePlatform [(strA, nameX), (zeros 65510, nameY)] s ∧
      (keys [(strA, nameX), (zeros 65510, nameY)]).Nodup ∧
      s.m_size ≤ 2 ^ 31 ∧
      tableA.m_size = 65536 * 2 ^ 0 ∧ s.m_size = 65536 * 2 ^ 1 ∧
      ∃ k, s.m_size = 65536 * 2 ^ k ∧
        packedSize (keys [(strA, nameX), (zeros 65510, nameY)]) ≤ 65536 * 2 ^ k ∧
        ∀ j, packedSize (keys [(strA, nameX), (zeros 65510, nameY)]) ≤ 65536 * 2 ^ j →
          k ≤ j ∨ (k = j + 1 ∧
            packedSize (keys [(strA, nameX), (zeros 65510, nameY)]) = 65536 * 2 ^ j) := by
  have hgrow : tableA.m_size ≤ tableA.m_offset + (8 + 8 + (zeros 65510).length + 1) := by
    rw [zeros_length]; decide
  have hinv := reached_tableA.invariant tableA_small
  obtain ⟨a, s, hok⟩ := addString_returns hinv tableA_small 0 (zeros 65510) nameY
    (by rw [zeros_length]; decide)
  have hsz : s.m_size = 65536 * 2 ^ 1 := ((addString_block hinv tableA_small hok).2 hgrow).1
  have hsm : s.m_size ≤ 2 ^ 31 := by rw [hsz]; decide
  have hR := Reached.addString 1 _ tableA (zeros 65510) nameY a s reached_tableA hok
  have hnd : (keys [(strA, nameX), (zeros 65510, nameY)]).Nodup := by
    show [strA, zeros 65510].Nodup
    exact List.nodup_cons.mpr ⟨fun hm =>
      ne_zeros_of_length strA 65510 (by decide) (List.mem_singleton.mp hm),
      List.nodup_singleton _⟩
  exact ⟨a, s, hok, hR, hnd, hsm, rfl, hsz,
    capacity_after_distinct examplePlatform _ s hR hnd hsm⟩

/-- C14 fails as stated: one string of 65519 zero characters is added to the
table that `init` leaves on a platform with an empty `strdecls.h`.  Its record
takes `8 + 8 + 65519 + 1 = 65536` bytes, which is the capacity, so no doubling
is needed to hold it; but the growth check `0 + 65536 >= 65536` fires and the
call returns with capacity `65536 * 2`. -/
theorem capacity_doubles_on_exact_fit :
    Reached examplePlatform [] emptyTable ∧ examplePlatform.strdecls = [] ∧
    emptyTable.m_size = 65536 ∧ emptyTable.m_offset = 0 ∧
    packedSize [zeros 65519] = 65536 * 2 ^ 0 ∧
    ∃ a s', addString examplePlatform 1 emptyTable (zeros 65519) [] = .ok a s' ∧
      s'.m_size = 65536 * 2 ^ 1 := by
  refine ⟨reached_emptyTable, rfl, rfl, rfl, ?_, ?_⟩
  · rw [packedSize_cons, packedSize_nil, recordSpan_zeros]
    rfl
  · have hinv := reached_emptyTable.invariant emptyTable_small
    have hge : emptyTable.m_size ≤ emptyTable.m_offset + (8 + 8 + (zeros 65519).length + 1) := by
      rw [zeros_length]; decide
    obtain ⟨a, s', hok⟩ := addString_returns hinv emptyTable_small 0 (zeros 65519) []
      (by rw [zeros_length]; decide)
    exact ⟨a, s', hok, ((addString_block hinv emptyTable_small hok).2 hge).1⟩

/-! ## C15: the order of the records -/

theorem keys_split {β : Type} :
    ∀ (pre : List ustring) (m : List (ustring × β)) (k : ustring) (post : List ustring),
      keys m = pre ++ k :: post →
      ∃ m₁ e m₂, m = m₁ ++ e :: m₂ ∧ keys m₁ = pre ∧ e.1 = k ∧ keys m₂ = post := by
  intro pre
  induction pre with
  | nil =>
    intro m k post h
    cases m with
    | nil => cases h
    | cons e m =>
      simp only [keys, List.map_cons, List.nil_append, List.cons.injEq] at h
      exact ⟨[], e, m, rfl, rfl, h.1, h.2⟩
  | cons a pre ih =>
    intro m k post h
    cases m with
    | nil => cases h
    | cons e m =>
      simp only [keys, List.map_cons, List.cons_append, List.cons.injEq] at h
      obtain ⟨m₁, e', m₂, hm, h1, h2, h3⟩ := ih m k post h.2
      refine ⟨e :: m₁, e', m₂, by rw [hm]; rfl, ?_, h2, h3⟩
      simp only [keys, List.map_cons, List.cons.injEq]
      exact ⟨h.1, h1⟩

theorem ordered_append {t s' : StringTable} (v n : ustring) (hord : Ordered t)
    (hcur : t.m_offset = packedSize (keys t.m_name_map)) (hnew : v ∉ keys t.m_name_map)
    (hn : s'.m_name_map = t.m_name_map ++ [(v, n)])
    (ho : s'.m_offset_map = assocSet v ((t.m_offset + 8 + 8 : Nat) : Int) t.m_offset_map) :
    Ordered s' := by
  intro pre e post hsplit
  rw [ho]
  rw [hn] at hsplit
  rcases List.eq_nil_or_concat post with hnil | ⟨post₂, e₂, hcc⟩
  · subst hnil
    have hlast := List.append_inj' hsplit rfl
    have he : (v, n) = e := (List.cons.inj hlast.2).1
    rw [← he, ← hlast.1, assocFind_assocSet_self, hcur]
  · subst hcc
    have hsplit' : t.m_name_map ++ [(v, n)] = (pre ++ e :: post₂) ++ [e₂] := by
      rw [hsplit]; simp
    have hlast := List.append_inj' hsplit' rfl
    have hmem : e.1 ∈ keys t.m_name_map := by
      rw [hlast.1]; simp [keys]
    have hne : e.1 ≠ v := fun h => hnew (h ▸ hmem)
    rw [assocFind_assocSet_ne _ _ _ _ hne]
    exact hord pre e post₂ hlast.1

/-- The order of the records is kept by a call that leaves a table of at most
`2 ^ 31` bytes, when the call does not grow the table or the loop of
`reallocTable` visits the name index as it stands. -/
theorem addString_ordered {d : Platform} {s : StringTable}
    (hinv : Inv d s) (hord : Ordered s) {depth : Nat} {str var_name : ustring} {a : Nat}
    {s' : StringTable} (hok : addString d depth s str var_name = .ok a s')
    (hs' : s'.m_size ≤ 2 ^ 31)
    (hvisit : s'.m_size = s.m_size ∨ d.iter s.m_name_map = s.m_name_map) : Ordered s' := by
  obtain ⟨t, base, hgrow, ht, _, hfit, hcase⟩ := addString_ok hinv hok hs'
  have hts : s'.m_size = t.m_size := by
    rcases hcase with ⟨p, _, _, _, hs⟩ | ⟨_, _, hs⟩
    · rw [hs, publish_m_size]
    · rw [hs, publish_m_size, writeRecord_m_size]
  have hordt : Ordered t := by
    rcases hgrow with ⟨rfl, _⟩ | ⟨_, hrep⟩
    · exact hord
    · intro pre e post hsplit
      rw [hrep.m_name_map] at hsplit
      rcases hvisit with hv | hv
      · have h1 := hrep.m_size
        have h2 := hinv.size_pos
        omega
      · exact hrep.order pre e post (by rw [hv]; exact hsplit)
  rcases hcase with ⟨p, _, _, _, hs'⟩ | ⟨hnew, _, hs'⟩
  · intro pre e post hsplit
    rw [hs', publish_m_name_map] at hsplit
    rw [hs', publish_m_offset_map]
    exact hordt pre e post hsplit
  · apply ordered_append str var_name hordt ht.layout.cursor hnew
    · rw [hs', publish_m_name_map, writeRecord_fst]
      exact assocSet_of_not_mem var_name hnew
    · rw [hs', publish_m_offset_map, writeRecord_m_offset_map, toInt32_of_lt _ (by omega)]

/-- In a table that has not grown the records lie in the order of the name
index, whatever the order in which `reallocTable` would visit it. -/
theorem Reached.ordered_fresh {d : Platform}
    {calls : List (ustring × ustring)} {s : StringTable} (h : Reached d calls s)
    (hfresh : s.m_size = 65536) : Ordered s := by
  have key := Reached.history (d := d) (fun _ s => s.m_size = 65536 → Ordered s) ?_ ?_ h
    (by rw [hfresh]; decide)
  · exact key hfresh
  · intro ctx _ _ pre e post hsplit
    have : ([] : List (ustring × ustring)) = pre ++ e :: post := hsplit
    simp at this
  · intro depth calls s str var_name a s' hinv hR hok hs' hsize
    have hmono := addString_m_size_mono hok
    obtain ⟨j, hj⟩ := hinv.size
    have hpos : 0 < 2 ^ j := Nat.pos_pow_of_pos j (by decide)
    have hs : s.m_size = 65536 := by
      rw [hj] at hmono ⊢
      rw [hsize] at hmono
      have : 2 ^ j = 1 := by omega
      rw [this]
    exact addString_ordered hinv (hR hs) hok hs' (Or.inl (by rw [hsize, hs]))

theorem Reached.ordered {d : Platform} (hiter : ∀ m, d.iter m = m)
    {calls : List (ustring × ustring)} {s : StringTable} (h : Reached d calls s)
    (hsmall : s.m_size ≤ 2 ^ 31) : Ordered s := by
  refine Reached.history (fun _ s => Ordered s) ?_ ?_ h hsmall
  · intro ctx _ pre e post hsplit
    have : ([] : List (ustring × ustring)) = pre ++ e :: post := hsplit
    simp at this
  · intro depth calls s str var_name a s' hinv hR hok hs'
    exact addString_ordered hinv hR hok hs' (Or.inr (hiter _))

/-- A string that the history has before every occurrence of another one
stands before it in the name index. -/
theorem Reached.first_order {d : Platform} {calls : List (ustring × ustring)}
    {s : StringTable} (h : Reached d calls s) (hsmall : s.m_size ≤ 2 ^ 31) :
    ∀ pre v post w, keys calls = pre ++ v :: post → w ∈ post → w ∉ pre → w ≠ v →
      ∃ pre' post', keys s.m_name_map = pre' ++ v :: post' ∧ w ∈ post' := by
  have key := Reached.history (d := d)
    (fun calls s =>
      (∀ k ∈ keys s.m_name_map, k ∈ keys calls) ∧ (∀ k ∈ keys calls, k ∈ keys s.m_name_map) ∧
      ∀ pre v post w, keys calls = pre ++ v :: post → w ∈ post → w ∉ pre → w ≠ v →
        ∃ pre' post', keys s.m_name_map = pre' ++ v :: post' ∧ w ∈ post') ?_ ?_ h hsmall
  · exact key.2.2
  · intro ctx _
    refine ⟨fun k hk => (by cases hk), fun k hk => (by cases hk), ?_⟩
    intro pre v post w hsplit
    have : ([] : List ustring) = pre ++ v :: post := hsplit
    simp at this
  · intro depth calls s str var_name a s' hinv ⟨hsub, hsup, hR⟩ hok hs'
    have hn := addString_name_map hinv hok hs'
    have hmono := addString_keys_mono hinv hok hs'
    obtain ⟨_, _, _, _, _, hstr⟩ := addString_result hinv hok hs'
    have hk : keys (calls ++ [(str, var_name)]) = keys calls ++ [str] := by
      rw [keys_append]; rfl
    refine ⟨?_, ?_, ?_⟩
    · intro k hk'
      rw [hk]
      by_cases hmem : str ∈ keys s.m_name_map
      · rw [(hn.1 hmem).1] at hk'
        exact List.mem_append_left _ (hsub k hk')
      · rw [(hn.2 hmem).1, keys_append] at hk'
        rcases List.mem_append.mp hk' with hk' | hk'
        · exact List.mem_append_left _ (hsub k hk')
        · exact List.mem_append_right _ hk'
    · intro k hk'
      rw [hk] at hk'
      rcases List.mem_append.mp hk' with hk' | hk'
      · exact hmono k (hsup k hk')
      · rw [List.mem_singleton.mp hk']; exact hstr
    · intro pre v post w hsplit hw hpre hne
      rw [hk] at hsplit
      -- `post` is not empty, so it ends with `str`
      rcases List.eq_nil_or_concat post with hnil | ⟨post₀, x, hcc⟩
      · subst hnil; cases hw
      subst hcc
      rw [List.concat_eq_append] at hw
      have hsplit' : keys calls ++ [str] = (pre ++ v :: post₀) ++ [x] := by
        rw [hsplit]; simp
      have hlast := List.append_inj' hsplit' rfl
      have hx : str = x := (List.cons.inj hlast.2).1
      subst hx
      have hv : v ∈ keys s.m_name_map := hsup v (by rw [hlast.1]; simp)
      rcases List.mem_append.mp hw with hw₀ | hw₀
      · -- `w` was in the history already
        obtain ⟨pre', post', hsp, hwp⟩ := hR pre v post₀ w hlast.1 hw₀ hpre hne
        by_cases hmem : str ∈ keys s.m_name_map
        · rw [(hn.1 hmem).1]
          exact ⟨pre', post', hsp, hwp⟩
        · rw [(hn.2 hmem).1, keys_append, hsp]
          exact ⟨pre', post' ++ keys [(str, var_name)], by simp, List.mem_append_left _ hwp⟩
      · -- `w` is the string of this call
        have hws : w = str := List.mem_singleton.mp hw₀
        subst hws
        by_cases hmem : w ∈ keys s.m_name_map
        · -- then it was in the history, after `v`
          have hwc : w ∈ keys calls := hsub w hmem
          rw [hlast.1] at hwc
          have hw₁ : w ∈ post₀ := by
            rcases List.mem_append.mp hwc with h1 | h1
            · exact absurd h1 hpre
            · rcases List.mem_cons.mp h1 with h2 | h2
              · exact absurd h2 hne
              · exact h2
          obtain ⟨pre', post', hsp, hwp⟩ := hR pre v post₀ w hlast.1 hw₁ hpre hne
          rw [(hn.1 hmem).1]
          exact ⟨pre', post', hsp, hwp⟩
        · obtain ⟨pre', post', hsp⟩ := List.append_of_mem hv
          rw [(hn.2 hmem).1, keys_append, hsp]
          refine ⟨pre', post' ++ keys [(w, var_name)], by simp, ?_⟩
          exact List.mem_append_right _ (by simp [keys])

/-- Where the records lie in the order of the name index, a string that was
first added before another has the smaller offset.  (That `v` was first added
before `w`: the history has an occurrence of `v` with no occurrence of `w`
before it and one after it.) -/
theorem Reached.offsets_ordered {d : Platform} {calls : List (ustring × ustring)}
    {s : StringTable} (h : Reached d calls s) (hsmall : s.m_size ≤ 2 ^ 31) (hord : Ordered s)
    (pre post : List ustring) (v w : ustring)
    (hsplit : keys calls = pre ++ v :: post) (hw : w ∈ post) (hpre : w ∉ pre) (hne : w ≠ v) :
    getOffset s v < getOffset s w := by
  obtain ⟨pre', post', hsp, hwp⟩ := h.first_order hsmall pre v post w hsplit hw hpre hne
  obtain ⟨p₁, p₂, hp⟩ := List.append_of_mem hwp
  -- the entry of `v`
  obtain ⟨m₁, e, m₂, hm, hk₁, he, _⟩ := keys_split pre' s.m_name_map v post' hsp
  have hv := hord m₁ e m₂ hm
  rw [he, hk₁] at hv
  -- the entry of `w`
  have hsp' : keys s.m_name_map = (pre' ++ v :: p₁) ++ w :: p₂ := by
    rw [hsp, hp]; simp
  obtain ⟨n₁, e', n₂, hn, hk₂, he', _⟩ := keys_split _ s.m_name_map w p₂ hsp'
  have hwo := hord n₁ e' n₂ hn
  rw [he', hk₂, packedSize_append, packedSize_cons] at hwo
  rw [getOffset_of_find hv, getOffset_of_find hwo]
  have := recordSpan_ge v
  omega

/-- For a container that its loop visits in the order of insertion, the order
of first insertion is the order of the offsets in every reachable table of at
most `2 ^ 31` bytes, growth included. -/
theorem offsets_follow_insertion (d : Platform) (calls : List (ustring × ustring))
    (s : StringTable) (h : Reached d calls s) (hsmall : s.m_size ≤ 2 ^ 31)
    (hiter : ∀ m, d.iter m = m)
    (pre post : List ustring) (v w : ustring)
    (hsplit : keys calls = pre ++ v :: post) (hw : w ∈ post) (hpre : w ∉ pre) (hne : w ≠ v) :
    getOffset s v < getOffset s w :=
  h.offsets_ordered hsmall (h.ordered hiter hsmall) pre post v w hsplit hw hpre hne

/-- C15, as amended: `reallocTable` replays the entries of the name index in
the order in which its loop visits `m_name_map`, whatever that order is: on a
table of at most `2 ^ 31` bytes reached by `init` and successful `addString`
calls, `reallocTable` returns, and in the table it leaves an entry that the
loop visited before another one has the smaller offset.  The order of first
insertion is the order of the offsets as long as the table has not grown
(`m_size` is 65536): then a string `v` that was first added before a string `w`
has the smaller offset.  (That `v` was first added before `w`: the history has
an occurrence of `v` with no occurrence of `w` before it and one after it.) -/
theorem offsets_follow_visit (d : Platform) (calls : List (ustring × ustring))
    (s : StringTable) (h : Reached d calls s) (hsmall : s.m_size ≤ 2 ^ 31) :
    (∀ depth, ∃ t, reallocTable d depth s = .ok () t ∧
      ∀ pre e₁ mid e₂ post, d.iter s.m_name_map = pre ++ e₁ :: (mid ++ e₂ :: post) →
        getOffset t e₁.1 < getOffset t e₂.1) ∧
    (s.m_size = 65536 →
      ∀ (pre post : List ustring) (v w : ustring),
        keys calls = pre ++ v :: post → w ∈ post → w ∉ pre → w ≠ v →
        getOffset s v < getOffset s w) := by
  have hinv := h.invariant hsmall
  constructor
  · intro depth
    obtain ⟨t, ht, hrep⟩ := reallocTable_of_inv d depth s hinv (Nat.le_trans hinv.bound hsmall)
    refine ⟨t, ht, ?_⟩
    intro pre e₁ mid e₂ post hsplit
    have h1 := hrep.order pre e₁ (mid ++ e₂ :: post) hsplit
    have h2 := hrep.order (pre ++ e₁ :: mid) e₂ post (by rw [hsplit]; simp)
    have hk : keys (pre ++ e₁ :: mid) = keys pre ++ e₁.1 :: keys mid := by simp [keys]
    rw [hk, packedSize_append, packedSize_cons] at h2
    rw [getOffset_of_find h1, getOffset_of_find h2]
    have := recordSpan_ge e₁.1
    omega
  · intro hfresh pre post v w hsplit hw hpre hne
    exact h.offsets_ordered hsmall (h.ordered_fresh hfresh) pre post v w hsplit hw hpre hne

/-! ## C11: the capacity -/

theorem init_eq_replay (d : Platform) (depth : Nat) (ctx c : Context)
    (hc : ctx.enabledDeviceCount = 1) :
    init d depth ctx { StringTable.new with m_optix_ctx := c }
      = replay (addString d depth) (d.strdecls.map strdecl) (allocated d ctx) := by
  simp only [init]
  rw [if_neg (not_not.mpr hc)]
  rfl

theorem init_table (d : Platform) (depth : Nat) (ctx : Context) (s : StringTable)
    (hs : Uninitialized s ∨ (Wide d s ∧ (s.m_size ≤ 2 ^ 31 → Inv d s))) :
    (Uninitialized (init d depth ctx s).table ∨
      (Wide d (init d depth ctx s).table ∧
        ((init d depth ctx s).table.m_size ≤ 2 ^ 31 → Inv d (init d depth ctx s).table))) ∧
    ∃ j, (init d depth ctx s).table.m_size = s.m_size * 2 ^ j := by
  rcases hs with ⟨c, rfl⟩ | ⟨hw, hi⟩
  · by_cases hc : ctx.enabledDeviceCount = 1
    · rw [init_eq_replay d depth ctx c hc]
      obtain ⟨h1, h2, j, hj⟩ := replay_shape depth (d.strdecls.map strdecl) (allocated d ctx)
        (inv_of_allocated d ctx hc).toWide (fun _ => inv_of_allocated d ctx hc)
      exact ⟨Or.inr ⟨h1, h2⟩, j, hj⟩
    · rw [init_of_devices d depth ctx _ rfl hc]
      refine ⟨Or.inl ⟨ctx, rfl⟩, 0, ?_⟩
      rw [pow_zero, Nat.mul_one]
      rfl
  · rw [init_of_some d depth ctx s hw.ptr]
    exact ⟨Or.inr ⟨hw, hi⟩, 0, by simp [Outcome.table]⟩

/-- A table of a run is as the constructor left it, the context apart, or has
the shape of the reachable tables. -/
theorem Run.shape {d : Platform} {s : StringTable} (h : Run d s) :
    Uninitialized s ∨ (Wide d s ∧ (s.m_size ≤ 2 ^ 31 → Inv d s)) := by
  induction h with
  | new => exact Or.inl ⟨_, rfl⟩
  | init depth ctx s _ ih => exact (init_table d depth ctx s ih).1
  | addString depth s str var_name _ ih =>
    rcases ih with hu | ⟨hw, hi⟩
    · obtain ⟨c, rfl⟩ := hu
      rw [addString_null d depth _ str var_name rfl]
      exact Or.inl ⟨c, rfl⟩
    · obtain ⟨h1, h2, _⟩ := addString_shape hw hi depth str var_name _ rfl
      exact Or.inr ⟨h1, h2⟩

theorem Reached.run {d : Platform} {calls : List (ustring × ustring)} {s : StringTable}
    (h : Reached d calls s) : Run d s := by
  induction h with
  | init depth ctx s hinit =>
    have : Run d (OSL.init d depth ctx StringTable.new).table :=
      Run.init depth ctx StringTable.new Run.new
    rw [hinit] at this
    exact this
  | addString depth calls s str var_name addr s1 _ hok ih =>
    have : Run d (OSL.addString d depth s str var_name).table :=
      Run.addString depth s str var_name ih
    rw [hok] at this
    exact this

/-- C11: in every table that a run holds, from the constructor on, through
`init` and any `addString` calls, returned or failed, the capacity `m_size` is
`65536 * 2 ^ k` for some `k`; a call of `addString` leaves `m_size` as it was or
doubles it, a call of `init` multiplies it by a power of two, and no call makes
it smaller. -/
theorem capacity_power_of_two (d : Platform) (s : StringTable) (h : Run d s) :
    (∃ k, s.m_size = 65536 * 2 ^ k) ∧
    (∀ depth str var_name,
      ((addString d depth s str var_name).table.m_size = s.m_size ∨
        (addString d depth s str var_name).table.m_size = s.m_size * 2) ∧
      s.m_size ≤ (addString d depth s str var_name).table.m_size) ∧
    (∀ depth ctx,
      (∃ j, (init d depth ctx s).table.m_size = s.m_size * 2 ^ j) ∧
      s.m_size ≤ (init d depth ctx s).table.m_size) := by
  have hshape := h.shape
  refine ⟨?_, ?_, ?_⟩
  · rcases hshape with ⟨c, rfl⟩ | ⟨hw, _⟩
    · exact ⟨0, rfl⟩
    · exact hw.size
  · intro depth str var_name
    have hcase : (addString d depth s str var_name).table.m_size = s.m_size ∨
        (addString d depth s str var_name).table.m_size = s.m_size * 2 := by
      rcases hshape with ⟨c, rfl⟩ | ⟨hw, hi⟩
      · rw [addString_null d depth _ str var_name rfl]
        exact Or.inl rfl
      · exact (addString_shape hw hi depth str var_name _ rfl).2.2
    refine ⟨hcase, ?_⟩
    rcases hcase with h1 | h1 <;> omega
  · intro depth ctx
    obtain ⟨j, hj⟩ := (init_table d depth ctx s hshape).2
    refine ⟨⟨j, hj⟩, ?_⟩
    rw [hj]
    exact Nat.le_mul_of_pos_right _ (Nat.pos_pow_of_pos j (by decide))

theorem capacity_power_of_two_witness :
    Run examplePlatform tableAB ∧ tableAB.m_size = 65536 ∧
    ((∃ k, tableAB.m_size = 65536 * 2 ^ k) ∧
    (∀ depth str var_name,
      ((addString examplePlatform depth tableAB str var_name).table.m_size = tableAB.m_size ∨
        (addString examplePlatform depth tableAB str var_name).table.m_size
          = tableAB.m_size * 2) ∧
      tableAB.m_size ≤ (addString examplePlatform depth tableAB str var_name).table.m_size) ∧
    (∀ depth ctx,
      (∃ j, (init examplePlatform depth ctx tableAB).table.m_size = tableAB.m_size * 2 ^ j) ∧
      tableAB.m_size ≤ (init examplePlatform depth ctx tableAB).table.m_size)) :=
  ⟨reached_tableAB.run, rfl,
    capacity_power_of_two examplePlatform tableAB reached_tableAB.run⟩

/-! ## C16: a second name for a string that is in the table -/

theorem reached_tableAY : Reached examplePlatform [(strA, nameX), (strA, nameY)] tableAY :=
  Reached.addString 0 [(strA, nameX)] tableA strA nameY 16777232 tableAY reached_tableA rfl

/-- C16 does not hold of the code.  `a` is added under the name `X` and then,
being in the table, added again under the name `Y`: the context holds the
address 16777216 + 16 under both names, and `m_name_map` holds `(a, X)`.  A
third call, with a string of 65500 characters and no name, makes the table
grow: the block moves to 33554432, `getOffset (a)` is still 16, and
`reallocTable` publishes 33554432 + 16 under `X`.  Under `Y`, whose last value
is `a`, the context still holds 16777216 + 16, an address in the block that
`reallocTable` has freed. -/
theorem binding_stale_after_growth :
    Reached examplePlatform [(strA, nameX), (strA, nameY)] tableAY ∧
    tableAY.m_ptr = some 16777216 ∧
    tableAY.m_optix_ctx.vars nameY = some (16777216 + 16) ∧
    tableAY.m_name_map = [(strA, nameX)] ∧
    Reached examplePlatform [(strA, nameX), (strA, nameY), (zeros 65500, [])]
      (addString examplePlatform 1 tableAY (zeros 65500) []).table ∧
    (addString examplePlatform 1 tableAY (zeros 65500) []).table.m_ptr = some 33554432 ∧
    getOffset (addString examplePlatform 1 tableAY (zeros 65500) []).table strA = 16 ∧
    (addString examplePlatform 1 tableAY (zeros 65500) []).table.m_optix_ctx.vars nameX
      = some (33554432 + 16) ∧
    (addString examplePlatform 1 tableAY (zeros 65500) []).table.m_optix_ctx.vars nameY
      = some (16777216 + 16) := by
  have hlen := zeros_length 65500
  have hgrow : tableAY.m_size ≤ tableAY.m_offset + (8 + 8 + (zeros 65500).length + 1) := by
    rw [hlen]; decide
  have hre : reallocTable examplePlatform 0 tableAY
      = .ok () (reallocTable examplePlatform 0 tableAY).table := rfl
  have hfit : (reallocTable examplePlatform 0 tableAY).table.m_offset
      + (8 + 8 + (zeros 65500).length + 1)
      ≤ (reallocTable examplePlatform 0 tableAY).table.m_size := by
    rw [hlen]; decide
  have hneA : strA ≠ zeros 65500 := ne_zeros_of_length strA 65500 (by decide)
  have hnone : assocFind (zeros 65500) (reallocTable examplePlatform 0 tableAY).table.m_offset_map
      = none := by
    show assocFind (zeros 65500) [(strA, 16)] = none
    simp [assocFind, hneA]
  have hcall : addString examplePlatform 1 tableAY (zeros 65500) []
      = .ok (33554432 + ((reallocTable examplePlatform 0 tableAY).table.m_offset + 16))
        (publish (writeRecord examplePlatform (reallocTable examplePlatform 0 tableAY).table
          (zeros 65500) []).1 []
          (33554432 + ((reallocTable examplePlatform 0 tableAY).table.m_offset + 16))) := by
    rw [addString_succ, addStringWith_grow examplePlatform _ tableAY (zeros 65500) [] 16777216
      rfl hgrow, hre]
    exact addStringTail_new examplePlatform _ (zeros 65500) [] 33554432 rfl hfit hnone
      (by decide)
  have hw := writeRecord_fst examplePlatform (reallocTable examplePlatform 0 tableAY).table
    (zeros 65500) []
  refine ⟨reached_tableAY, rfl, rfl, rfl, ?_, ?_, ?_, ?_, ?_⟩
  · have hR := Reached.addString 1 _ tableAY (zeros 65500) [] _ _ reached_tableAY hcall
    rw [hcall]
    exact hR
  · rw [hcall]; rfl
  · rw [hcall]
    show getOffset (publish _ [] _) strA = 16
    rw [publish_nil]
    apply getOffset_of_find
    rw [hw]
    show assocFind strA (assocSet (zeros 65500) _ [(strA, 16)]) = some 16
    rw [assocFind_assocSet_ne _ _ _ _ hneA]
    rfl
  · rw [hcall]; rfl
  · rw [hcall]; rfl

/-! ## The order of the records when the map is visited in key order -/

theorem reached_tableBA : Reached sortedPlatform [(strB, nameX), (strA, nameY)] tableBA :=
  Reached.addString 0 [(strB, nameX)] _ strA nameY 16777256 tableBA
    (Reached.addString 0 [] _ strB nameX 16777232 _ (Reached.init 0 oneDevice _ rfl) rfl) rfl

/-- C15 fails as stated: on a platform whose `m_name_map` is visited in the
order of its keys, as the ordered map keyed by the string is, `b` is added
before `a`, at the offsets 16 and 40; a third call makes the table grow,
`reallocTable` writes `a` first, and afterwards `b`, the string added first,
has the larger offset. -/
theorem offsets_follow_keys_when_sorted :
    Reached sortedPlatform [(strB, nameX), (strA, nameY)] tableBA ∧
    getOffset tableBA strB = 16 ∧ getOffset tableBA strA = 40 ∧
    Reached sortedPlatform [(strB, nameX), (strA, nameY), (zeros 65500, [])]
      (addString sortedPlatform 1 tableBA (zeros 65500) []).table ∧
    getOffset (addString sortedPlatform 1 tableBA (zeros 65500) []).table strB = 40 ∧
    getOffset (addString sortedPlatform 1 tableBA (zeros 65500) []).table strA = 16 := by
  have hlen := zeros_length 65500
  have hgrow : tableBA.m_size ≤ tableBA.m_offset + (8 + 8 + (zeros 65500).length + 1) := by
    rw [hlen]; decide
  have hre : reallocTable sortedPlatform 0 tableBA
      = .ok () (reallocTable sortedPlatform 0 tableBA).table := rfl
  have hfit : (reallocTable sortedPlatform 0 tableBA).table.m_offset
      + (8 + 8 + (zeros 65500).length + 1)
      ≤ (reallocTable sortedPlatform 0 tableBA).table.m_size := by
    rw [hlen]; decide
  have hneA : strA ≠ zeros 65500 := ne_zeros_of_length strA 65500 (by decide)
  have hneB : strB ≠ zeros 65500 := ne_zeros_of_length strB 65500 (by decide)
  have hmap : (reallocTable sortedPlatform 0 tableBA).table.m_offset_map
      = [(strA, 16), (strB, 40)] := rfl
  have hnone : assocFind (zeros 65500) (reallocTable sortedPlatform 0 tableBA).table.m_offset_map
      = none := by
    rw [hmap]
    simp [assocFind, hneA, hneB]
  have hcall : addString sortedPlatform 1 tableBA (zeros 65500) []
      = .ok (33554432 + ((reallocTable sortedPlatform 0 tableBA).table.m_offset + 16))
        (publish (writeRecord sortedPlatform (reallocTable sortedPlatform 0 tableBA).table
          (zeros 65500) []).1 []
          (33554432 + ((reallocTable sortedPlatform 0 tableBA).table.m_offset + 16))) := by
    rw [addString_succ, addStringWith_grow sortedPlatform _ tableBA (zeros 65500) [] 16777216
      rfl hgrow, hre]
    exact addStringTail_new sortedPlatform _ (zeros 65500) [] 33554432 rfl hfit hnone
      (by decide)
  have hw := writeRecord_fst sortedPlatform (reallocTable sortedPlatform 0 tableBA).table
    (zeros 65500) []
  refine ⟨reached_tableBA, rfl, rfl, ?_, ?_, ?_⟩
  · have hR := Reached.addString 1 _ tableBA (zeros 65500) [] _ _ reached_tableBA hcall
    rw [hcall]
    exact hR
  · rw [hcall]
    show getOffset (publish _ [] _) strB = 40
    rw [publish_nil]
    apply getOffset_of_find
    rw [hw]
    show assocFind strB (assocSet (zeros 65500) _
      (reallocTable sortedPlatform 0 tableBA).table.m_offset_map) = some 40
    rw [assocFind_assocSet_ne _ _ _ _ hneB, hmap]
    rfl
  · rw [hcall]
    show getOffset (publish _ [] _) strA = 16
    rw [publish_nil]
    apply getOffset_of_find
    rw [hw]
    show assocFind strA (assocSet (zeros 65500) _
      (reallocTable sortedPlatform 0 tableBA).table.m_offset_map) = some 16
    rw [assocFind_assocSet_ne _ _ _ _ hneA, hmap]
    rfl

/-! ## Beyond `2 ^ 31` bytes -/

theorem runCalls_nil (d : Platform) (depth : Nat) (s : StringTable) :
    runCalls d depth s [] = s := rfl

theorem runCalls_concat (d : Platform) (depth : Nat) (s : StringTable)
    (calls : List (ustring × ustring)) (e : ustring × ustring) :
    runCalls d depth s (calls ++ [e]) = (addString d depth (runCalls d depth s calls) e.1 e.2).table := by
  unfold runCalls
  rw [List.foldl_append]
  rfl

theorem fillCalls_succ (k : Nat) : fillCalls (k + 1) = fillCalls k ++ [(fillString k, [])] := by
  unfold fillCalls
  rw [List.range_succ, List.map_append]
  rfl

theorem fillString_length (i : Nat) : (fillString i).length = 65536 * 2 ^ i - 17 :=
  zeros_length _

theorem keys_fillCalls (k : Nat) : ∀ v ∈ keys (fillCalls k), ∃ i, i < k ∧ v = fillString i := by
  intro v hv
  unfold fillCalls keys at hv
  rw [List.map_map] at hv
  obtain ⟨i, hi, rfl⟩ := List.mem_map.mp hv
  exact ⟨i, List.mem_range.mp hi, rfl⟩

theorem fillString_not_mem (k : Nat) : fillString k ∉ keys (fillCalls k) := by
  intro hm
  obtain ⟨i, hi, he⟩ := keys_fillCalls k _ hm
  have hl := congrArg List.length he
  rw [fillString_length, fillString_length] at hl
  have h1 : 2 ^ i < 2 ^ k := Nat.pow_lt_pow_right (by decide) hi
  have h2 : 0 < 2 ^ i := Nat.pos_pow_of_pos i (by decide)
  omega

/-- A new string whose record makes the table grow, to at most `2 ^ 31`
bytes. -/
theorem Reached.add_growing {d : Platform} {calls : List (ustring × ustring)} {s : StringTable}
    (h : Reached d calls s) (str var_name : ustring) (hnew : str ∉ keys calls)
    (hgrow : s.m_size ≤ s.m_offset + (8 + 8 + str.length + 1))
    (hfit : s.m_offset + (8 + 8 + str.length + 1) ≤ s.m_size * 2)
    (hpost : s.m_size * 2 ≤ 2 ^ 31) :
    ∃ a s', OSL.addString d 1 s str var_name = .ok a s' ∧
      Reached d (calls ++ [(str, var_name)]) s' ∧
      s'.m_size = s.m_size * 2 ∧ s'.m_offset = s.m_offset + recordSpan str := by
  have hsmall : s.m_size ≤ 2 ^ 31 := by omega
  have hinv := h.invariant hsmall
  obtain ⟨a, s', hok⟩ := addString_returns hinv hsmall 0 str var_name hfit
  have hsz := ((addString_block hinv hsmall hok).2 hgrow).1
  have hs' : s'.m_size ≤ 2 ^ 31 := by rw [hsz]; exact hpost
  have hn : str ∉ keys s.m_name_map := fun hm => hnew (h.keys_subset hsmall str hm)
  exact ⟨a, s', hok, Reached.addString 1 calls s str var_name a s' h hok, hsz,
    ((addString_name_map hinv hok hs').2 hn).2⟩

/-- A new string whose record fits the block as it is. -/
theorem Reached.add_fitting {d : Platform} {calls : List (ustring × ustring)} {s : StringTable}
    (h : Reached d calls s) (hsmall : s.m_size ≤ 2 ^ 31) (str var_name : ustring)
    (hnew : str ∉ keys calls)
    (hfit : s.m_offset + (8 + 8 + str.length + 1) < s.m_size) :
    ∃ a s', OSL.addString d 1 s str var_name = .ok a s' ∧
      Reached d (calls ++ [(str, var_name)]) s' ∧
      s'.m_size = s.m_size ∧ s'.m_offset = s.m_offset + recordSpan str := by
  have hinv := h.invariant hsmall
  obtain ⟨a, s', hok, hsz⟩ := addString_returns_noGrow hinv 1 str var_name hfit
  have hs' : s'.m_size ≤ 2 ^ 31 := by rw [hsz]; exact hsmall
  have hn : str ∉ keys s.m_name_map := fun hm => hnew (h.keys_subset hsmall str hm)
  exact ⟨a, s', hok, Reached.addString 1 calls s str var_name a s' h hok, hsz,
    ((addString_name_map hinv hok hs').2 hn).2⟩

/-- A new string added to a table of `2 ^ 31` bytes that is full: the table
grows to `2 ^ 32` bytes, the record is written at `2 ^ 31`, and the offset
`2 ^ 31 + 16` of its characters is stored as the `int` it converts to. -/
theorem Reached.add_past {d : Platform} {calls : List (ustring × ustring)} {s : StringTable}
    (h : Reached d calls s) (hsize : s.m_size = 2 ^ 31) (hfull : s.m_offset = 2 ^ 31)
    (str var_name : ustring) (hnew : str ∉ keys calls)
    (hlen : 8 + 8 + str.length + 1 ≤ 2 ^ 31) :
    ∃ a s', OSL.addString d 1 s str var_name = .ok a s' ∧
      Reached d (calls ++ [(str, var_name)]) s' ∧
      s'.m_size = 2 ^ 32 ∧
      s'.m_offset = alignUp8 (2 ^ 31 + 8 + 8 + (str.length + 1)) ∧
      assocFind str s'.m_offset_map = some (toInt32 (2 ^ 31 + 8 + 8)) ∧
      RecordAt d s'.block str (2 ^ 31 + 16) := by
  have hsmall : s.m_size ≤ 2 ^ 31 := by rw [hsize]
  have hinv := h.invariant hsmall
  obtain ⟨a, s', hok⟩ := addString_returns hinv hsmall 0 str var_name (by omega)
  refine ⟨a, s', hok, Reached.addString 1 calls s str var_name a s' h hok, ?_⟩
  obtain ⟨t, base, hgrow, ht, hb, hfit, hcase⟩ := addString_cases hinv (by omega) hok
  rcases hgrow with ⟨_, hlt⟩ | ⟨_, hrep⟩
  · omega
  have hto : t.m_offset = 2 ^ 31 := by rw [hrep.m_offset hinv, hfull]
  rcases hcase with ⟨p, _, hmem, _, _⟩ | ⟨_, _, hs'⟩
  · rw [hrep.m_name_map] at hmem
    exact absurd (h.keys_subset hsmall str hmem) hnew
  · refine ⟨?_, ?_, ?_, ?_⟩
    · rw [hs', publish_m_size, writeRecord_m_size, hrep.m_size, hsize]
      decide
    · rw [hs', publish_m_offset, writeRecord_cursor, hto]
    · rw [hs', publish_m_offset_map, writeRecord_m_offset_map, hto]
      exact assocFind_assocSet_self _ _ _
    · rw [hs', publish_block, ← hto]
      exact writeRecord_recordAt d t str var_name

/-- A string whose stored offset is negative is written again. -/
theorem addString_again (d : Platform) (depth : Nat) (s : StringTable) (str var_name : ustring)
    (base : Nat) (hb : s.m_ptr = some base) (hneg : getOffset s str < 0)
    (hfit : s.m_offset + (8 + 8 + str.length + 1) < s.m_size) :
    ∃ a, addString d depth s str var_name
      = .ok a (publish (writeRecord d s str var_name).1 var_name a) := by
  rw [addString_noGrow d depth s str var_name base hb hfit]
  exact ⟨_, addStringTail_write d s str var_name base hb (Nat.le_of_lt hfit) hneg⟩

theorem reached_wideTable : Reached widePlatform [] wideTable :=
  Reached.init 0 oneDevice _ rfl

/-- The fifteen strings of `fillCalls` double the capacity each. -/
theorem reached_fill (k : Nat) (hk : k ≤ 15) :
    ∃ s, Reached widePlatform (fillCalls k) s ∧
      runCalls widePlatform 1 wideTable (fillCalls k) = s ∧
      s.m_size = 65536 * 2 ^ k ∧ s.m_offset + 65536 = 65536 * 2 ^ k := by
  induction k with
  | zero =>
    exact ⟨wideTable, reached_wideTable, rfl, by decide, by decide⟩
  | succ k ih =>
    obtain ⟨s, hR, hrun, hsize, hcur⟩ := ih (by omega)
    have hpow : 2 ^ k ≤ 2 ^ 14 := Nat.pow_le_pow_right (by decide) (by omega)
    have hpos : 0 < 2 ^ k := Nat.pos_pow_of_pos k (by decide)
    norm_num at hpow
    have hlen := fillString_length k
    have hspan : recordSpan (fillString k) = 65536 * 2 ^ k := by
      unfold recordSpan; omega
    obtain ⟨a, s', hok, hR', hsz, hoff⟩ := hR.add_growing (fillString k) []
      (fillString_not_mem k) (by omega) (by omega) (by omega)
    refine ⟨s', ?_, ?_, ?_, ?_⟩
    · rw [fillCalls_succ]; exact hR'
    · rw [fillCalls_succ, runCalls_concat, hrun]
      show (addString widePlatform 1 s (fillString k) []).table = s'
      rw [hok]; rfl
    · rw [hsz, hsize, pow_succ]; ring
    · rw [hoff, hspan, pow_succ]; omega

theorem short_not_mem_fill (v : ustring) (hv : v.length < 65519) :
    v ∉ keys (fillCalls 15) := by
  intro hm
  obtain ⟨i, _, he⟩ := keys_fillCalls 15 _ hm
  have hl := congrArg List.length he
  rw [fillString_length] at hl
  have h2 : 0 < 2 ^ i := Nat.pos_pow_of_pos i (by decide)
  omega

/-- The table of `2 ^ 31` bytes, filled to the last byte, that the sixteen
strings of zero characters leave. -/
theorem reached_full :
    ∃ s, Reached widePlatform (fillCalls 15 ++ [(zeros 65518, [])]) s ∧
      runCalls widePlatform 1 wideTable (fillCalls 15 ++ [(zeros 65518, [])]) = s ∧
      s.m_size = 2 ^ 31 ∧ s.m_offset = 2 ^ 31 := by
  obtain ⟨s, hR, hrun, hsize, hcur⟩ := reached_fill 15 (Nat.le_refl _)
  norm_num at hsize hcur
  have hlen := zeros_length 65518
  have hspan : recordSpan (zeros 65518) = 65536 := by
    rw [recordSpan_zeros]
  obtain ⟨a, s', hok, hR', hsz, hoff⟩ := hR.add_fitting (by omega) (zeros 65518) []
    (short_not_mem_fill _ (by omega)) (by omega)
  refine ⟨s', hR', ?_, by omega, by omega⟩
  rw [runCalls_concat, hrun]
  show (addString widePlatform 1 s (zeros 65518) []).table = s'
  rw [hok]; rfl

theorem strA_not_mem_full : strA ∉ keys (fillCalls 15 ++ [(zeros 65518, [])]) := by
  rw [keys_append]
  intro hm
  rcases List.mem_append.mp hm with hm | hm
  · exact short_not_mem_fill strA (by decide) hm
  · exact ne_zeros_of_length strA 65518 (by decide) (List.mem_singleton.mp hm)

theorem overflowCalls_eq :
    overflowCalls = (fillCalls 15 ++ [(zeros 65518, [])]) ++ [(strA, [])] := by
  unfold overflowCalls
  rw [List.append_assoc]
  rfl

/-- The table after the history `overflowCalls`: `2 ^ 32` bytes, the cursor at
`2 ^ 31 + 24`, and the offset of `a`, which is `2 ^ 31 + 16` in the block,
stored as `-2147483632`. -/
theorem reached_overflowTable :
    Reached widePlatform overflowCalls overflowTable ∧
    overflowTable.m_size = 4294967296 ∧ overflowTable.m_offset = 2147483672 ∧
    assocFind strA overflowTable.m_offset_map = some (-2147483632) ∧
    RecordAt widePlatform overflowTable.block strA 2147483664 := by
  obtain ⟨s, hR, hrun, hsize, hcur⟩ := reached_full
  obtain ⟨a, s', hok, hR', hsz, hoff, hfind, hrec⟩ := hR.add_past hsize hcur strA []
    strA_not_mem_full (by decide)
  have he : overflowTable = s' := by
    unfold overflowTable
    rw [overflowCalls_eq, runCalls_concat, hrun]
    show (addString widePlatform 1 s strA []).table = s'
    rw [hok]; rfl
  rw [he, overflowCalls_eq]
  refine ⟨hR', by rw [hsz]; decide, by rw [hoff]; decide, ?_, hrec⟩
  rw [hfind]
  decide

/-- The table after `a` has been added once more: the second call does not find
`a`, whose stored offset is negative, and writes a second record. -/
theorem reached_overflowTableAgain :
    Reached widePlatform (overflowCalls ++ [(strA, [])]) overflowTableAgain ∧
    overflowTableAgain.m_size = 4294967296 ∧ overflowTableAgain.m_offset = 2147483696 := by
  obtain ⟨hR, hsize, hcur, hfind, _⟩ := reached_overflowTable
  obtain ⟨base, hb⟩ := hR.wide.ptr
  have hneg : getOffset overflowTable strA < 0 := by
    rw [getOffset_of_find hfind]; decide
  obtain ⟨a, hok⟩ := addString_again widePlatform 1 overflowTable strA [] base hb hneg
    (by rw [hsize, hcur]; decide)
  have he : overflowTableAgain = publish (writeRecord widePlatform overflowTable strA []).1 [] a := by
    unfold overflowTableAgain
    rw [runCalls_concat]
    show (addString widePlatform 1 overflowTable strA []).table = _
    rw [hok]; rfl
  rw [he]
  refine ⟨Reached.addString 1 _ overflowTable strA [] a _ hR hok, ?_, ?_⟩
  · rw [publish_m_size, writeRecord_m_size, hsize]
  · rw [publish_m_offset, writeRecord_cursor, hcur]
    decide

theorem offsets_follow_visit_witness :
    Reached sortedPlatform [(strB, nameX), (strA, nameY)] tableBA ∧
    tableBA.m_size ≤ 2 ^ 31 ∧
    sortedPlatform.iter tableBA.m_name_map = [(strA, nameY), (strB, nameX)] ∧
    getOffset tableBA strB = 16 ∧ getOffset tableBA strA = 40 ∧
    ((∀ depth, ∃ t, reallocTable sortedPlatform depth tableBA = .ok () t ∧
      ∀ pre e₁ mid e₂ post,
        sortedPlatform.iter tableBA.m_name_map = pre ++ e₁ :: (mid ++ e₂ :: post) →
        getOffset t e₁.1 < getOffset t e₂.1) ∧
    (tableBA.m_size = 65536 →
      ∀ (pre post : List ustring) (v w : ustring),
        keys [(strB, nameX), (strA, nameY)] = pre ++ v :: post → w ∈ post → w ∉ pre → w ≠ v →
        getOffset tableBA v < getOffset tableBA w)) :=
  ⟨reached_tableBA, by decide, rfl, rfl, rfl,
    offsets_follow_visit sortedPlatform _ tableBA reached_tableBA (by decide)⟩

/-! ## C3, C5, C18, C19 beyond `2 ^ 31` bytes -/

/-- C3 fails as stated: on `widePlatform`, after `init`, fifteen strings of
zero characters double the capacity to `2 ^ 31` bytes and a sixteenth fills the
block to the last byte.  `addString ("a", "")` then grows the table to `2 ^ 32`
bytes and writes the record of `a` at `2 ^ 31`; the offset of its characters,
`2 ^ 31 + 16`, is converted to `int` at line 105 and stored as `-2147483632`.
The call has returned, and `getOffset ("a")` is negative. -/
theorem getOffset_negative_past_2G :
    Reached widePlatform overflowCalls overflowTable ∧
    (strA, []) ∈ overflowCalls ∧
    overflowTable.m_size = 4294967296 ∧
    getOffset overflowTable strA = -2147483632 ∧
    ¬ (0 ≤ getOffset overflowTable strA) := by
  obtain ⟨hR, hsize, _, hfind, _⟩ := reached_overflowTable
  have hg := getOffset_of_find hfind
  refine ⟨hR, ?_, hsize, hg, by rw [hg]; decide⟩
  rw [overflowCalls_eq]
  exact List.mem_append_right _ (List.mem_singleton_self _)

/-- C5 fails as stated: in the table after the history `overflowCalls` the
offset index holds `-2147483632` for `a`, which is no position in the block;
the record of `a` lies at `2147483664`, which is `2 ^ 32` more. -/
theorem record_offset_negative :
    Reached widePlatform overflowCalls overflowTable ∧
    assocFind strA overflowTable.m_offset_map = some (-2147483632) ∧
    ¬ ((16 : Int) ≤ -2147483632) ∧
    RecordAt widePlatform overflowTable.block strA 2147483664 ∧
    (2147483664 : Int) = -2147483632 + 2 ^ 32 := by
  obtain ⟨hR, _, _, hfind, hrec⟩ := reached_overflowTable
  exact ⟨hR, hfind, by decide, hrec, by decide⟩

/-- C18 fails as stated: in the table after the history `overflowCalls`, of
`2 ^ 32` bytes, the offset `p` stored for `a` has `p - 16 < 0`: the range from
`p - 16` to `p + 2` does not lie inside the block. -/
theorem record_before_block :
    Reached widePlatform overflowCalls overflowTable ∧
    overflowTable.m_size = 4294967296 ∧
    assocFind strA overflowTable.m_offset_map = some (-2147483632) ∧
    ¬ ((0 : Int) ≤ -2147483632 - 16) := by
  obtain ⟨hR, hsize, _, hfind, _⟩ := reached_overflowTable
  exact ⟨hR, hsize, hfind, by decide⟩

theorem dedup_concat_mem (l : List ustring) (a : ustring) (h : a ∈ l) :
    (l ++ [a]).dedup.Perm l.dedup := by
  apply (List.perm_ext_iff_of_nodup (List.nodup_dedup _) (List.nodup_dedup _)).mpr
  intro x
  rw [List.mem_dedup, List.mem_dedup, List.mem_append, List.mem_singleton]
  constructor
  · rintro (hx | hx)
    · exact hx
    · rw [hx]; exact h
  · exact Or.inl

/-- C19 fails as stated: after the history `overflowCalls` the cursor is
`2147483672`.  One more `addString ("a", "")` finds a negative offset for `a`,
takes it for a string that is not in the table and writes a second record: the
cursor is `2147483696`, while the strings added, each counted once, are the
same as before, and so is the sum of their record sizes. -/
theorem cursor_counts_twice :
    Reached widePlatform overflowCalls overflowTable ∧
    Reached widePlatform (overflowCalls ++ [(strA, [])]) overflowTableAgain ∧
    ((keys (overflowCalls ++ [(strA, [])])).dedup.map fun v => (17 + v.length + 7) / 8 * 8).sum
      = ((keys overflowCalls).dedup.map fun v => (17 + v.length + 7) / 8 * 8).sum ∧
    overflowTable.m_offset = 2147483672 ∧ overflowTableAgain.m_offset = 2147483696 := by
  obtain ⟨hR, _, hcur, _, _⟩ := reached_overflowTable
  obtain ⟨hR', _, hcur'⟩ := reached_overflowTableAgain
  refine ⟨hR, hR', ?_, hcur, hcur'⟩
  have hmem : strA ∈ keys overflowCalls := by
    rw [overflowCalls_eq, keys_append]
    exact List.mem_append_right _ (List.mem_singleton_self _)
  have hk : keys (overflowCalls ++ [(strA, [])]) = keys overflowCalls ++ [strA] := by
    rw [keys_append]; rfl
  rw [hk]
  exact ((dedup_concat_mem _ strA hmem).map _).sum_eq

end OSL
